import Mathlib

/-!
# The glyf table: lookup accelerator and subsetting serializer

A shallow embedding of `src/OT/glyf/glyf.hh` (and of the gid mapping queries of
`src/hb-subset-plan.hh`).  Byte buffers are lists of naturals, a byte being its
value modulo 256; C `unsigned int` arithmetic is arithmetic modulo `2 ^ 32`.
-/

set_option autoImplicit false

namespace OT

/-! ## Machine integers and big-endian fields -/

/-- Result of an `unsigned int` computation: the value reduced modulo `2 ^ 32`. -/
def u32 (n : Nat) : Nat := n % 2 ^ 32

/-- A byte span (`hb_bytes_t`): the bytes it views. -/
abbrev hb_bytes_t := List Nat

/-- The byte at position `i` of a buffer; a position past the end reads as 0
(the accelerator constructor keeps every read of the index table inside it). -/
def byte_at (data : List Nat) (i : Nat) : Nat := data.getD i 0 % 256

/-- Value of the big-endian `HBUINT16` that starts at byte `off`. -/
def read_u16 (data : List Nat) (off : Nat) : Nat :=
  byte_at data off * 256 + byte_at data (off + 1)

/-- Value of the big-endian `HBUINT32` that starts at byte `off`. -/
def read_u32 (data : List Nat) (off : Nat) : Nat :=
  byte_at data off * 16777216 + byte_at data (off + 1) * 65536
    + byte_at data (off + 2) * 256 + byte_at data (off + 3)

/-- Value of the big-endian `HBINT16` that starts at byte `off` (two's complement). -/
def read_i16 (data : List Nat) (off : Nat) : Int :=
  if read_u16 data off < 32768 then (read_u16 data off : Int)
  else (read_u16 data off : Int) - 65536

/-- The two bytes of an `HBUINT16` holding `v` (the assignment keeps the low 16 bits). -/
def bytes_u16 (v : Nat) : List Nat := [v / 256 % 256, v % 256]

/-- The four bytes of an `HBUINT32` holding `v` (the assignment keeps the low 32 bits). -/
def bytes_u32 (v : Nat) : List Nat :=
  [v / 16777216 % 256, v / 65536 % 256, v / 256 % 256, v % 256]

/-! ## Glyph -/

/-- Modelled from the spec: the `Glyph` view of OT/glyf/Glyph.hh, which is not among the
sources: "one glyph's decoded outline view: byte span, glyph id"; the default-constructed
glyph is the zero-length "empty glyph" sentinel, its id being `(hb_codepoint_t) -1`. -/
structure Glyph where
  bytes : hb_bytes_t
  gid : Nat
deriving DecidableEq, Repr

/-- The glyph `Glyph ()`. -/
def Glyph.empty : Glyph := ⟨[], 2 ^ 32 - 1⟩

/-- The byte span of a glyph (`Glyph::get_bytes`). -/
def Glyph.get_bytes (g : Glyph) : hb_bytes_t := g.bytes

/-- The methods of `Glyph` whose bodies are in OT/glyf/Glyph.hh, absent from the sources;
they are parameters of the development.  `drop_hints` and `set_overlaps_flag` rewrite a
glyph's bytes in place and are given as the function from the old bytes to the new. -/
structure GlyphOps where
  trim_padding : Glyph → Glyph
  drop_hints_bytes : Glyph → hb_bytes_t × hb_bytes_t
  drop_hints : List Nat → List Nat
  set_overlaps_flag : List Nat → List Nat

/-! ## The accelerator -/

/-- Byte offset of `indexToLocFormat` in the head table (an `HBINT16`; the layout of
hb-ot-head-table.hh, which is not among the sources, is that of the OpenType head table). -/
def head_indexToLocFormat_offset : Nat := 50

/-- Byte offset of `glyphDataFormat` in the head table (an `HBINT16`). -/
def head_glyphDataFormat_offset : Nat := 52

/-- The field `head.indexToLocFormat`. -/
def head_indexToLocFormat (head : List Nat) : Int := read_i16 head head_indexToLocFormat_offset

/-- The field `head.glyphDataFormat`. -/
def head_glyphDataFormat (head : List Nat) : Int := read_i16 head head_glyphDataFormat_offset

/-- The tables of a face that the glyf code reads, and its glyph count. -/
structure hb_face_t where
  head : List Nat
  loca : List Nat
  glyf : List Nat
  num_glyphs : Nat
deriving DecidableEq, Repr

/-- The private state of `glyf_accelerator_t`. -/
structure glyf_accelerator_t where
  short_offset : Bool
  num_glyphs : Nat
  loca_table : List Nat
  glyf_table : List Nat
deriving DecidableEq, Repr

/-- The constructor `glyf_accelerator_t (hb_face_t *face)`. -/
def glyf_accelerator_t.create (face : hb_face_t) : glyf_accelerator_t :=
  if head_indexToLocFormat face.head > 1 ∨ head_glyphDataFormat face.head > 0 then
    { short_offset := false, num_glyphs := 0, loca_table := [], glyf_table := [] }
  else
    let short_offset : Bool := decide (0 = head_indexToLocFormat face.head)
    let num_glyphs := max 1 (face.loca.length / (if short_offset then 2 else 4)) - 1
    { short_offset := short_offset
      num_glyphs := min num_glyphs face.num_glyphs
      loca_table := face.loca
      glyf_table := face.glyf }

/-- The value `start_offset` of `glyph_for_gid`. -/
def glyf_accelerator_t.start_offset (a : glyf_accelerator_t) (gid : Nat) : Nat :=
  if a.short_offset then u32 (2 * read_u16 a.loca_table (2 * gid))
  else read_u32 a.loca_table (4 * gid)

/-- The value `end_offset` of `glyph_for_gid`. -/
def glyf_accelerator_t.end_offset (a : glyf_accelerator_t) (gid : Nat) : Nat :=
  if a.short_offset then u32 (2 * read_u16 a.loca_table (2 * (gid + 1)))
  else read_u32 a.loca_table (4 * (gid + 1))

/-- The method `glyf_accelerator_t::glyph_for_gid`. -/
def glyf_accelerator_t.glyph_for_gid (ops : GlyphOps) (a : glyf_accelerator_t)
    (gid : Nat) (needs_padding_removal : Bool) : Glyph :=
  if gid ≥ a.num_glyphs then Glyph.empty
  else
    let start_offset := a.start_offset gid
    let end_offset := a.end_offset gid
    if start_offset > end_offset ∨ end_offset > a.glyf_table.length then Glyph.empty
    else
      let glyph : Glyph :=
        ⟨(a.glyf_table.drop start_offset).take (end_offset - start_offset), gid⟩
      if needs_padding_removal then ops.trim_padding glyph else glyph

/-! ## The subset plan (`hb-subset-plan.hh`) -/

/-- The value `HB_MAP_VALUE_INVALID`, which `hb_map_t::get` returns for a key it does not hold. -/
def HB_MAP_VALUE_INVALID : Nat := 2 ^ 32 - 1

/-- The flag `HB_SUBSET_FLAGS_NO_HINTING`. -/
def HB_SUBSET_FLAGS_NO_HINTING : Nat := 0x1

/-- The flag `HB_SUBSET_FLAGS_SET_OVERLAPS_FLAG`. -/
def HB_SUBSET_FLAGS_SET_OVERLAPS_FLAG : Nat := 0x10

/-- The flag `HB_SUBSET_FLAGS_NOTDEF_OUTLINE`. -/
def HB_SUBSET_FLAGS_NOTDEF_OUTLINE : Nat := 0x40

/-- A table tag (`hb_tag_t`), given by the four bytes that `HB_TAG` packs into it. -/
abbrev hb_tag_t := List Nat

/-- The tag `HB_OT_TAG_loca`, that is `HB_TAG ('l','o','c','a')`. -/
def HB_OT_TAG_loca : hb_tag_t := [0x6C, 0x6F, 0x63, 0x61]

/-- The tag `HB_OT_TAG_head`, that is `HB_TAG ('h','e','a','d')`. -/
def HB_OT_TAG_head : hb_tag_t := [0x68, 0x65, 0x61, 0x64]

/-- The parts of `hb_subset_plan_t` the glyf code uses.  The two maps are given by their
`get` function; `dest` lists the tables handed to `add_table`, oldest first. -/
structure hb_subset_plan_t where
  flags : Nat
  glyph_map : Nat → Nat
  reverse_glyph_map : Nat → Nat
  _num_output_glyphs : Nat
  source : hb_face_t
  dest : List (hb_tag_t × List Nat)

namespace hb_subset_plan_t

/-- The method `num_output_glyphs`. -/
def num_output_glyphs (plan : hb_subset_plan_t) : Nat := plan._num_output_glyphs

/-- The method `new_gid_for_old_gid`: `none` for `false`, else the value stored in `*new_gid`. -/
def new_gid_for_old_gid (plan : hb_subset_plan_t) (old_gid : Nat) : Option Nat :=
  let gid := plan.glyph_map old_gid
  if gid = HB_MAP_VALUE_INVALID then none else some gid

/-- The method `old_gid_for_new_gid`: `none` for `false`, else the value stored in `*old_gid`. -/
def old_gid_for_new_gid (plan : hb_subset_plan_t) (new_gid : Nat) : Option Nat :=
  let gid := plan.reverse_glyph_map new_gid
  if gid = HB_MAP_VALUE_INVALID then none else some gid

/-- Modelled from the spec: `add_table`, whose callee `hb_face_builder_add_table` is not among
the sources: "a generic add_table(tag, bytes) sink for the two produced tables plus the
patched header".  The table is recorded and the call reports success. -/
def add_table (plan : hb_subset_plan_t) (tag : hb_tag_t) (contents : List Nat) :
    Bool × hb_subset_plan_t :=
  (true, { plan with dest := plan.dest ++ [(tag, contents)] })

/-- Test `plan->flags & flag`. -/
def has_flag (plan : hb_subset_plan_t) (flag : Nat) : Bool := plan.flags &&& flag != 0

end hb_subset_plan_t

/-- The table of the destination face with the given tag: the last one added, empty if none. -/
def find_table (dest : List (hb_tag_t × List Nat)) (tag : hb_tag_t) : List Nat :=
  match (dest.reverse.find? fun t => t.1 == tag) with
  | some t => t.2
  | none => []

/-! ## The serializer -/

/-- Modelled from the spec: `hb_serialize_context_t` of hb-serialize.hh, which is not among the
sources: "a dedicated output buffer exclusively owned by that subsetting run", whose
allocation failures "aggregate into a single success/failure flag checked once at the end".
`data` holds the bytes written so far, `room` the bytes still free, `errors` the sticky flag. -/
structure hb_serialize_context_t where
  data : List Nat
  room : Nat
  errors : Bool
deriving DecidableEq, Repr

/-- A span of the serializer's own buffer: first byte position and length. -/
structure buffer_span where
  start : Nat
  length : Nat
deriving DecidableEq, Repr

namespace hb_serialize_context_t

/-- The method `length`: the number of bytes written. -/
def length (c : hb_serialize_context_t) : Nat := c.data.length

/-- The method `in_error`. -/
def in_error (c : hb_serialize_context_t) : Bool := c.errors

/-- The method `allocate_size`: fails when the context is in error or has no room (and then
is in error); otherwise returns the position of `size` fresh zeroed bytes. -/
def allocate_size (c : hb_serialize_context_t) (size : Nat) :
    hb_serialize_context_t × Option Nat :=
  if c.errors then (c, none)
  else if c.room < size then ({ c with errors := true }, none)
  else ({ data := c.data ++ List.replicate size 0, room := c.room - size, errors := false },
        some c.data.length)

/-- Store `bytes` at position `pos`; positions outside the buffer are not touched. -/
def store : List Nat → Nat → List Nat → List Nat
  | data, _, [] => data
  | data, pos, b :: bs => store (data.set pos b) (pos + 1) bs

/-- The method `embed` for a one-byte object. -/
def embed (c : hb_serialize_context_t) (byte : Nat) : hb_serialize_context_t :=
  match c.allocate_size 1 with
  | (c1, some pos) => { c1 with data := store c1.data pos [byte] }
  | (c1, none) => c1

/-- The method `copy` for a one-byte object. -/
def copy (c : hb_serialize_context_t) (byte : Nat) : hb_serialize_context_t :=
  match c.allocate_size 1 with
  | (c1, some pos) => { c1 with data := store c1.data pos [byte] }
  | (c1, none) => c1

/-- The method `check_success`. -/
def check_success (c : hb_serialize_context_t) (success : Bool) :
    Bool × hb_serialize_context_t :=
  if c.errors then (false, c)
  else if success then (true, c)
  else (false, { c with errors := true })

/-- The bytes of a span of the buffer. -/
def view (c : hb_serialize_context_t) (s : buffer_span) : List Nat :=
  (c.data.drop s.start).take s.length

/-- What an in-place rewrite by `f` leaves in a span that held `old`.  A write through a
view neither moves nor resizes the span, so at most as many bytes as the span holds are
stored, and those `f` leaves out stay. -/
def in_place (f : List Nat → List Nat) (old : List Nat) : List Nat :=
  (f old).take old.length ++ old.drop (f old).length

/-- In-place rewrite of a span of the buffer through a typed view. -/
def mutate (c : hb_serialize_context_t) (s : buffer_span) (f : List Nat → List Nat) :
    hb_serialize_context_t :=
  let old := c.view s
  { c with data := c.data.take s.start ++ in_place f old ++ c.data.drop (s.start + old.length) }

/-- Progress order of serializer states: an error stays, and written bytes are not taken
back. -/
def le (c c1 : hb_serialize_context_t) : Prop :=
  (c.errors = true → c1.errors = true) ∧ c.data.length ≤ c1.data.length

end hb_serialize_context_t

/-- The method `hb_bytes_t::copy (hb_serialize_context_t *)`: the span of the copy, the empty
span when the allocation fails. -/
def hb_bytes_t.copy (bytes : hb_bytes_t) (c : hb_serialize_context_t) :
    hb_serialize_context_t × buffer_span :=
  match c.allocate_size bytes.length with
  | (c1, some pos) =>
      ({ c1 with data := hb_serialize_context_t.store c1.data pos bytes }, ⟨pos, bytes.length⟩)
  | (c1, none) => (c1, ⟨0, 0⟩)

/-! ## Composite glyphs -/

/-- Modelled from the spec: size of `GlyphHeader` (OT/glyf/GlyphHeader.hh is not among the
sources): the "leading contour-count field" and the four bounding-box words. -/
def GlyphHeader_size : Nat := 10

/-- Modelled from the spec: the contour count of a glyph's bytes, "a negative value denotes a
composite glyph"; a span too short for a header reads as the null header. -/
def numberOfContours (bytes : List Nat) : Int :=
  if bytes.length < GlyphHeader_size then 0 else read_i16 bytes 0

/-- Modelled from the spec: the glyph is composite. -/
def is_composite (bytes : List Nat) : Bool := decide (numberOfContours bytes < 0)

namespace CompositeGlyphChain

/-- Flag: the two anchor arguments are words, not bytes. -/
def ARG_1_AND_2_ARE_WORDS : Nat := 0x0001
/-- Flag: one scale value follows. -/
def WE_HAVE_A_SCALE : Nat := 0x0008
/-- Flag: another component follows this one. -/
def MORE_COMPONENTS : Nat := 0x0020
/-- Flag: two scale values follow. -/
def WE_HAVE_AN_X_AND_Y_SCALE : Nat := 0x0040
/-- Flag: a two by two transform follows. -/
def WE_HAVE_A_TWO_BY_TWO : Nat := 0x0080

/-- The fixed part of a component record: flags and child glyph id, two bytes each. -/
def min_size : Nat := 4

/-- Modelled from the spec: the size of a component record (OT/glyf/CompositeGlyph.hh is not
among the sources): "flags (2 bytes) selecting word/byte-sized indices and presence of 2×2
transform, child glyph id, anchor coordinates, optional 1/2/4 transform values". -/
def get_size (flags : Nat) : Nat :=
  min_size
    + (if flags &&& ARG_1_AND_2_ARE_WORDS ≠ 0 then 4 else 2)
    + (if flags &&& WE_HAVE_A_SCALE ≠ 0 then 2
       else if flags &&& WE_HAVE_AN_X_AND_Y_SCALE ≠ 0 then 4
       else if flags &&& WE_HAVE_A_TWO_BY_TWO ≠ 0 then 8
       else 0)

/-- The flags of the component record at byte `off`. -/
def flags (bytes : List Nat) (off : Nat) : Nat := read_u16 bytes off

/-- The method `get_glyph_index` of the component record at byte `off`. -/
def get_glyph_index (bytes : List Nat) (off : Nat) : Nat := read_u16 bytes (off + 2)

/-- The method `set_glyph_index` of the component record at byte `off`: the 16-bit child id
field takes the low 16 bits of `new_gid`. -/
def set_glyph_index (bytes : List Nat) (off : Nat) (new_gid : Nat) : List Nat :=
  hb_serialize_context_t.store bytes (off + 2) (bytes_u16 new_gid)

/-- The method `has_more`. -/
def has_more (bytes : List Nat) (off : Nat) : Bool := flags bytes off &&& MORE_COMPONENTS != 0

end CompositeGlyphChain

/-- The method `hb_bytes_t::check_range`: `size` bytes from `off` on lie inside the span. -/
def check_range (bytes : List Nat) (off size : Nat) : Bool :=
  decide (off ≤ bytes.length ∧ size ≤ bytes.length - off)

/-- Modelled from the spec: the byte offsets of the component records that
`Glyph::get_composite_iterator` visits, "a sequence of CompositeComponent records, each
variable-length depending on component flags"; a record that does not lie inside the glyph
ends the sequence.  `fuel` bounds the number of records. -/
def composite_offsets_from (bytes : List Nat) : Nat → Nat → List Nat
  | 0, _ => []
  | fuel + 1, off =>
    if !check_range bytes off CompositeGlyphChain.min_size then []
    else
      let size := CompositeGlyphChain.get_size (CompositeGlyphChain.flags bytes off)
      if !check_range bytes off size then []
      else if CompositeGlyphChain.has_more bytes off then
        off :: composite_offsets_from bytes fuel (off + size)
      else [off]

/-- Modelled from the spec: the components of a glyph, none unless it is composite.  A record
takes at least 6 bytes, so the glyph's length is fuel enough. -/
def composite_offsets (bytes : List Nat) : List Nat :=
  if is_composite bytes then composite_offsets_from bytes bytes.length GlyphHeader_size else []

/-- The body of the loop "update components gids" of `SubsetGlyph::serialize` for the
record at `off`: when the plan maps its child id the new id is written in place. -/
def remap_component (plan : hb_subset_plan_t) (bytes : List Nat) (off : Nat) : List Nat :=
  match plan.new_gid_for_old_gid (CompositeGlyphChain.get_glyph_index bytes off) with
  | some new_gid => CompositeGlyphChain.set_glyph_index bytes off new_gid
  | none => bytes

/-- The loop "update components gids" of `SubsetGlyph::serialize` from the record at `off`
on, over the records the composite iterator visits. -/
def remap_components_from (plan : hb_subset_plan_t) : Nat → Nat → List Nat → List Nat
  | 0, _, bytes => bytes
  | fuel + 1, off, bytes =>
    if !check_range bytes off CompositeGlyphChain.min_size then bytes
    else
      let size := CompositeGlyphChain.get_size (CompositeGlyphChain.flags bytes off)
      if !check_range bytes off size then bytes
      else
        let bytes1 := remap_component plan bytes off
        if CompositeGlyphChain.has_more bytes1 off then
          remap_components_from plan fuel (off + size) bytes1
        else bytes1

/-- The loop "update components gids" over a glyph's bytes. -/
def remap_components (plan : hb_subset_plan_t) (bytes : List Nat) : List Nat :=
  if is_composite bytes then remap_components_from plan bytes.length GlyphHeader_size bytes
  else bytes

/-! ## The glyf table serializer -/

/-- The struct `glyf::SubsetGlyph`. -/
structure SubsetGlyph where
  new_gid : Nat
  old_gid : Nat
  source_glyph : Glyph
  dest_start : hb_bytes_t
  dest_end : hb_bytes_t
deriving DecidableEq, Repr

namespace SubsetGlyph

/-- The method `length`. -/
def length (g : SubsetGlyph) : Nat := u32 (g.dest_start.length + g.dest_end.length)

/-- The method `padding`. -/
def padding (g : SubsetGlyph) : Nat := g.length % 2

/-- The method `padded_size`. -/
def padded_size (g : SubsetGlyph) : Nat := u32 (g.length + g.padding)

/-- The loop `while (pad_length > 0) { c->embed (pad); pad_length--; }`. -/
def embed_padding : Nat → hb_serialize_context_t → hb_serialize_context_t
  | 0, c => c
  | pad_length + 1, c => embed_padding pad_length (c.embed 0)

/-- The part of `SubsetGlyph::serialize` that follows the padding loop: nothing for a
zero-length `dest_glyph`, else the in-place rewrites of the copied glyph. -/
def update_glyph (ops : GlyphOps) (plan : hb_subset_plan_t) (c3 : hb_serialize_context_t)
    (dest_glyph : buffer_span) : hb_serialize_context_t :=
  if dest_glyph.length = 0 then c3
  else
    let c4 := c3.mutate dest_glyph (remap_components plan)
    let c5 := if plan.has_flag HB_SUBSET_FLAGS_NO_HINTING then c4.mutate dest_glyph ops.drop_hints
              else c4
    let c6 := if plan.has_flag HB_SUBSET_FLAGS_SET_OVERLAPS_FLAG then
                c5.mutate dest_glyph ops.set_overlaps_flag
              else c5
    c6

/-- The method `SubsetGlyph::serialize`; it returns `true` on every path, so only the
serializer it leaves is given. -/
def serialize (ops : GlyphOps) (g : SubsetGlyph) (c : hb_serialize_context_t)
    (use_short_loca : Bool) (plan : hb_subset_plan_t) : hb_serialize_context_t :=
  let (c1, dest1) := hb_bytes_t.copy g.dest_start c
  let (c2, dest2) := hb_bytes_t.copy g.dest_end c1
  let dest_glyph : buffer_span := ⟨dest1.start, u32 (dest1.length + dest2.length)⟩
  let pad_length := if use_short_loca then g.padding else 0
  let c3 := embed_padding pad_length c2
  update_glyph ops plan c3 dest_glyph

end SubsetGlyph

/-- The outcome of the two heap allocations of a subset run: `hb_calloc` for the loca data
and `hb_blob_copy_writable_or_fail` for the head copy. -/
structure hb_alloc_t where
  calloc_ok : Bool
  blob_copy_ok : Bool
deriving DecidableEq, Repr

/-- The context `hb_subset_context_t`: the serializer and the plan. -/
structure hb_subset_context_t where
  serializer : hb_serialize_context_t
  plan : hb_subset_plan_t

/-- The copy `head_prime` of the head table made by `_add_head_and_set_loca_version`, after
the assignment `head_prime->indexToLocFormat = use_short_loca ? 0 : 1`. -/
def head_prime (head : List Nat) (use_short_loca : Bool) : List Nat :=
  hb_serialize_context_t.store head head_indexToLocFormat_offset
    (bytes_u16 (if use_short_loca then 0 else 1))

namespace glyf

/-- The running offsets that the lambda of `_write_loca` returns, `offset` being the captured
accumulator. -/
def _write_loca_offsets (right_shift : Nat) : Nat → List Nat → List Nat
  | _, [] => []
  | offset, padded_size :: it =>
    let offset1 := u32 (offset + padded_size)
    (offset1 >>> right_shift) :: _write_loca_offsets right_shift offset1 it

/-- The function `glyf::_write_loca`: the values sent to `dest`, in order. -/
def _write_loca (it : List Nat) (short_offsets : Bool) : List Nat :=
  let right_shift := if short_offsets then 1 else 0
  0 :: _write_loca_offsets right_shift 0 it

/-- The array `dest` of `num_offsets` zeroed entries after `values` were sent to it: the
stored entries, as bytes.  An entry keeps the low bits that fit its width. -/
def loca_entries (use_short_loca : Bool) (num_offsets : Nat) (values : List Nat) : List Nat :=
  let stored := values.take num_offsets ++ List.replicate (num_offsets - values.length) 0
  (stored.map fun v => if use_short_loca then bytes_u16 v else bytes_u32 v).flatten

/-- The function `glyf::_add_head_and_set_loca_version`. -/
def _add_head_and_set_loca_version (plan : hb_subset_plan_t) (use_short_loca : Bool)
    (mem : hb_alloc_t) : Bool × hb_subset_plan_t :=
  if !mem.blob_copy_ok then (false, plan)
  else plan.add_table HB_OT_TAG_head (head_prime plan.source.head use_short_loca)

/-- The function `glyf::_add_loca_and_head`. -/
def _add_loca_and_head (plan : hb_subset_plan_t) (padded_offsets : List Nat)
    (use_short_loca : Bool) (mem : hb_alloc_t) : Bool × hb_subset_plan_t :=
  let num_offsets := u32 (padded_offsets.length + 1)
  if !mem.calloc_ok then (false, plan)
  else
    let loca_blob := loca_entries use_short_loca num_offsets
      (_write_loca padded_offsets use_short_loca)
    match plan.add_table HB_OT_TAG_loca loca_blob with
    | (true, plan1) => _add_head_and_set_loca_version plan1 use_short_loca mem
    | (false, plan1) => (false, plan1)

/-- The loop `for (const auto &_ : it) _.serialize (c, use_short_loca, plan)`. -/
def serialize_glyphs (ops : GlyphOps) (c : hb_serialize_context_t) (it : List SubsetGlyph)
    (use_short_loca : Bool) (plan : hb_subset_plan_t) : hb_serialize_context_t :=
  it.foldl (fun c g => g.serialize ops c use_short_loca plan) c

/-- The method `glyf::serialize`; it returns `true` on every path. -/
def serialize (ops : GlyphOps) (c : hb_serialize_context_t) (it : List SubsetGlyph)
    (use_short_loca : Bool) (plan : hb_subset_plan_t) : hb_serialize_context_t :=
  let init_len := c.length
  let c1 := serialize_glyphs ops c it use_short_loca plan
  if init_len = c1.length then c1.copy 0 else c1

/-- The method `glyf::_populate_subset_glyphs`. -/
def _populate_subset_glyphs (ops : GlyphOps) (plan : hb_subset_plan_t) : List SubsetGlyph :=
  let glyf := glyf_accelerator_t.create plan.source
  (List.range plan.num_output_glyphs).map fun new_gid =>
    match plan.old_gid_for_new_gid new_gid with
    | none =>
        { new_gid := new_gid, old_gid := 0, source_glyph := Glyph.empty,
          dest_start := [], dest_end := [] }
    | some old_gid =>
        let source_glyph :=
          if new_gid = 0 ∧ !plan.has_flag HB_SUBSET_FLAGS_NOTDEF_OUTLINE then Glyph.empty
          else glyf.glyph_for_gid ops old_gid true
        if plan.has_flag HB_SUBSET_FLAGS_NO_HINTING then
          { new_gid := new_gid, old_gid := old_gid, source_glyph := source_glyph,
            dest_start := (ops.drop_hints_bytes source_glyph).1,
            dest_end := (ops.drop_hints_bytes source_glyph).2 }
        else
          { new_gid := new_gid, old_gid := old_gid, source_glyph := source_glyph,
            dest_start := source_glyph.get_bytes, dest_end := [] }

/-- The value `max_offset` of `glyf::subset`: the padded sizes added up in an `unsigned`. -/
def max_offset (glyphs : List SubsetGlyph) : Nat :=
  (glyphs.map SubsetGlyph.padded_size).foldl (fun acc size => u32 (acc + size)) 0

/-- The value `use_short_loca` of `glyf::subset`. -/
def use_short_loca (glyphs : List SubsetGlyph) : Bool := decide (max_offset glyphs < 0x1FFFF)

/-- The sizes handed to `_add_loca_and_head` by `glyf::subset`. -/
def padded_offsets (glyphs : List SubsetGlyph) : List Nat :=
  if use_short_loca glyphs then glyphs.map SubsetGlyph.padded_size
  else glyphs.map SubsetGlyph.length

/-- The body of `glyf::subset` from the point where `_populate_subset_glyphs` has filled
`glyphs`. -/
def subset_glyphs (ops : GlyphOps) (c : hb_subset_context_t) (mem : hb_alloc_t)
    (glyphs : List SubsetGlyph) : Bool × hb_subset_context_t :=
  let use_short_loca := use_short_loca glyphs
  let s1 := serialize ops c.serializer glyphs use_short_loca c.plan
  if s1.in_error then (false, { c with serializer := s1 })
  else
    match _add_loca_and_head c.plan (padded_offsets glyphs) use_short_loca mem with
    | (ok, plan1) =>
      match s1.check_success ok with
      | (result, s2) => (result, { serializer := s2, plan := plan1 })

/-- The method `glyf::subset`. -/
def subset (ops : GlyphOps) (c : hb_subset_context_t) (mem : hb_alloc_t) :
    Bool × hb_subset_context_t :=
  match c.serializer.check_success true with
  | (false, s0) => (false, { c with serializer := s0 })
  | (true, s0) =>
    subset_glyphs ops { c with serializer := s0 } mem (_populate_subset_glyphs ops c.plan)

end glyf

/-! ## Reference quantities of the specification -/

/-- The number of bytes of the two regions of a glyph. -/
def region_length (g : SubsetGlyph) : Nat := g.dest_start.length + g.dest_end.length

/-- The padded size in the specification's words: "length + length mod 2". -/
def spec_padded_size (g : SubsetGlyph) : Nat := region_length g + region_length g % 2

/-- The sum T of all glyphs' padded sizes, as a number. -/
def spec_padded_total (glyphs : List SubsetGlyph) : Nat := (glyphs.map spec_padded_size).sum

/-- The sum of the first `i` sizes: the specification's prefix sum. -/
def prefix_sum (sizes : List Nat) (i : Nat) : Nat := (sizes.take i).sum

/-- The stored entry `i` of an index table: a 16-bit or a 32-bit big-endian value. -/
def loca_entry (short_offset : Bool) (loca : List Nat) (i : Nat) : Nat :=
  if short_offset then read_u16 loca (2 * i) else read_u32 loca (4 * i)

/-- The bytes of a glyph after the in-place rewrites of `SubsetGlyph::serialize`. -/
def rewritten_bytes (ops : GlyphOps) (plan : hb_subset_plan_t) (bytes : List Nat) : List Nat :=
  let b4 := hb_serialize_context_t.in_place (remap_components plan) bytes
  let b5 := if plan.has_flag HB_SUBSET_FLAGS_NO_HINTING then
              hb_serialize_context_t.in_place ops.drop_hints b4 else b4
  if plan.has_flag HB_SUBSET_FLAGS_SET_OVERLAPS_FLAG then
    hb_serialize_context_t.in_place ops.set_overlaps_flag b5 else b5

/-- The bytes a glyph contributes to the outline blob when no allocation fails: its two
regions, rewritten, and the padding. -/
def glyph_output (ops : GlyphOps) (plan : hb_subset_plan_t) (use_short_loca : Bool)
    (g : SubsetGlyph) : List Nat :=
  rewritten_bytes ops plan (g.dest_start ++ g.dest_end)
    ++ List.replicate (if use_short_loca then g.padding else 0) 0

/-- The number of bytes a glyph takes in the outline blob: its regions and the padding. -/
def written_size (use_short_loca : Bool) (g : SubsetGlyph) : Nat :=
  region_length g + (if use_short_loca then g.padding else 0)

/-- The outline blob of a run in which no allocation fails, before the special case of the
empty table: the glyphs' bytes in order. -/
def glyphs_output (ops : GlyphOps) (plan : hb_subset_plan_t) (use_short_loca : Bool)
    (glyphs : List SubsetGlyph) : List Nat :=
  (glyphs.map (glyph_output ops plan use_short_loca)).flatten

/-- The child id a component must hold after the remap, in the specification's words: the
new id when the plan maps the old one (as the 16-bit child id field stores it), else the
old id. -/
def remapped_child (plan : hb_subset_plan_t) (old_gid : Nat) : Nat :=
  match plan.new_gid_for_old_gid old_gid with
  | some new_gid => new_gid % 65536
  | none => old_gid

/-- The loca blob that `glyf::subset` hands to `add_table` for the given glyphs. -/
def loca_prime (glyphs : List SubsetGlyph) : List Nat :=
  glyf.loca_entries (glyf.use_short_loca glyphs) (u32 ((glyf.padded_offsets glyphs).length + 1))
    (glyf._write_loca (glyf.padded_offsets glyphs) (glyf.use_short_loca glyphs))

/-- Modelled from the spec: the face a subset run produces, as far as the glyf code reads it
(the caller of `glyf::subset` and the maxp subsetter are not among the sources): "the sink
that receives finished binary tables" holds the head and loca tables added by the run and,
as glyf table, the bytes of the run's serializer; the glyph count is the plan's number of
output glyphs. -/
def dest_face (c : hb_subset_context_t) : hb_face_t :=
  { head := find_table c.plan.dest HB_OT_TAG_head
    loca := find_table c.plan.dest HB_OT_TAG_loca
    glyf := c.serializer.data
    num_glyphs := c.plan.num_output_glyphs }

/-- A subset glyph whose first region is `n` zero bytes; an input of the examples. -/
def glyph_of_size (n : Nat) : SubsetGlyph :=
  { new_gid := 0, old_gid := 0, source_glyph := Glyph.empty,
    dest_start := List.replicate n 0, dest_end := [] }

/-- A plan with no flag set, the identity gid maps and the given source; an input of the
examples. -/
def plan_of_source (source : hb_face_t) (num_output_glyphs : Nat) : hb_subset_plan_t :=
  { flags := 0, glyph_map := id, reverse_glyph_map := id,
    _num_output_glyphs := num_output_glyphs, source := source, dest := [] }

/-- A plan with no flag set that maps old glyph 5 to new glyph 1 and old glyph 9 to new
glyph 2 and no other glyph; an input of the examples. -/
def plan_of_two_gids : hb_subset_plan_t :=
  { flags := 0
    glyph_map := fun g => if g = 5 then 1 else if g = 9 then 2 else HB_MAP_VALUE_INVALID
    reverse_glyph_map := fun g => if g = 1 then 5 else if g = 2 then 9 else HB_MAP_VALUE_INVALID
    _num_output_glyphs := 3, source := ⟨[], [], [], 0⟩, dest := [] }

/-- A source face with halved-16 offsets and one glyph, of four bytes; an input of the
examples. -/
def face_of_one_glyph : hb_face_t :=
  { head := List.replicate 54 0, loca := [0, 0, 0, 2], glyf := [1, 2, 3, 4], num_glyphs := 1 }

/-- A source face with direct-32 offsets and two glyphs, the first empty and the second of
three bytes; an input of the examples. -/
def face_of_odd_glyph : hb_face_t :=
  { head := List.replicate 50 0 ++ [0, 1, 0, 0]
    loca := [0, 0, 0, 0, 0, 0, 0, 0, 0, 0, 0, 3]
    glyf := [7, 8, 9], num_glyphs := 2 }

/-- A source face with halved-16 offsets and four glyphs: an empty one, one of two bytes, a
simple one of twelve bytes and a composite one whose single component references glyph 2;
an input of the examples. -/
def face_of_composite : hb_face_t :=
  { head := List.replicate 54 0
    loca := [0, 0, 0, 0, 0, 1, 0, 7, 0, 15]
    glyf := [1, 1] ++ [0, 1, 0, 0, 0, 0, 0, 0, 0, 0, 9, 9]
      ++ [255, 255, 0, 0, 0, 0, 0, 0, 0, 0, 0, 0, 0, 2, 1, 1]
    num_glyphs := 4 }

/-- A plan over `face_of_composite` that retains the glyphs 0, 2 and 3 as the new glyphs 0,
1 and 2, with no flag set; an input of the examples. -/
def plan_of_composite : hb_subset_plan_t :=
  { flags := 0
    glyph_map := fun g =>
      if g = 0 then 0 else if g = 2 then 1 else if g = 3 then 2 else HB_MAP_VALUE_INVALID
    reverse_glyph_map := fun g =>
      if g = 0 then 0 else if g = 1 then 2 else if g = 2 then 3 else HB_MAP_VALUE_INVALID
    _num_output_glyphs := 3, source := face_of_composite, dest := [] }

/-- The `Glyph` methods that leave a glyph as it is; an input of the examples. -/
def GlyphOps.trivial : GlyphOps :=
  { trim_padding := id, drop_hints_bytes := fun g => (g.bytes, []), drop_hints := id,
    set_overlaps_flag := id }

/-! ## Points, fonts and the draw session -/

/-- The arithmetic on `float` values that glyf.hh uses, over a type `F` of values: the
constants `.5f` and `FLT_MAX`, the operations `+`, `-`, `*`, unary `-`, `hb_min`,
`hb_max` and `>=`, and the conversion `hb_clamp (roundf (r), 0.f, (float) UINT_MAX / 2)`
to `unsigned` that ends `get_advance_var`.  The arithmetic is a parameter of the
development: no rounding behaviour is assumed of it. -/
structure FloatOps (F : Type) where
  half : F
  flt_max : F
  add : F → F → F
  sub : F → F → F
  mul : F → F → F
  neg : F → F
  min : F → F → F
  max : F → F → F
  ge : F → F → Bool
  clamp_round : F → Nat

/-- Modelled from the spec: the "on-curve flag" of a point is bit 0 of its flag byte, the
constant `Glyph::FLAG_ON_CURVE` of OT/glyf/SimpleGlyph.hh, which is not among the sources. -/
def FLAG_ON_CURVE : Nat := 0x01

/-- Modelled from the spec: a ContourPoint, "one outline coordinate: x,y (float), on-curve
flag, end-of-contour flag"; the fields are the ones glyf.hh reads (`flag`, `x`, `y`,
`is_end_point`). -/
structure contour_point_t (F : Type) where
  flag : Nat
  x : F
  y : F
  is_end_point : Bool
deriving DecidableEq

/-- Modelled from the spec: a point stream ends with "exactly 4 phantom points"
(`PHANTOM_COUNT` of OT/glyf/Glyph.hh, which is not among the sources). -/
def PHANTOM_COUNT : Nat := 4

/-- Modelled from the spec: the phantom points are "(left, right, top, bottom)", in this
order; the index of the left one (`PHANTOM_LEFT`). -/
def PHANTOM_LEFT : Nat := 0

/-- Modelled from the spec: the index of the right phantom point (`PHANTOM_RIGHT`). -/
def PHANTOM_RIGHT : Nat := 1

/-- Modelled from the spec: the index of the top phantom point (`PHANTOM_TOP`). -/
def PHANTOM_TOP : Nat := 2

/-- Modelled from the spec: the index of the bottom phantom point (`PHANTOM_BOTTOM`). -/
def PHANTOM_BOTTOM : Nat := 3

/-- The members of `hb_font_t` (hb-font.hh, absent from the sources) that glyf.hh uses:
the scaling of a coordinate to a `float` and to an `hb_position_t`, and the number of
variation coordinates.  They are parameters of the development. -/
structure hb_font_t (F : Type) where
  em_fscalef_x : F → F
  em_fscalef_y : F → F
  em_scalef_x : F → Int
  em_scalef_y : F → Int
  num_coords : Nat

/-- A command of a path, as a draw session receives it. -/
inductive draw_command_t (F : Type) where
  | move_to (to_x to_y : F)
  | line_to (to_x to_y : F)
  | quadratic_to (control_x control_y to_x to_y : F)
  | close_path
deriving DecidableEq

/-- Modelled from the spec: the draw session, which receives "a path of
move/line/quadratic-curve commands"; it is the list of the commands received so far, in
the order of the calls. -/
structure hb_draw_session_t (F : Type) where
  commands : List (draw_command_t F)

/-- The call `draw_session->move_to (to_x, to_y)`. -/
def hb_draw_session_t.move_to {F : Type} (d : hb_draw_session_t F) (to_x to_y : F) :
    hb_draw_session_t F :=
  ⟨d.commands ++ [draw_command_t.move_to to_x to_y]⟩

/-- The call `draw_session->line_to (to_x, to_y)`. -/
def hb_draw_session_t.line_to {F : Type} (d : hb_draw_session_t F) (to_x to_y : F) :
    hb_draw_session_t F :=
  ⟨d.commands ++ [draw_command_t.line_to to_x to_y]⟩

/-- The call `draw_session->quadratic_to (control_x, control_y, to_x, to_y)`. -/
def hb_draw_session_t.quadratic_to {F : Type} (d : hb_draw_session_t F)
    (control_x control_y to_x to_y : F) : hb_draw_session_t F :=
  ⟨d.commands ++ [draw_command_t.quadratic_to control_x control_y to_x to_y]⟩

/-- The call `draw_session->close_path ()`. -/
def hb_draw_session_t.close_path {F : Type} (d : hb_draw_session_t F) : hb_draw_session_t F :=
  ⟨d.commands ++ [draw_command_t.close_path]⟩

/-! ## The path builder -/

/-- An `optional_point_t`: `none` is a point with `has_data` false, `some (x, y)` one with
`has_data` true.  The code reads `x` and `y` only of a point that has data. -/
abbrev optional_point_t (F : Type) : Type := Option (F × F)

/-- The point between two points (`optional_point_t::lerp`), called on points that have
data: `x + t * (p.x - x)`, `y + t * (p.y - y)`. -/
def optional_point_t.lerp {F : Type} (ops : FloatOps F) (q p : F × F) (t : F) : F × F :=
  (ops.add q.1 (ops.mul t (ops.sub p.1 q.1)), ops.add q.2 (ops.mul t (ops.sub p.2 q.2)))

/-- The state of a `path_builder_t`: the font, the draw session and the three tracked
points. -/
structure path_builder_t (F : Type) where
  font : hb_font_t F
  draw_session : hb_draw_session_t F
  first_oncurve : optional_point_t F
  first_offcurve : optional_point_t F
  last_offcurve : optional_point_t F

/-- The constructor of `path_builder_t`: the three points are absent. -/
def path_builder_t.init {F : Type} (font : hb_font_t F) (draw_session : hb_draw_session_t F) :
    path_builder_t F :=
  ⟨font, draw_session, none, none, none⟩

/-- The first part of `path_builder_t::consume_point`: the point is taken into the contour
under construction. -/
def path_builder_t.consume_contour_point {F : Type} (ops : FloatOps F) (b : path_builder_t F)
    (point : contour_point_t F) : path_builder_t F :=
  let is_on_curve : Bool := point.flag &&& FLAG_ON_CURVE != 0
  let p : F × F := (point.x, point.y)
  match b.first_oncurve with
  | none =>
    if is_on_curve then
      { b with
        first_oncurve := some p
        draw_session := b.draw_session.move_to (b.font.em_fscalef_x p.1)
          (b.font.em_fscalef_y p.2) }
    else
      match b.first_offcurve with
      | some first_offcurve =>
        let mid := optional_point_t.lerp ops first_offcurve p ops.half
        { b with
          first_oncurve := some mid
          last_offcurve := some p
          draw_session := b.draw_session.move_to (b.font.em_fscalef_x mid.1)
            (b.font.em_fscalef_y mid.2) }
      | none => { b with first_offcurve := some p }
  | some _ =>
    match b.last_offcurve with
    | some last_offcurve =>
      if is_on_curve then
        { b with
          draw_session := b.draw_session.quadratic_to
            (b.font.em_fscalef_x last_offcurve.1) (b.font.em_fscalef_y last_offcurve.2)
            (b.font.em_fscalef_x p.1) (b.font.em_fscalef_y p.2)
          last_offcurve := none }
      else
        let mid := optional_point_t.lerp ops last_offcurve p ops.half
        { b with
          draw_session := b.draw_session.quadratic_to
            (b.font.em_fscalef_x last_offcurve.1) (b.font.em_fscalef_y last_offcurve.2)
            (b.font.em_fscalef_x mid.1) (b.font.em_fscalef_y mid.2)
          last_offcurve := some p }
    | none =>
      if is_on_curve then
        { b with
          draw_session := b.draw_session.line_to (b.font.em_fscalef_x p.1)
            (b.font.em_fscalef_y p.2) }
      else { b with last_offcurve := some p }

/-- The first statement under `if (point.is_end_point)`: with both `first_offcurve` and
`last_offcurve` present, a curve from the last control point to the point between the two,
after which `last_offcurve` is absent. -/
def path_builder_t.join_offcurves {F : Type} (ops : FloatOps F) (b : path_builder_t F) :
    path_builder_t F :=
  match b.first_offcurve, b.last_offcurve with
  | some first_offcurve, some last_offcurve =>
    let mid := optional_point_t.lerp ops last_offcurve first_offcurve ops.half
    { b with
      draw_session := b.draw_session.quadratic_to
        (b.font.em_fscalef_x last_offcurve.1) (b.font.em_fscalef_y last_offcurve.2)
        (b.font.em_fscalef_x mid.1) (b.font.em_fscalef_y mid.2)
      last_offcurve := none }
  | _, _ => b

/-- The second statement under `if (point.is_end_point)` ("now check the rest"): the
segment that returns to the first point of the contour.  In the last case both coordinates
of the lone off-curve point go through `em_fscalef_x`, as in the source. -/
def path_builder_t.return_to_start {F : Type} (b : path_builder_t F) : hb_draw_session_t F :=
  match b.first_offcurve, b.last_offcurve, b.first_oncurve with
  | some first_offcurve, _, some first_oncurve =>
    b.draw_session.quadratic_to
      (b.font.em_fscalef_x first_offcurve.1) (b.font.em_fscalef_y first_offcurve.2)
      (b.font.em_fscalef_x first_oncurve.1) (b.font.em_fscalef_y first_oncurve.2)
  | none, some last_offcurve, some first_oncurve =>
    b.draw_session.quadratic_to
      (b.font.em_fscalef_x last_offcurve.1) (b.font.em_fscalef_y last_offcurve.2)
      (b.font.em_fscalef_x first_oncurve.1) (b.font.em_fscalef_y first_oncurve.2)
  | none, none, some first_oncurve =>
    b.draw_session.line_to
      (b.font.em_fscalef_x first_oncurve.1) (b.font.em_fscalef_y first_oncurve.2)
  | some first_offcurve, _, none =>
    let x := b.font.em_fscalef_x first_offcurve.1
    let y := b.font.em_fscalef_x first_offcurve.2
    (b.draw_session.move_to x y).quadratic_to x y x y
  | none, _, none => b.draw_session

/-- The block under `if (point.is_end_point)`: the contour is closed and the three points
are absent again. -/
def path_builder_t.end_contour {F : Type} (ops : FloatOps F) (b : path_builder_t F) :
    path_builder_t F :=
  let b1 := b.join_offcurves ops
  { b1 with
    first_oncurve := none
    first_offcurve := none
    last_offcurve := none
    draw_session := b1.return_to_start.close_path }

/-- The method `path_builder_t::consume_point`. -/
def path_builder_t.consume_point {F : Type} (ops : FloatOps F) (b : path_builder_t F)
    (point : contour_point_t F) : path_builder_t F :=
  let b1 := b.consume_contour_point ops point
  if point.is_end_point then b1.end_contour ops else b1

/-- The method `path_builder_t::points_end`, which does nothing. -/
def path_builder_t.points_end {F : Type} (b : path_builder_t F) : path_builder_t F := b

/-- The method `path_builder_t::is_consuming_contour_points`. -/
def path_builder_t.is_consuming_contour_points {F : Type} (_b : path_builder_t F) : Bool := true

/-- The method `path_builder_t::get_phantoms_sink`, as whether the sink is non-null: it is
`nullptr`. -/
def path_builder_t.get_phantoms_sink {F : Type} (_b : path_builder_t F) : Bool := false

/-- A stream of points fed to a path builder, point by point. -/
def path_builder_t.consume_points {F : Type} (ops : FloatOps F) (b : path_builder_t F)
    (points : List (contour_point_t F)) : path_builder_t F :=
  points.foldl (path_builder_t.consume_point ops) b

/-! ## The point stream and its consumers -/

/-- The code behind a point stream that is absent from the sources, as parameters of the
development: the method `Glyph::get_points` of OT/glyf/Glyph.hh (from the font, the
accelerator, the glyph and `phantom_only`, the assembled points, or `none` when it returns
false), and the element `null` that a `contour_point_vector_t` yields for an index out of
its range. -/
structure GlyphPoints (F : Type) where
  get_points : hb_font_t F → glyf_accelerator_t → Glyph → Bool →
    Option (List (contour_point_t F))
  null : contour_point_t F

/-- The type parameter `T` of `glyf_accelerator_t::get_points`: the four methods of a
consumer, over the type `σ` of its states. `get_phantoms_sink` is whether the sink is
non-null. -/
structure points_consumer_t (F : Type) (σ : Type) where
  consume_point : σ → contour_point_t F → σ
  points_end : σ → σ
  is_consuming_contour_points : σ → Bool
  get_phantoms_sink : σ → Bool

/-- The path builder as a consumer of points. -/
def path_builder_t.consumer {F : Type} (ops : FloatOps F) :
    points_consumer_t F (path_builder_t F) :=
  ⟨path_builder_t.consume_point ops, path_builder_t.points_end,
    path_builder_t.is_consuming_contour_points, path_builder_t.get_phantoms_sink⟩

/-- The loop `for (point_index = 0; point_index + 4 < all_points.length; ++point_index)
consumer.consume_point (all_points[point_index])`. -/
def consume_contour_points {F σ : Type} (pops : GlyphPoints F) (T : points_consumer_t F σ)
    (consumer : σ) (all_points : List (contour_point_t F)) : σ :=
  (List.range (all_points.length - 4)).foldl
    (fun c point_index => T.consume_point c (all_points.getD point_index pops.null))
    consumer

/-- The loop `for (i = 0; i < PHANTOM_COUNT; ++i) phantoms[i] =
all_points[all_points.length - PHANTOM_COUNT + i]`, in unsigned arithmetic: the four points
written to the sink. -/
def copy_phantoms {F : Type} (pops : GlyphPoints F) (all_points : List (contour_point_t F)) :
    List (contour_point_t F) :=
  (List.range PHANTOM_COUNT).map fun i =>
    all_points.getD (u32 (all_points.length + 2 ^ 32 - PHANTOM_COUNT + i)) pops.null

/-- The method `glyf_accelerator_t::get_points`: the value returned, the consumer after the
calls, and the points written to the phantom sink (`none` when nothing is written). -/
def glyf_accelerator_t.get_points {F σ : Type} (gops : GlyphOps) (pops : GlyphPoints F)
    (a : glyf_accelerator_t) (font : hb_font_t F) (gid : Nat) (T : points_consumer_t F σ)
    (consumer : σ) : Bool × σ × Option (List (contour_point_t F)) :=
  if gid ≥ a.num_glyphs then (false, consumer, none)
  else
    let phantom_only := !T.is_consuming_contour_points consumer
    match pops.get_points font a (a.glyph_for_gid gops gid false) phantom_only with
    | none => (false, consumer, none)
    | some all_points =>
      let consumer1 :=
        if T.is_consuming_contour_points consumer then
          T.points_end (consume_contour_points pops T consumer all_points)
        else consumer
      let phantoms :=
        if T.get_phantoms_sink consumer1 then some (copy_phantoms pops all_points) else none
      (true, consumer1, phantoms)

/-- Modelled from the spec: the extents of a glyph, "width/height/bearings"
(`hb_glyph_extents_t` of hb-font.h, which is not among the sources), in `hb_position_t`
units. -/
structure hb_glyph_extents_t where
  x_bearing : Int
  y_bearing : Int
  width : Int
  height : Int
deriving DecidableEq

/-- The bounds of the points seen (`contour_bounds_t`). -/
structure contour_bounds_t (F : Type) where
  min_x : F
  min_y : F
  max_x : F
  max_y : F

/-- The constructor of `contour_bounds_t`. -/
def contour_bounds_t.init {F : Type} (ops : FloatOps F) : contour_bounds_t F :=
  ⟨ops.flt_max, ops.flt_max, ops.neg ops.flt_max, ops.neg ops.flt_max⟩

/-- The method `contour_bounds_t::add`. -/
def contour_bounds_t.add {F : Type} (ops : FloatOps F) (b : contour_bounds_t F)
    (p : contour_point_t F) : contour_bounds_t F :=
  ⟨ops.min b.min_x p.x, ops.min b.min_y p.y, ops.max b.max_x p.x, ops.max b.max_y p.y⟩

/-- The method `contour_bounds_t::empty`. -/
def contour_bounds_t.empty {F : Type} (ops : FloatOps F) (b : contour_bounds_t F) : Bool :=
  ops.ge b.min_x b.max_x || ops.ge b.min_y b.max_y

/-- The method `contour_bounds_t::get_extents`, as the extents it writes. -/
def contour_bounds_t.get_extents {F : Type} (ops : FloatOps F) (b : contour_bounds_t F)
    (font : hb_font_t F) : hb_glyph_extents_t :=
  if b.empty ops then ⟨0, 0, 0, 0⟩
  else
    let x_bearing := font.em_scalef_x b.min_x
    let y_bearing := font.em_scalef_y b.max_y
    ⟨x_bearing, y_bearing, font.em_scalef_x b.max_x - x_bearing,
      font.em_scalef_y b.min_y - y_bearing⟩

/-- The state of a `points_aggregator_t`: `extents` is `none` for `nullptr` and otherwise
what the pointer refers to; `phantoms` is whether the sink is non-null. -/
structure points_aggregator_t (F : Type) where
  font : hb_font_t F
  extents : Option hb_glyph_extents_t
  phantoms : Bool
  bounds : contour_bounds_t F

/-- The constructor of `points_aggregator_t`. -/
def points_aggregator_t.init {F : Type} (ops : FloatOps F) (font : hb_font_t F)
    (extents : Option hb_glyph_extents_t) (phantoms : Bool) : points_aggregator_t F :=
  ⟨font, extents, phantoms, contour_bounds_t.init ops⟩

/-- The points aggregator as a consumer of points. -/
def points_aggregator_t.consumer {F : Type} (ops : FloatOps F) :
    points_consumer_t F (points_aggregator_t F) where
  consume_point := fun c point => { c with bounds := c.bounds.add ops point }
  points_end := fun c =>
    { c with extents := c.extents.map fun _ => c.bounds.get_extents ops c.font }
  is_consuming_contour_points := fun c => c.extents.isSome
  get_phantoms_sink := fun c => c.phantoms

/-- The metrics accelerator that `hmtx` and `vmtx` point to (hb-ot-hmtx-table.hh, absent
from the sources): its two lookups are parameters of the development. -/
structure hmtx_accelerator_t where
  get_advance : Nat → Nat
  get_side_bearing : Nat → Int

/-- The variation accelerator that `gvar` points to (hb-ot-var-gvar-table.hh, absent from
the sources): its axis count is a parameter of the development. -/
structure gvar_accelerator_t where
  get_axis_count : Nat

/-- The members `gvar`, `hmtx` and `vmtx` of `glyf_accelerator_t`. -/
structure accelerator_tables_t where
  gvar : gvar_accelerator_t
  hmtx : hmtx_accelerator_t
  vmtx : hmtx_accelerator_t

/-- The method `glyf_accelerator_t::get_advance_var`. -/
def glyf_accelerator_t.get_advance_var {F : Type} (gops : GlyphOps) (ops : FloatOps F)
    (pops : GlyphPoints F) (a : glyf_accelerator_t) (t : accelerator_tables_t)
    (font : hb_font_t F) (gid : Nat) (is_vertical : Bool) : Nat :=
  if gid ≥ a.num_glyphs then 0
  else
    let r : Bool × points_aggregator_t F × Option (List (contour_point_t F)) :=
      if font.num_coords = t.gvar.get_axis_count then
        a.get_points gops pops font gid (points_aggregator_t.consumer ops)
          (points_aggregator_t.init ops font none true)
      else (false, points_aggregator_t.init ops font none true, none)
    let success := r.1
    let phantoms := r.2.2.getD []
    if !success then
      if is_vertical then t.vmtx.get_advance gid else t.hmtx.get_advance gid
    else
      let result :=
        if is_vertical then
          ops.sub (phantoms.getD PHANTOM_TOP pops.null).y
            (phantoms.getD PHANTOM_BOTTOM pops.null).y
        else
          ops.sub (phantoms.getD PHANTOM_RIGHT pops.null).x
            (phantoms.getD PHANTOM_LEFT pops.null).x
      ops.clamp_round result

/-! ## Example inputs for points and paths -/

/-- Exact arithmetic on the rationals, an instance of the arithmetic on which sums,
differences and halves are exact. -/
def FloatOps.exact : FloatOps ℚ where
  half := 1 / 2
  flt_max := 340282346638528859811704183484516925440
  add := fun a b => a + b
  sub := fun a b => a - b
  mul := fun a b => a * b
  neg := fun a => -a
  min := fun a b => if a ≤ b then a else b
  max := fun a b => if a ≤ b then b else a
  ge := fun a b => decide (b ≤ a)
  clamp_round := fun r => Int.toNat (Min.min ⌊r + 1 / 2⌋ 2147483648)

/-- Whether a command is `close_path`. -/
def draw_command_t.is_close_path {F : Type} : draw_command_t F → Bool
  | draw_command_t.close_path => true
  | _ => false

/-- Whether a command draws a segment: `line_to` or `quadratic_to`. -/
def draw_command_t.is_segment {F : Type} : draw_command_t F → Bool
  | draw_command_t.line_to _ _ => true
  | draw_command_t.quadratic_to _ _ _ _ => true
  | _ => false

/-- The point at which a command leaves the pen, if it moves it. -/
def draw_command_t.end_point {F : Type} : draw_command_t F → Option (F × F)
  | draw_command_t.move_to x y => some (x, y)
  | draw_command_t.line_to x y => some (x, y)
  | draw_command_t.quadratic_to _ _ x y => some (x, y)
  | draw_command_t.close_path => none

/-- A call that a consumer of points receives. -/
inductive consumer_call_t (F : Type) where
  | consume_point (point : contour_point_t F)
  | points_end
deriving DecidableEq

/-- A consumer that records the calls it receives, in order; `consuming` and `sink` are
what its `is_consuming_contour_points` and `get_phantoms_sink` answer. -/
def recording_consumer (F : Type) (consuming sink : Bool) :
    points_consumer_t F (List (consumer_call_t F)) :=
  ⟨fun calls point => calls ++ [consumer_call_t.consume_point point],
    fun calls => calls ++ [consumer_call_t.points_end], fun _ => consuming, fun _ => sink⟩

/-- A font that scales nothing: the identity font scaling. -/
def identity_font (F : Type) (to_position : F → Int) : hb_font_t F :=
  ⟨fun v => v, fun v => v, to_position, to_position, 0⟩

/-- The font of the examples: the identity font scaling on rational coordinates. -/
def unscaled_font : hb_font_t ℚ := identity_font ℚ Int.floor

/-- A fresh path builder on the font of the examples, with a draw session that has
received nothing. -/
def fresh_builder : path_builder_t ℚ := path_builder_t.init unscaled_font ⟨[]⟩

/-- The contour `(0,0)` on-curve, `(10,10)` off-curve, `(20,0)` on-curve and last. -/
def on_off_on_contour : List (contour_point_t ℚ) :=
  [⟨FLAG_ON_CURVE, 0, 0, false⟩, ⟨0, 10, 10, false⟩, ⟨FLAG_ON_CURVE, 20, 0, true⟩]

/-- A stream of six points: two points of a contour and the four phantom points. -/
def six_points : List (contour_point_t ℚ) :=
  [⟨FLAG_ON_CURVE, 1, 1, false⟩, ⟨FLAG_ON_CURVE, 2, 2, true⟩, ⟨0, 0, 0, false⟩,
    ⟨0, 600, 0, false⟩, ⟨0, 0, 800, false⟩, ⟨0, 0, -200, false⟩]

/-- A `Glyph::get_points` that yields the stream of six points for every glyph, with a
zeroed point out of the range of a vector. -/
def GlyphPoints.six : GlyphPoints ℚ := ⟨fun _ _ _ _ => some six_points, ⟨0, 0, 0, false⟩⟩

/-- An accelerator of one glyph, in the halved-16 encoding, with an empty glyf table. -/
def accelerator_of_one_glyph : glyf_accelerator_t := ⟨true, 1, [0, 0, 0, 0], []⟩

/-- Metrics in which every glyph has the static advances 500 and 1000, with one variation
axis. -/
def static_tables : accelerator_tables_t :=
  ⟨⟨1⟩, ⟨fun _ => 500, fun _ => 0⟩, ⟨fun _ => 1000, fun _ => 0⟩⟩

/-- The font of the examples with two variation coordinates set. -/
def font_of_two_coords : hb_font_t ℚ := { unscaled_font with num_coords := 2 }

/-! ## Side bearings, extents and paths -/

/-- The conversions between `float` and `int` in `get_side_bearing_var`, over the type `F`
of `float` values: `floorf`, `ceilf`, the conversion of an `hb_position_t` to `float` in
`ceilf (...) - extents.y_bearing`, and the conversion of the `float` result to the `int`
returned.  They are parameters of the development. -/
structure FloatRounding (F : Type) where
  floorf : F → F
  ceilf : F → F
  of_position : Int → F
  to_int : F → Int

/-- The method `Glyph::get_extents` (OT/glyf/Glyph.hh, absent from the sources), a
parameter of the development: from the font, the accelerator, the glyph and the extents the
pointer refers to, the value returned and the extents afterwards. -/
structure GlyphExtents (F : Type) where
  get_extents : hb_font_t F → glyf_accelerator_t → Glyph → hb_glyph_extents_t →
    Bool × hb_glyph_extents_t

/-- The method `glyf_accelerator_t::has_data`: `return num_glyphs`, as a `bool`. -/
def glyf_accelerator_t.has_data (a : glyf_accelerator_t) : Bool := a.num_glyphs != 0

/-- The method `glyf_accelerator_t::get_side_bearing_var`.  The local `extents` starts as
zeros here; it is read only after `points_end` has written it. -/
def glyf_accelerator_t.get_side_bearing_var {F : Type} (gops : GlyphOps) (ops : FloatOps F)
    (rops : FloatRounding F) (pops : GlyphPoints F) (a : glyf_accelerator_t)
    (t : accelerator_tables_t) (font : hb_font_t F) (gid : Nat) (is_vertical : Bool) : Int :=
  if gid ≥ a.num_glyphs then 0
  else
    let r := a.get_points gops pops font gid (points_aggregator_t.consumer ops)
      (points_aggregator_t.init ops font (some ⟨0, 0, 0, 0⟩) true)
    if !r.1 then
      if is_vertical then t.vmtx.get_side_bearing gid else t.hmtx.get_side_bearing gid
    else
      let extents := r.2.1.extents.getD ⟨0, 0, 0, 0⟩
      let phantoms := r.2.2.getD []
      rops.to_int
        (if is_vertical then
          ops.sub (rops.ceilf (phantoms.getD PHANTOM_TOP pops.null).y)
            (rops.of_position extents.y_bearing)
         else rops.floorf (phantoms.getD PHANTOM_LEFT pops.null).x)

/-- The method `glyf_accelerator_t::get_extents`: the value returned and the extents the
pointer refers to afterwards. -/
def glyf_accelerator_t.get_extents {F : Type} (gops : GlyphOps) (ops : FloatOps F)
    (pops : GlyphPoints F) (eops : GlyphExtents F) (a : glyf_accelerator_t)
    (t : accelerator_tables_t) (font : hb_font_t F) (gid : Nat)
    (extents : hb_glyph_extents_t) : Bool × hb_glyph_extents_t :=
  if gid ≥ a.num_glyphs then (false, extents)
  else if font.num_coords ≠ 0 ∧ font.num_coords = t.gvar.get_axis_count then
    let r := a.get_points gops pops font gid (points_aggregator_t.consumer ops)
      (points_aggregator_t.init ops font (some extents) false)
    (r.1, r.2.1.extents.getD extents)
  else eops.get_extents font a (a.glyph_for_gid gops gid false) extents

/-- The method `glyf_accelerator_t::get_path`: the value returned and the draw session
afterwards. -/
def glyf_accelerator_t.get_path {F : Type} (gops : GlyphOps) (ops : FloatOps F)
    (pops : GlyphPoints F) (a : glyf_accelerator_t) (font : hb_font_t F) (gid : Nat)
    (draw_session : hb_draw_session_t F) : Bool × hb_draw_session_t F :=
  let r := a.get_points gops pops font gid (path_builder_t.consumer ops)
    (path_builder_t.init font draw_session)
  (r.1, r.2.1.draw_session)

/-! ## Example inputs for side bearings and scaled paths -/

/-- Exact rounding on the rationals: floor, ceiling, the embedding of the integers and
truncation towards zero. -/
def FloatRounding.exact : FloatRounding ℚ where
  floorf := fun r => (⌊r⌋ : ℤ)
  ceilf := fun r => (⌈r⌉ : ℤ)
  of_position := fun n => (n : ℚ)
  to_int := fun r => if 0 ≤ r then ⌊r⌋ else ⌈r⌉

/-- A `Glyph::get_extents` that fails and leaves the extents as they are. -/
def GlyphExtents.none : GlyphExtents ℚ := ⟨fun _ _ _ extents => (false, extents)⟩

/-- Metrics in which every glyph has the static side bearings 50 and 70, with one variation
axis. -/
def tables_with_bearings : accelerator_tables_t :=
  ⟨⟨1⟩, ⟨fun _ => 500, fun _ => 50⟩, ⟨fun _ => 1000, fun _ => 70⟩⟩

/-- A font on rational coordinates whose x-scale is the identity and whose y-scale doubles
a coordinate. -/
def font_of_two_scales : hb_font_t ℚ :=
  ⟨fun v => v, fun v => 2 * v, Int.floor, fun v => Int.floor (2 * v), 0⟩

/-- A face whose head table announces the unknown value 2 of `indexToLocFormat`, with a
loca table and a glyf table that would hold one glyph of four bytes. -/
def face_of_unknown_format : hb_face_t :=
  { head := List.replicate 50 0 ++ [0, 2, 0, 0]
    loca := [0, 0, 0, 2], glyf := [1, 2, 3, 4], num_glyphs := 1 }

/-! ## Lemmas on fields -/

theorem byte_at_lt (data : List Nat) (i : Nat) : byte_at data i < 256 := by
  unfold byte_at; omega

theorem read_u16_lt (data : List Nat) (off : Nat) : read_u16 data off < 65536 := by
  have h1 := byte_at_lt data off
  have h2 := byte_at_lt data (off + 1)
  unfold read_u16; omega

theorem read_u32_lt (data : List Nat) (off : Nat) : read_u32 data off < 2 ^ 32 := by
  have h1 := byte_at_lt data off
  have h2 := byte_at_lt data (off + 1)
  have h3 := byte_at_lt data (off + 2)
  have h4 := byte_at_lt data (off + 3)
  unfold read_u32; omega

theorem start_offset_eq (a : glyf_accelerator_t) (gid : Nat) :
    a.start_offset gid =
      if a.short_offset then 2 * read_u16 a.loca_table (2 * gid)
      else read_u32 a.loca_table (4 * gid) := by
  have h := read_u16_lt a.loca_table (2 * gid)
  unfold glyf_accelerator_t.start_offset u32
  split
  · omega
  · rfl

theorem end_offset_eq (a : glyf_accelerator_t) (gid : Nat) :
    a.end_offset gid =
      if a.short_offset then 2 * read_u16 a.loca_table (2 * (gid + 1))
      else read_u32 a.loca_table (4 * (gid + 1)) := by
  have h := read_u16_lt a.loca_table (2 * (gid + 1))
  unfold glyf_accelerator_t.end_offset u32
  split
  · omega
  · rfl

/-! ## The serializer: stores, allocations, copies -/

namespace hb_serialize_context_t

theorem store_length (bytes : List Nat) :
    ∀ (data : List Nat) (pos : Nat), (store data pos bytes).length = data.length := by
  induction bytes with
  | nil => intro data pos; rfl
  | cons b bs ih => intro data pos; simp [store, ih]

theorem store_append (bytes : List Nat) :
    ∀ (pre xs post : List Nat), xs.length = bytes.length →
      store (pre ++ xs ++ post) pre.length bytes = pre ++ bytes ++ post := by
  induction bytes with
  | nil =>
    intro pre xs post h
    have hx : xs = [] := List.length_eq_zero.mp h
    subst hx
    simp [store]
  | cons b bs ih =>
    intro pre xs post h
    cases xs with
    | nil => simp at h
    | cons x xs1 =>
      have h1 : xs1.length = bs.length := by simpa using h
      have hset : (pre ++ (x :: xs1) ++ post).set pre.length b
          = (pre ++ [b]) ++ xs1 ++ post := by
        simp [List.set_append]
      have hlen : pre.length + 1 = (pre ++ [b]).length := by simp
      simp only [store]
      rw [hset, hlen, ih (pre ++ [b]) xs1 post h1]
      simp

theorem store_at_end (pre bytes : List Nat) :
    store (pre ++ List.replicate bytes.length 0) pre.length bytes = pre ++ bytes := by
  have h := store_append bytes pre (List.replicate bytes.length 0) [] (by simp)
  simpa using h

theorem allocate_size_ok (c : hb_serialize_context_t) (size : Nat)
    (he : c.errors = false) (hr : size ≤ c.room) :
    c.allocate_size size =
      ({ data := c.data ++ List.replicate size 0, room := c.room - size, errors := false },
        some c.data.length) := by
  unfold allocate_size
  have h : ¬ c.room < size := by omega
  simp [he, h]

theorem allocate_size_fail (c : hb_serialize_context_t) (size : Nat)
    (h : c.errors = true ∨ c.room < size) :
    c.allocate_size size = ({ c with errors := true }, none) := by
  unfold allocate_size
  by_cases he : c.errors = true
  · simp only [he, if_true]
    cases c
    simp_all
  · have hr : c.room < size := by
      cases h with
      | inl h => exact absurd h he
      | inr h => exact h
    simp [he, hr]

theorem embed_ok (c : hb_serialize_context_t) (byte : Nat)
    (he : c.errors = false) (hr : 1 ≤ c.room) :
    c.embed byte = { data := c.data ++ [byte], room := c.room - 1, errors := false } := by
  unfold embed
  rw [allocate_size_ok c 1 he hr]
  have h := store_at_end c.data [byte]
  simp only [List.length_singleton] at h
  simp only [h]

theorem embed_fail (c : hb_serialize_context_t) (byte : Nat)
    (h : c.errors = true ∨ c.room < 1) :
    c.embed byte = { c with errors := true } := by
  unfold embed
  rw [allocate_size_fail c 1 h]

theorem copy_byte_ok (c : hb_serialize_context_t) (byte : Nat)
    (he : c.errors = false) (hr : 1 ≤ c.room) :
    c.copy byte = { data := c.data ++ [byte], room := c.room - 1, errors := false } := by
  unfold copy
  rw [allocate_size_ok c 1 he hr]
  have h := store_at_end c.data [byte]
  simp only [List.length_singleton] at h
  simp only [h]

theorem copy_byte_fail (c : hb_serialize_context_t) (byte : Nat)
    (h : c.errors = true ∨ c.room < 1) :
    c.copy byte = { c with errors := true } := by
  unfold copy
  rw [allocate_size_fail c 1 h]

theorem in_place_length (f : List Nat → List Nat) (old : List Nat) :
    (in_place f old).length = old.length := by
  unfold in_place
  simp only [List.length_append, List.length_take, List.length_drop]
  omega

theorem in_place_of_length (f : List Nat → List Nat) (old : List Nat)
    (h : (f old).length = old.length) : in_place f old = f old := by
  unfold in_place
  rw [← h, List.take_length, h, List.drop_length, List.append_nil]

theorem in_place_nil (f : List Nat → List Nat) : in_place f [] = [] := by
  simp [in_place]

theorem mutate_errors (c : hb_serialize_context_t) (s : buffer_span)
    (f : List Nat → List Nat) : (c.mutate s f).errors = c.errors := rfl

theorem mutate_room (c : hb_serialize_context_t) (s : buffer_span)
    (f : List Nat → List Nat) : (c.mutate s f).room = c.room := rfl

theorem mutate_length (c : hb_serialize_context_t) (s : buffer_span)
    (f : List Nat → List Nat) : (c.mutate s f).data.length = c.data.length := by
  unfold mutate view
  simp only [List.length_append, List.length_take, List.length_drop, in_place_length]
  omega

theorem mutate_region (c : hb_serialize_context_t) (pre region post : List Nat)
    (f : List Nat → List Nat) (h : c.data = pre ++ region ++ post) :
    (c.mutate ⟨pre.length, region.length⟩ f).data = pre ++ in_place f region ++ post := by
  unfold mutate view
  simp only [h]
  have hv : List.take region.length (List.drop pre.length (pre ++ region ++ post)) = region := by
    simp [List.append_assoc]
  rw [hv]
  have h1 : List.take pre.length (pre ++ region ++ post) = pre := by
    simp [List.append_assoc]
  have h2 : List.drop (pre.length + region.length) (pre ++ region ++ post) = post := by
    have : pre.length + region.length = (pre ++ region).length := by simp
    rw [this, List.drop_left]
  rw [h1, h2]

theorem mutate_eq (c : hb_serialize_context_t) (pre region post : List Nat)
    (f : List Nat → List Nat) (n : Nat) (h : c.data = pre ++ region ++ post)
    (hn : n = region.length) :
    c.mutate ⟨pre.length, n⟩ f = { c with data := pre ++ in_place f region ++ post } := by
  subst hn
  have hd := mutate_region c pre region post f h
  have he := mutate_errors c ⟨pre.length, region.length⟩ f
  have hr := mutate_room c ⟨pre.length, region.length⟩ f
  cases hm : c.mutate ⟨pre.length, region.length⟩ f with
  | mk d r e =>
    rw [hm] at hd he hr
    simp only at hd he hr
    subst hd he hr
    rfl

theorem rewritten_bytes_nil (ops : GlyphOps) (plan : hb_subset_plan_t) :
    rewritten_bytes ops plan [] = [] := by
  unfold rewritten_bytes
  simp only [in_place_nil]
  split_ifs <;> simp only [in_place_nil]

theorem rewritten_bytes_length (ops : GlyphOps) (plan : hb_subset_plan_t) (bytes : List Nat) :
    (rewritten_bytes ops plan bytes).length = bytes.length := by
  unfold rewritten_bytes
  simp only
  split_ifs <;> simp only [in_place_length]

end hb_serialize_context_t

theorem copy_ok (bytes : hb_bytes_t) (c : hb_serialize_context_t)
    (he : c.errors = false) (hr : bytes.length ≤ c.room) :
    hb_bytes_t.copy bytes c =
      ({ data := c.data ++ bytes, room := c.room - bytes.length, errors := false },
        ⟨c.data.length, bytes.length⟩) := by
  unfold hb_bytes_t.copy
  rw [hb_serialize_context_t.allocate_size_ok c bytes.length he hr]
  simp only [hb_serialize_context_t.store_at_end]

theorem copy_fail (bytes : hb_bytes_t) (c : hb_serialize_context_t)
    (h : c.errors = true ∨ c.room < bytes.length) :
    hb_bytes_t.copy bytes c = ({ c with errors := true }, ⟨0, 0⟩) := by
  unfold hb_bytes_t.copy
  rw [hb_serialize_context_t.allocate_size_fail c bytes.length h]

/-! ## `SubsetGlyph::serialize` -/

namespace hb_serialize_context_t

theorem le_refl (c : hb_serialize_context_t) : c.le c := ⟨fun h => h, Nat.le_refl _⟩

theorem le_trans {a b c : hb_serialize_context_t} (h1 : a.le b) (h2 : b.le c) : a.le c :=
  ⟨fun h => h2.1 (h1.1 h), Nat.le_trans h1.2 h2.2⟩

theorem le_mutate (c : hb_serialize_context_t) (s : buffer_span) (f : List Nat → List Nat) :
    c.le (c.mutate s f) :=
  ⟨fun h => by rw [mutate_errors]; exact h, by rw [mutate_length]⟩

theorem le_embed (c : hb_serialize_context_t) (byte : Nat) : c.le (c.embed byte) := by
  by_cases h : c.errors = true ∨ c.room < 1
  · rw [embed_fail c byte h]
    exact ⟨fun _ => rfl, Nat.le_refl _⟩
  · have he : c.errors = false := by
      cases hc : c.errors with
      | true => exact absurd (Or.inl hc) h
      | false => rfl
    rw [embed_ok c byte he (by omega)]
    exact ⟨fun hc => absurd hc (by simp [he]), by simp⟩

end hb_serialize_context_t

theorem le_copy (bytes : hb_bytes_t) (c : hb_serialize_context_t) :
    c.le (hb_bytes_t.copy bytes c).1 := by
  by_cases h : c.errors = true ∨ c.room < bytes.length
  · rw [copy_fail bytes c h]
    exact ⟨fun _ => rfl, Nat.le_refl _⟩
  · have he : c.errors = false := by
      cases hc : c.errors with
      | true => exact absurd (Or.inl hc) h
      | false => rfl
    rw [copy_ok bytes c he (by omega)]
    exact ⟨fun hc => absurd hc (by simp [he]), by simp⟩

theorem copy_progress (bytes : hb_bytes_t) (c : hb_serialize_context_t) (hb : bytes ≠ []) :
    (hb_bytes_t.copy bytes c).1.errors = true
      ∨ c.data.length < (hb_bytes_t.copy bytes c).1.data.length := by
  by_cases h : c.errors = true ∨ c.room < bytes.length
  · rw [copy_fail bytes c h]
    exact Or.inl rfl
  · have he : c.errors = false := by
      cases hc : c.errors with
      | true => exact absurd (Or.inl hc) h
      | false => rfl
    rw [copy_ok bytes c he (by omega)]
    right
    have : 0 < bytes.length := List.length_pos.mpr hb
    simp only [List.length_append]
    omega

namespace SubsetGlyph

theorem embed_padding_le :
    ∀ (n : Nat) (c : hb_serialize_context_t), c.le (embed_padding n c) := by
  intro n
  induction n with
  | zero => intro c; exact hb_serialize_context_t.le_refl c
  | succ n ih =>
    intro c
    exact hb_serialize_context_t.le_trans (hb_serialize_context_t.le_embed c 0) (ih _)

theorem embed_padding_ok :
    ∀ (n : Nat) (c : hb_serialize_context_t), c.errors = false → n ≤ c.room →
      embed_padding n c =
        { data := c.data ++ List.replicate n 0, room := c.room - n, errors := false } := by
  intro n
  induction n with
  | zero =>
    intro c he _
    cases c
    simp_all [embed_padding]
  | succ n ih =>
    intro c he hr
    simp only [embed_padding]
    rw [hb_serialize_context_t.embed_ok c 0 he (by omega)]
    rw [ih _ rfl (by simp only; omega)]
    simp only [List.append_assoc, List.singleton_append, hb_serialize_context_t.mk.injEq,
      true_and, and_true]
    constructor
    · rw [List.replicate_succ]
    · omega

theorem update_glyph_le (ops : GlyphOps) (plan : hb_subset_plan_t)
    (c3 : hb_serialize_context_t) (s : buffer_span) : c3.le (update_glyph ops plan c3 s) := by
  unfold update_glyph
  simp only
  split_ifs
  · exact hb_serialize_context_t.le_refl _
  · exact hb_serialize_context_t.le_trans (hb_serialize_context_t.le_mutate _ _ _)
      (hb_serialize_context_t.le_trans (hb_serialize_context_t.le_mutate _ _ _)
        (hb_serialize_context_t.le_mutate _ _ _))
  · exact hb_serialize_context_t.le_trans (hb_serialize_context_t.le_mutate _ _ _)
      (hb_serialize_context_t.le_mutate _ _ _)
  · exact hb_serialize_context_t.le_trans (hb_serialize_context_t.le_mutate _ _ _)
      (hb_serialize_context_t.le_mutate _ _ _)
  · exact hb_serialize_context_t.le_mutate _ _ _

theorem update_glyph_region (ops : GlyphOps) (plan : hb_subset_plan_t)
    (c3 : hb_serialize_context_t) (pre region post : List Nat)
    (h : c3.data = pre ++ region ++ post) :
    update_glyph ops plan c3 ⟨pre.length, region.length⟩ =
      { c3 with data := pre ++ rewritten_bytes ops plan region ++ post } := by
  by_cases hz : region.length = 0
  · have hnil : region = [] := List.length_eq_zero.mp hz
    subst hnil
    unfold update_glyph
    simp only [List.length_nil, if_true, hb_serialize_context_t.rewritten_bytes_nil]
    cases c3
    simp_all
  · unfold update_glyph rewritten_bytes
    simp only [hz, if_false]
    have h4 := hb_serialize_context_t.mutate_eq c3 pre region post (remap_components plan)
      region.length h rfl
    rw [h4]
    by_cases hh : plan.has_flag HB_SUBSET_FLAGS_NO_HINTING = true
    · simp only [hh, if_true]
      have h5 := hb_serialize_context_t.mutate_eq
        { c3 with data := pre ++ hb_serialize_context_t.in_place (remap_components plan) region
            ++ post }
        pre (hb_serialize_context_t.in_place (remap_components plan) region) post
        ops.drop_hints region.length rfl
        (by rw [hb_serialize_context_t.in_place_length])
      rw [h5]
      by_cases ho : plan.has_flag HB_SUBSET_FLAGS_SET_OVERLAPS_FLAG = true
      · simp only [ho, if_true]
        rw [hb_serialize_context_t.mutate_eq _ pre _ post ops.set_overlaps_flag region.length
          rfl (by simp only [hb_serialize_context_t.in_place_length])]
      · simp only [ho, Bool.false_eq_true, if_false]
    · simp only [hh, Bool.false_eq_true, if_false]
      by_cases ho : plan.has_flag HB_SUBSET_FLAGS_SET_OVERLAPS_FLAG = true
      · simp only [ho, if_true]
        rw [hb_serialize_context_t.mutate_eq _ pre _ post ops.set_overlaps_flag region.length
          rfl (by simp only [hb_serialize_context_t.in_place_length])]
      · simp only [ho, Bool.false_eq_true, if_false]

theorem serialize_after_padding (ops : GlyphOps) (g : SubsetGlyph)
    (c : hb_serialize_context_t) (use_short_loca : Bool) (plan : hb_subset_plan_t) :
    (embed_padding (if use_short_loca then g.padding else 0)
      (hb_bytes_t.copy g.dest_end (hb_bytes_t.copy g.dest_start c).1).1).le
        (g.serialize ops c use_short_loca plan) :=
  update_glyph_le ops plan _ _

theorem serialize_le (ops : GlyphOps) (g : SubsetGlyph) (c : hb_serialize_context_t)
    (use_short_loca : Bool) (plan : hb_subset_plan_t) :
    c.le (g.serialize ops c use_short_loca plan) :=
  hb_serialize_context_t.le_trans (le_copy g.dest_start c)
    (hb_serialize_context_t.le_trans (le_copy g.dest_end _)
      (hb_serialize_context_t.le_trans (embed_padding_le _ _)
        (serialize_after_padding ops g c use_short_loca plan)))

theorem serialize_progress (ops : GlyphOps) (g : SubsetGlyph) (c : hb_serialize_context_t)
    (use_short_loca : Bool) (plan : hb_subset_plan_t) (hg : region_length g ≠ 0) :
    (g.serialize ops c use_short_loca plan).errors = true
      ∨ c.data.length < (g.serialize ops c use_short_loca plan).data.length := by
  have hrest : (hb_bytes_t.copy g.dest_end (hb_bytes_t.copy g.dest_start c).1).1.le
      (g.serialize ops c use_short_loca plan) :=
    hb_serialize_context_t.le_trans (embed_padding_le _ _)
      (serialize_after_padding ops g c use_short_loca plan)
  have h1 := le_copy g.dest_start c
  have h2 := le_copy g.dest_end (hb_bytes_t.copy g.dest_start c).1
  by_cases hs : g.dest_start = []
  · have he : g.dest_end ≠ [] := by
      intro he
      apply hg
      simp [region_length, hs, he]
    cases copy_progress g.dest_end (hb_bytes_t.copy g.dest_start c).1 he with
    | inl h => exact Or.inl (hrest.1 h)
    | inr h => exact Or.inr (by have := h1.2; have := hrest.2; omega)
  · cases copy_progress g.dest_start c hs with
    | inl h => exact Or.inl (hrest.1 (h2.1 h))
    | inr h => exact Or.inr (by have := h2.2; have := hrest.2; omega)

theorem length_eq (g : SubsetGlyph) (h : region_length g < 2 ^ 32) :
    g.length = region_length g := by
  unfold length u32 region_length at *
  exact Nat.mod_eq_of_lt h

theorem serialize_ok (ops : GlyphOps) (g : SubsetGlyph) (c : hb_serialize_context_t)
    (use_short_loca : Bool) (plan : hb_subset_plan_t) (he : c.errors = false)
    (hlen : region_length g < 2 ^ 32)
    (hr : region_length g + (if use_short_loca then g.padding else 0) ≤ c.room) :
    g.serialize ops c use_short_loca plan =
      { data := c.data ++ glyph_output ops plan use_short_loca g
        room := c.room - (region_length g + (if use_short_loca then g.padding else 0))
        errors := false } := by
  have hreg : region_length g = g.dest_start.length + g.dest_end.length := rfl
  unfold serialize
  rw [copy_ok g.dest_start c he (by omega)]
  simp only
  rw [copy_ok g.dest_end _ rfl (by simp only; omega)]
  simp only
  rw [embed_padding_ok _ _ rfl (by simp only; omega)]
  have hu : u32 (g.dest_start.length + g.dest_end.length)
      = (g.dest_start ++ g.dest_end).length := by
    rw [List.length_append]
    exact Nat.mod_eq_of_lt hlen
  rw [hu]
  have hroom : c.room - g.dest_start.length - g.dest_end.length
        - (if use_short_loca then g.padding else 0)
      = c.room - (region_length g + (if use_short_loca then g.padding else 0)) := by
    omega
  rw [hroom]
  have h := update_glyph_region ops plan
    { data := c.data ++ g.dest_start ++ g.dest_end
        ++ List.replicate (if use_short_loca then g.padding else 0) 0
      room := c.room - (region_length g + (if use_short_loca then g.padding else 0))
      errors := false }
    c.data (g.dest_start ++ g.dest_end)
    (List.replicate (if use_short_loca then g.padding else 0) 0)
    (by simp only [List.append_assoc])
  rw [h]
  simp only [glyph_output, List.append_assoc]

end SubsetGlyph

/-! ## `glyf::serialize` -/

theorem glyph_output_length (ops : GlyphOps) (plan : hb_subset_plan_t) (use_short_loca : Bool)
    (g : SubsetGlyph) :
    (glyph_output ops plan use_short_loca g).length = written_size use_short_loca g := by
  unfold glyph_output written_size region_length
  simp only [List.length_append, hb_serialize_context_t.rewritten_bytes_length,
    List.length_replicate]

theorem glyph_output_of_empty (ops : GlyphOps) (plan : hb_subset_plan_t)
    (use_short_loca : Bool) (g : SubsetGlyph) (h : region_length g = 0) :
    glyph_output ops plan use_short_loca g = [] := by
  apply List.length_eq_zero.mp
  rw [glyph_output_length]
  unfold written_size
  have hp : g.padding = 0 := by
    unfold SubsetGlyph.padding SubsetGlyph.length u32
    unfold region_length at h
    rw [h]
    norm_num
  rw [h, hp]
  simp

namespace glyf

theorem serialize_glyphs_nil (ops : GlyphOps) (c : hb_serialize_context_t)
    (use_short_loca : Bool) (plan : hb_subset_plan_t) :
    serialize_glyphs ops c [] use_short_loca plan = c := rfl

theorem serialize_glyphs_cons (ops : GlyphOps) (c : hb_serialize_context_t) (g : SubsetGlyph)
    (it : List SubsetGlyph) (use_short_loca : Bool) (plan : hb_subset_plan_t) :
    serialize_glyphs ops c (g :: it) use_short_loca plan =
      serialize_glyphs ops (g.serialize ops c use_short_loca plan) it use_short_loca plan := rfl

theorem serialize_glyphs_le (ops : GlyphOps) (use_short_loca : Bool) (plan : hb_subset_plan_t)
    (it : List SubsetGlyph) :
    ∀ c : hb_serialize_context_t, c.le (serialize_glyphs ops c it use_short_loca plan) := by
  induction it with
  | nil => intro c; exact hb_serialize_context_t.le_refl c
  | cons g it ih =>
    intro c
    rw [serialize_glyphs_cons]
    exact hb_serialize_context_t.le_trans (SubsetGlyph.serialize_le ops g c use_short_loca plan)
      (ih _)

theorem serialize_glyphs_progress (ops : GlyphOps) (use_short_loca : Bool)
    (plan : hb_subset_plan_t) (it : List SubsetGlyph) :
    ∀ c : hb_serialize_context_t, (∃ g ∈ it, region_length g ≠ 0) →
      (serialize_glyphs ops c it use_short_loca plan).errors = true
        ∨ c.data.length < (serialize_glyphs ops c it use_short_loca plan).data.length := by
  induction it with
  | nil =>
    intro c h
    obtain ⟨g, hg, _⟩ := h
    cases hg
  | cons g it ih =>
    intro c h
    rw [serialize_glyphs_cons]
    have hstep := SubsetGlyph.serialize_le ops g c use_short_loca plan
    have hrest := serialize_glyphs_le ops use_short_loca plan it
      (g.serialize ops c use_short_loca plan)
    by_cases hg : region_length g = 0
    · have hex : ∃ g1 ∈ it, region_length g1 ≠ 0 := by
        obtain ⟨g1, hmem, hne⟩ := h
        rcases List.mem_cons.mp hmem with heq | hin
        · subst heq
          exact absurd hg hne
        · exact ⟨g1, hin, hne⟩
      cases ih (g.serialize ops c use_short_loca plan) hex with
      | inl h1 => exact Or.inl h1
      | inr h1 => exact Or.inr (by have := hstep.2; omega)
    · cases SubsetGlyph.serialize_progress ops g c use_short_loca plan hg with
      | inl h1 => exact Or.inl (hrest.1 h1)
      | inr h1 => exact Or.inr (by have := hrest.2; omega)

theorem serialize_glyphs_ok (ops : GlyphOps) (use_short_loca : Bool) (plan : hb_subset_plan_t)
    (it : List SubsetGlyph) :
    ∀ c : hb_serialize_context_t, c.errors = false →
      (∀ g ∈ it, region_length g < 2 ^ 32) →
      (it.map (written_size use_short_loca)).sum ≤ c.room →
      serialize_glyphs ops c it use_short_loca plan =
        { data := c.data ++ glyphs_output ops plan use_short_loca it
          room := c.room - (it.map (written_size use_short_loca)).sum
          errors := false } := by
  induction it with
  | nil =>
    intro c he _ _
    cases c
    simp_all [serialize_glyphs_nil, glyphs_output]
  | cons g it ih =>
    intro c he hlen hr
    simp only [List.map_cons, List.sum_cons] at hr
    rw [serialize_glyphs_cons]
    have hg : region_length g < 2 ^ 32 := hlen g (List.mem_cons_self _ _)
    have hw : written_size use_short_loca g
        = region_length g + (if use_short_loca then g.padding else 0) := rfl
    rw [SubsetGlyph.serialize_ok ops g c use_short_loca plan he hg (by omega)]
    rw [ih _ rfl (fun g1 h1 => hlen g1 (List.mem_cons_of_mem _ h1)) (by simp only; omega)]
    simp only [glyphs_output, List.map_cons, List.flatten_cons, List.append_assoc, List.sum_cons,
      hb_serialize_context_t.mk.injEq, true_and, and_true]
    omega

theorem serialize_glyphs_of_empty (ops : GlyphOps) (use_short_loca : Bool)
    (plan : hb_subset_plan_t) (it : List SubsetGlyph) (c : hb_serialize_context_t)
    (he : c.errors = false) (h : ∀ g ∈ it, region_length g = 0) :
    serialize_glyphs ops c it use_short_loca plan = c := by
  have hsum : (it.map (written_size use_short_loca)).sum = 0 := by
    apply List.sum_eq_zero
    intro x hx
    obtain ⟨g, hg, rfl⟩ := List.mem_map.mp hx
    rw [← glyph_output_length ops plan, glyph_output_of_empty ops plan use_short_loca g (h g hg)]
    rfl
  have hout : glyphs_output ops plan use_short_loca it = [] := by
    unfold glyphs_output
    apply List.flatten_eq_nil_iff.mpr
    intro l hl
    obtain ⟨g, hg, rfl⟩ := List.mem_map.mp hl
    exact glyph_output_of_empty ops plan use_short_loca g (h g hg)
  rw [serialize_glyphs_ok ops use_short_loca plan it c he
    (fun g hg => by rw [h g hg]; norm_num) (by omega), hsum, hout]
  cases c
  simp_all

end glyf

/-! ## Sizes and the choice of the index width -/

theorem u32_eq (n : Nat) : u32 n = n % 4294967296 := rfl

theorem u32_of_lt (n : Nat) (h : n < 2 ^ 32) : u32 n = n := Nat.mod_eq_of_lt h

theorem padded_size_eq (g : SubsetGlyph) : g.padded_size = spec_padded_size g % 2 ^ 32 := by
  unfold SubsetGlyph.padded_size SubsetGlyph.padding SubsetGlyph.length spec_padded_size
    region_length
  simp only [u32_eq]
  omega

theorem length_eq_mod (g : SubsetGlyph) : g.length = region_length g % 2 ^ 32 := rfl

theorem spec_padded_size_even (g : SubsetGlyph) : spec_padded_size g % 2 = 0 := by
  unfold spec_padded_size
  omega

theorem region_length_le_padded (g : SubsetGlyph) : region_length g ≤ spec_padded_size g := by
  unfold spec_padded_size
  omega

theorem spec_padded_total_cons (g : SubsetGlyph) (glyphs : List SubsetGlyph) :
    spec_padded_total (g :: glyphs) = spec_padded_size g + spec_padded_total glyphs := by
  simp [spec_padded_total]

theorem spec_padded_total_even (glyphs : List SubsetGlyph) :
    spec_padded_total glyphs % 2 = 0 := by
  induction glyphs with
  | nil => rfl
  | cons g glyphs ih =>
    rw [spec_padded_total_cons]
    have := spec_padded_size_even g
    omega

theorem spec_padded_size_le_total (glyphs : List SubsetGlyph) (g : SubsetGlyph)
    (hg : g ∈ glyphs) : spec_padded_size g ≤ spec_padded_total glyphs := by
  induction glyphs with
  | nil => cases hg
  | cons g1 glyphs ih =>
    rw [spec_padded_total_cons]
    rcases List.mem_cons.mp hg with heq | hin
    · subst heq
      omega
    · have := ih hin
      omega

namespace glyf

theorem fold_padded (glyphs : List SubsetGlyph) :
    ∀ acc : Nat, acc < 2 ^ 32 →
      (glyphs.map SubsetGlyph.padded_size).foldl (fun acc size => u32 (acc + size)) acc
        = (acc + spec_padded_total glyphs) % 2 ^ 32 := by
  induction glyphs with
  | nil =>
    intro acc h
    simp only [List.map_nil, List.foldl_nil, spec_padded_total, List.sum_nil, Nat.add_zero]
    exact (Nat.mod_eq_of_lt h).symm
  | cons g glyphs ih =>
    intro acc _
    simp only [List.map_cons, List.foldl_cons]
    have hlt : u32 (acc + g.padded_size) < 2 ^ 32 := Nat.mod_lt _ (by norm_num)
    rw [ih _ hlt, spec_padded_total_cons, padded_size_eq]
    simp only [u32_eq]
    omega

theorem max_offset_eq (glyphs : List SubsetGlyph) :
    max_offset glyphs = spec_padded_total glyphs % 2 ^ 32 := by
  unfold max_offset
  rw [fold_padded glyphs 0 (by norm_num)]
  simp

theorem use_short_loca_iff (glyphs : List SubsetGlyph) :
    use_short_loca glyphs = true ↔ spec_padded_total glyphs % 2 ^ 32 ≤ 131070 := by
  unfold use_short_loca
  rw [max_offset_eq]
  simp only [decide_eq_true_eq]
  omega

theorem use_short_loca_false_iff (glyphs : List SubsetGlyph) :
    use_short_loca glyphs = false ↔ 131070 < spec_padded_total glyphs % 2 ^ 32 := by
  rw [← Bool.not_eq_true, use_short_loca_iff]
  omega

theorem spec_padded_total_perm {l1 l2 : List SubsetGlyph} (h : l1.Perm l2) :
    spec_padded_total l1 = spec_padded_total l2 := by
  unfold spec_padded_total
  exact (h.map spec_padded_size).sum_eq

theorem spec_padded_total_replicate (n : Nat) (g : SubsetGlyph) :
    spec_padded_total (List.replicate n g) = n * spec_padded_size g := by
  simp [spec_padded_total]

end glyf

/-! ## The run of `glyf::subset` -/

theorem tag_head_ne_loca : (HB_OT_TAG_head == HB_OT_TAG_loca) = false := by decide

theorem tag_beq_self (tag : hb_tag_t) : (tag == tag) = true := by simp

theorem find_table_loca (dest : List (hb_tag_t × List Nat)) (loca head : List Nat) :
    find_table (dest ++ [(HB_OT_TAG_loca, loca), (HB_OT_TAG_head, head)]) HB_OT_TAG_loca
      = loca := by
  have hrev : (dest ++ [(HB_OT_TAG_loca, loca), (HB_OT_TAG_head, head)]).reverse
      = (HB_OT_TAG_head, head) :: (HB_OT_TAG_loca, loca) :: dest.reverse := by simp
  unfold find_table
  rw [hrev]
  simp only [List.find?_cons, tag_head_ne_loca, tag_beq_self]

theorem find_table_head (dest : List (hb_tag_t × List Nat)) (loca head : List Nat) :
    find_table (dest ++ [(HB_OT_TAG_loca, loca), (HB_OT_TAG_head, head)]) HB_OT_TAG_head
      = head := by
  have hrev : (dest ++ [(HB_OT_TAG_loca, loca), (HB_OT_TAG_head, head)]).reverse
      = (HB_OT_TAG_head, head) :: (HB_OT_TAG_loca, loca) :: dest.reverse := by simp
  unfold find_table
  rw [hrev]
  simp only [List.find?_cons, tag_beq_self]

namespace glyf

theorem serialize_table_ok (ops : GlyphOps) (c : hb_serialize_context_t) (it : List SubsetGlyph)
    (use_short_loca : Bool) (plan : hb_subset_plan_t) (he : c.errors = false)
    (hlen : ∀ g ∈ it, region_length g < 2 ^ 32)
    (hr : (it.map (written_size use_short_loca)).sum < c.room) :
    (serialize ops c it use_short_loca plan).errors = false
      ∧ (serialize ops c it use_short_loca plan).data =
          c.data ++ (if glyphs_output ops plan use_short_loca it = [] then [0]
                     else glyphs_output ops plan use_short_loca it) := by
  unfold serialize
  simp only
  rw [serialize_glyphs_ok ops use_short_loca plan it c he hlen (by omega)]
  unfold hb_serialize_context_t.length
  simp only [List.length_append]
  by_cases hout : glyphs_output ops plan use_short_loca it = []
  · simp only [hout, List.length_nil, Nat.add_zero, if_true]
    rw [hb_serialize_context_t.copy_byte_ok _ 0 rfl (by simp only; omega)]
    simp
  · have hpos : 0 < (glyphs_output ops plan use_short_loca it).length := List.length_pos.mpr hout
    have hne : ¬ (c.data.length = c.data.length
        + (glyphs_output ops plan use_short_loca it).length) := by omega
    simp only [hne, hout, if_false]
    trivial

theorem add_loca_and_head_true (plan plan1 : hb_subset_plan_t) (sizes : List Nat)
    (use_short_loca : Bool) (mem : hb_alloc_t)
    (h : _add_loca_and_head plan sizes use_short_loca mem = (true, plan1)) :
    plan1 = { plan with dest := plan.dest ++
      [(HB_OT_TAG_loca, loca_entries use_short_loca (u32 (sizes.length + 1))
          (_write_loca sizes use_short_loca)),
       (HB_OT_TAG_head, head_prime plan.source.head use_short_loca)] } := by
  unfold _add_loca_and_head _add_head_and_set_loca_version hb_subset_plan_t.add_table at h
  cases hc : mem.calloc_ok <;> cases hb : mem.blob_copy_ok <;>
    simp [hc, hb] at h
  rw [← h]

theorem add_loca_and_head_ok (plan : hb_subset_plan_t) (sizes : List Nat)
    (use_short_loca : Bool) (mem : hb_alloc_t) (hc : mem.calloc_ok = true)
    (hb : mem.blob_copy_ok = true) :
    _add_loca_and_head plan sizes use_short_loca mem =
      (true, { plan with dest := plan.dest ++
        [(HB_OT_TAG_loca, loca_entries use_short_loca (u32 (sizes.length + 1))
            (_write_loca sizes use_short_loca)),
         (HB_OT_TAG_head, head_prime plan.source.head use_short_loca)] }) := by
  unfold _add_loca_and_head _add_head_and_set_loca_version hb_subset_plan_t.add_table
  simp [hc, hb, head_prime]

theorem subset_glyphs_true (ops : GlyphOps) (c c1 : hb_subset_context_t) (mem : hb_alloc_t)
    (glyphs : List SubsetGlyph) (h : subset_glyphs ops c mem glyphs = (true, c1)) :
    c1.serializer = serialize ops c.serializer glyphs (use_short_loca glyphs) c.plan
      ∧ c1.serializer.errors = false
      ∧ c1.plan = { c.plan with dest := c.plan.dest ++
          [(HB_OT_TAG_loca, loca_prime glyphs),
           (HB_OT_TAG_head, head_prime c.plan.source.head (use_short_loca glyphs))] } := by
  unfold subset_glyphs at h
  simp only at h
  cases herr : (serialize ops c.serializer glyphs (use_short_loca glyphs) c.plan).in_error
  · cases hadd : _add_loca_and_head c.plan (padded_offsets glyphs) (use_short_loca glyphs) mem
      with
    | mk ok plan1 =>
      have herr1 : (serialize ops c.serializer glyphs (use_short_loca glyphs) c.plan).errors
          = false := herr
      cases ok with
      | false =>
        simp [herr, hadd, hb_serialize_context_t.check_success, herr1] at h
      | true =>
        simp [herr, hadd, hb_serialize_context_t.check_success, herr1] at h
        have hp := add_loca_and_head_true c.plan plan1 _ _ mem hadd
        rw [← h]
        exact ⟨rfl, herr1, hp⟩
  · simp [herr] at h

theorem subset_glyphs_ok (ops : GlyphOps) (c : hb_subset_context_t) (mem : hb_alloc_t)
    (glyphs : List SubsetGlyph) (he : c.serializer.errors = false)
    (hlen : ∀ g ∈ glyphs, region_length g < 2 ^ 32)
    (hr : (glyphs.map (written_size (use_short_loca glyphs))).sum < c.serializer.room)
    (hc : mem.calloc_ok = true) (hb : mem.blob_copy_ok = true) :
    subset_glyphs ops c mem glyphs =
      (true,
        { serializer := serialize ops c.serializer glyphs (use_short_loca glyphs) c.plan
          plan := { c.plan with dest := c.plan.dest ++
            [(HB_OT_TAG_loca, loca_prime glyphs),
             (HB_OT_TAG_head, head_prime c.plan.source.head (use_short_loca glyphs))] } }) := by
  have hs := serialize_table_ok ops c.serializer glyphs (use_short_loca glyphs) c.plan he hlen hr
  unfold subset_glyphs
  simp only [hb_serialize_context_t.in_error, hs.1, Bool.false_eq_true, if_false]
  rw [add_loca_and_head_ok c.plan _ _ mem hc hb]
  simp [hb_serialize_context_t.check_success, hs.1, loca_prime]

end glyf

/-! ## Lookup: `glyph_for_gid` -/

theorem glyph_for_gid_of_valid (ops : GlyphOps) (a : glyf_accelerator_t) (gid : Nat)
    (hgid : gid < a.num_glyphs) (hle : a.start_offset gid ≤ a.end_offset gid)
    (hlen : a.end_offset gid ≤ a.glyf_table.length) :
    a.glyph_for_gid ops gid false =
      ⟨(a.glyf_table.drop (a.start_offset gid)).take (a.end_offset gid - a.start_offset gid),
        gid⟩ := by
  unfold glyf_accelerator_t.glyph_for_gid
  have h1 : ¬ (gid ≥ a.num_glyphs) := by omega
  have h2 : ¬ (a.start_offset gid > a.end_offset gid ∨
      a.end_offset gid > a.glyf_table.length) := by omega
  simp [h1, h2]

theorem glyph_for_gid_of_invalid (ops : GlyphOps) (a : glyf_accelerator_t) (gid : Nat)
    (npr : Bool)
    (h : a.num_glyphs ≤ gid ∨ a.end_offset gid < a.start_offset gid ∨
      a.glyf_table.length < a.end_offset gid) :
    a.glyph_for_gid ops gid npr = Glyph.empty := by
  unfold glyf_accelerator_t.glyph_for_gid
  by_cases h1 : gid ≥ a.num_glyphs
  · simp [h1]
  · have h2 : a.start_offset gid > a.end_offset gid ∨
        a.end_offset gid > a.glyf_table.length := by omega
    simp [h1, h2]

theorem glyph_for_gid_trim (ops : GlyphOps) (a : glyf_accelerator_t) (gid : Nat)
    (hgid : gid < a.num_glyphs) (hle : a.start_offset gid ≤ a.end_offset gid)
    (hlen : a.end_offset gid ≤ a.glyf_table.length) :
    a.glyph_for_gid ops gid true = ops.trim_padding (a.glyph_for_gid ops gid false) := by
  unfold glyf_accelerator_t.glyph_for_gid
  have h1 : ¬ (gid ≥ a.num_glyphs) := by omega
  have h2 : ¬ (a.start_offset gid > a.end_offset gid ∨
      a.end_offset gid > a.glyf_table.length) := by omega
  simp [h1, h2]

/-- C1: for a gid below `num_glyphs` whose resolved range satisfies
`start ≤ end ≤ glyf length`, `glyph_for_gid` without padding removal returns exactly the
bytes `[start, end)` of the glyf blob: `end - start` bytes, the `i`-th being byte
`start + i` of the blob; `start` and `end` are twice the 16-bit entries `gid`, `gid + 1` of
loca when `short_offset` is set and the 32-bit entries themselves otherwise. -/
theorem glyph_for_gid_returns_range (ops : GlyphOps) (a : glyf_accelerator_t)
    (gid start_offset end_offset : Nat)
    (hstart : start_offset =
      if a.short_offset then 2 * read_u16 a.loca_table (2 * gid)
      else read_u32 a.loca_table (4 * gid))
    (hend : end_offset =
      if a.short_offset then 2 * read_u16 a.loca_table (2 * (gid + 1))
      else read_u32 a.loca_table (4 * (gid + 1)))
    (hgid : gid < a.num_glyphs) (hle : start_offset ≤ end_offset)
    (hlen : end_offset ≤ a.glyf_table.length) :
    (a.glyph_for_gid ops gid false).bytes
        = (a.glyf_table.drop start_offset).take (end_offset - start_offset)
      ∧ (a.glyph_for_gid ops gid false).bytes.length = end_offset - start_offset
      ∧ ∀ i, i < end_offset - start_offset →
          (a.glyph_for_gid ops gid false).bytes[i]? = a.glyf_table[start_offset + i]? := by
  rw [← start_offset_eq] at hstart
  rw [← end_offset_eq] at hend
  subst hstart hend
  rw [glyph_for_gid_of_valid ops a gid hgid hle hlen]
  refine ⟨rfl, ?_, ?_⟩
  · simp only [List.length_take, List.length_drop]
    omega
  · intro i hi
    simp only [List.getElem?_take, hi, if_true, List.getElem?_drop]

/-- Witness of C1: a halved-16 table with entries 0, 1, 3 over a six-byte blob; glyph 1 is
the bytes 2 to 5. -/
theorem glyph_for_gid_returns_range_witness :
    (glyf_accelerator_t.glyph_for_gid GlyphOps.trivial
        ⟨true, 2, [0, 0, 0, 1, 0, 3], [11, 12, 13, 14, 15, 16]⟩ 1 false).bytes
      = [13, 14, 15, 16] :=
  (glyph_for_gid_returns_range GlyphOps.trivial
    ⟨true, 2, [0, 0, 0, 1, 0, 3], [11, 12, 13, 14, 15, 16]⟩ 1 2 6
    (by decide) (by decide) (by decide) (by decide) (by decide)).1

/-- C2: `glyph_for_gid` is a total function; when the gid is not below `num_glyphs`, or the
resolved start offset exceeds the end offset, or the end offset exceeds the glyf blob
length, it returns the empty glyph (no bytes), with or without padding removal; in every
other case the span it resolves has length `end - start`, which is what it returns, handed
to `trim_padding` first when padding removal is asked for. -/
theorem glyph_for_gid_never_fails (ops : GlyphOps) (a : glyf_accelerator_t)
    (gid start_offset end_offset : Nat) (needs_padding_removal : Bool)
    (hstart : start_offset =
      if a.short_offset then 2 * read_u16 a.loca_table (2 * gid)
      else read_u32 a.loca_table (4 * gid))
    (hend : end_offset =
      if a.short_offset then 2 * read_u16 a.loca_table (2 * (gid + 1))
      else read_u32 a.loca_table (4 * (gid + 1))) :
    ((a.num_glyphs ≤ gid ∨ end_offset < start_offset ∨ a.glyf_table.length < end_offset) →
        a.glyph_for_gid ops gid needs_padding_removal = Glyph.empty
          ∧ (a.glyph_for_gid ops gid needs_padding_removal).bytes.length = 0)
      ∧ (¬ (a.num_glyphs ≤ gid ∨ end_offset < start_offset
            ∨ a.glyf_table.length < end_offset) →
          (a.glyph_for_gid ops gid false).bytes.length = end_offset - start_offset
            ∧ (a.glyph_for_gid ops gid false).gid = gid
            ∧ a.glyph_for_gid ops gid true
                = ops.trim_padding (a.glyph_for_gid ops gid false)) := by
  rw [← start_offset_eq] at hstart
  rw [← end_offset_eq] at hend
  subst hstart hend
  constructor
  · intro h
    rw [glyph_for_gid_of_invalid ops a gid needs_padding_removal h]
    exact ⟨rfl, rfl⟩
  · intro h
    have hgid : gid < a.num_glyphs := by omega
    have hle : a.start_offset gid ≤ a.end_offset gid := by omega
    have hlen : a.end_offset gid ≤ a.glyf_table.length := by omega
    refine ⟨?_, ?_, glyph_for_gid_trim ops a gid hgid hle hlen⟩
    · rw [glyph_for_gid_of_valid ops a gid hgid hle hlen]
      simp only [List.length_take, List.length_drop]
      omega
    · rw [glyph_for_gid_of_valid ops a gid hgid hle hlen]

/-- Witness of C2: over a four-byte blob, entry pair (1, 3) of a halved-16 table resolves to
the range 2 to 6, which exceeds the blob, and the glyph is empty. -/
theorem glyph_for_gid_never_fails_witness :
    glyf_accelerator_t.glyph_for_gid GlyphOps.trivial
        ⟨true, 2, [0, 0, 0, 1, 0, 3], [11, 12, 13, 14]⟩ 1 false = Glyph.empty :=
  ((glyph_for_gid_never_fails GlyphOps.trivial
    ⟨true, 2, [0, 0, 0, 1, 0, 3], [11, 12, 13, 14]⟩ 1 2 6 false
    (by decide) (by decide)).1 (by decide)).1

/-! ## The index width chosen by `glyf::subset` -/

theorem spec_padded_size_glyph_of_size (n : Nat) :
    spec_padded_size (glyph_of_size n) = n + n % 2 := by
  simp [spec_padded_size, region_length, glyph_of_size]

theorem spec_padded_total_single (a : Nat) :
    spec_padded_total [glyph_of_size a] = a + a % 2 := by
  simp [spec_padded_total, spec_padded_size_glyph_of_size]

theorem spec_padded_total_pair (a b : Nat) :
    spec_padded_total [glyph_of_size a, glyph_of_size b] = (a + a % 2) + (b + b % 2) := by
  simp [spec_padded_total, spec_padded_size_glyph_of_size]

/-- C3, as stated, fails: 32768 glyphs of 131072 bytes each have the padded sizes sum up to
`2 ^ 32`, far above 131,070, and `glyf::subset` selects the halved-16 encoding, because
`max_offset` is computed in 32-bit unsigned arithmetic. -/
theorem subset_encoding_choice_counterexample :
    131070 < spec_padded_total (List.replicate 32768 (glyph_of_size 131072))
      ∧ glyf.use_short_loca (List.replicate 32768 (glyph_of_size 131072)) = true := by
  have hT : spec_padded_total (List.replicate 32768 (glyph_of_size 131072)) = 4294967296 := by
    rw [glyf.spec_padded_total_replicate, spec_padded_size_glyph_of_size]
  refine ⟨by rw [hT]; norm_num, ?_⟩
  rw [glyf.use_short_loca_iff, hT]
  norm_num

/-- C3, amended: `glyf::subset` chooses one encoding for the whole table from the sum T of
all glyphs' padded sizes (length + length mod 2) as accumulated in a 32-bit unsigned:
direct-32 exactly when `T mod 2 ^ 32` strictly exceeds 131,070, halved-16 exactly when
`T mod 2 ^ 32 ≤ 131,070`; so for `T < 2 ^ 32` exactly as the sum T itself compares with
131,070.  The choice is a function of that sum alone: it is the same for any two lists
with equal sums, in particular for any reordering of the glyphs. -/
theorem subset_encoding_choice (glyphs : List SubsetGlyph) :
    (glyf.use_short_loca glyphs = false ↔ 131070 < spec_padded_total glyphs % 2 ^ 32)
      ∧ (glyf.use_short_loca glyphs = true ↔ spec_padded_total glyphs % 2 ^ 32 ≤ 131070)
      ∧ (spec_padded_total glyphs < 2 ^ 32 →
          ((glyf.use_short_loca glyphs = false ↔ 131070 < spec_padded_total glyphs)
            ∧ (glyf.use_short_loca glyphs = true ↔ spec_padded_total glyphs ≤ 131070)))
      ∧ (∀ glyphs2 : List SubsetGlyph, spec_padded_total glyphs2 = spec_padded_total glyphs →
          glyf.use_short_loca glyphs2 = glyf.use_short_loca glyphs)
      ∧ (∀ glyphs2 : List SubsetGlyph, glyphs.Perm glyphs2 →
          glyf.use_short_loca glyphs2 = glyf.use_short_loca glyphs) := by
  have hsame : ∀ glyphs2 : List SubsetGlyph,
      spec_padded_total glyphs2 = spec_padded_total glyphs →
        glyf.use_short_loca glyphs2 = glyf.use_short_loca glyphs := by
    intro glyphs2 h
    unfold glyf.use_short_loca
    rw [glyf.max_offset_eq, glyf.max_offset_eq, h]
  refine ⟨glyf.use_short_loca_false_iff glyphs, glyf.use_short_loca_iff glyphs, ?_, hsame, ?_⟩
  · intro hT
    rw [glyf.use_short_loca_false_iff, glyf.use_short_loca_iff, Nat.mod_eq_of_lt hT]
    exact ⟨Iff.rfl, Iff.rfl⟩
  · intro glyphs2 hperm
    exact hsame glyphs2 (glyf.spec_padded_total_perm hperm).symm

/-- Witness of C3: a glyph of 131071 bytes has padded size 131072 and makes the choice
direct-32; the sum is below `2 ^ 32`. -/
theorem subset_encoding_choice_witness :
    glyf.use_short_loca [glyph_of_size 131071] = false :=
  ((subset_encoding_choice [glyph_of_size 131071]).2.2.1
    (by rw [spec_padded_total_single]; norm_num)).1.mpr
    (by rw [spec_padded_total_single]; norm_num)

theorem head_prime_length (head : List Nat) (use_short_loca : Bool) :
    (head_prime head use_short_loca).length = head.length := by
  unfold head_prime
  rw [hb_serialize_context_t.store_length]

theorem store_two (data : List Nat) (pos a b : Nat) :
    hb_serialize_context_t.store data pos [a, b] = (data.set pos a).set (pos + 1) b := rfl

theorem byte_at_set (data : List Nat) (i j v : Nat) :
    byte_at (data.set i v) j = if i = j ∧ j < data.length then v % 256 else byte_at data j := by
  unfold byte_at
  by_cases hij : i = j
  · subst hij
    by_cases hlt : i < data.length
    · simp [hlt, List.getD_eq_getElem?_getD]
    · simp [hlt, List.getD_eq_getElem?_getD]
      rw [List.getElem?_eq_none (by simpa using hlt), List.getElem?_eq_none (by omega)]
  · simp [hij, List.getD_eq_getElem?_getD, List.getElem?_set_ne hij]

theorem head_prime_indexToLocFormat (head : List Nat) (use_short_loca : Bool)
    (h : 52 ≤ head.length) :
    head_indexToLocFormat (head_prime head use_short_loca)
      = if use_short_loca then 0 else 1 := by
  unfold head_indexToLocFormat read_i16 read_u16 head_prime head_indexToLocFormat_offset
  simp only [bytes_u16, store_two, byte_at_set, List.length_set]
  have h50 : (50 : Nat) < head.length := by omega
  have h51 : (51 : Nat) < head.length := by omega
  cases use_short_loca <;> simp [h50, h51]

/-- C4, as stated, fails: for one glyph of 131070 bytes the sum of padded lengths is
131,070, and `glyf::subset` selects the halved-16 encoding, the header copy getting
`indexToLocFormat` 0 (here over a 54-byte header that held 1); and it selects halved-16 as
well when the sum, `2 ^ 32` for 16384 glyphs of 262144 bytes, wraps in the 32-bit
`max_offset`. -/
theorem subset_selects_long_counterexample :
    (131070 ≤ spec_padded_total [glyph_of_size 131070]
      ∧ glyf.use_short_loca [glyph_of_size 131070] = true
      ∧ head_indexToLocFormat
          (head_prime (List.replicate 50 0 ++ [0, 1, 0, 0])
            (glyf.use_short_loca [glyph_of_size 131070])) = 0)
      ∧ (131070 ≤ spec_padded_total (List.replicate 16384 (glyph_of_size 262144))
        ∧ glyf.use_short_loca (List.replicate 16384 (glyph_of_size 262144)) = true) := by
  have hT : spec_padded_total [glyph_of_size 131070] = 131070 := by
    rw [spec_padded_total_single]
  have hs : glyf.use_short_loca [glyph_of_size 131070] = true := by
    rw [glyf.use_short_loca_iff, hT]
    norm_num
  have hT2 : spec_padded_total (List.replicate 16384 (glyph_of_size 262144)) = 4294967296 := by
    rw [glyf.spec_padded_total_replicate, spec_padded_size_glyph_of_size]
  refine ⟨⟨by rw [hT], hs, ?_⟩, by rw [hT2]; norm_num, ?_⟩
  · rw [hs, head_prime_indexToLocFormat _ _ (by simp)]
    rfl
  · rw [glyf.use_short_loca_iff, hT2]
    norm_num

/-- C4, amended: for every list of subset glyphs whose sum of padded lengths, as
accumulated in the 32-bit `max_offset`, strictly exceeds 131,070 (for a sum below `2 ^ 32`:
is at least 131,071), `glyf::subset` selects direct-32 encoding (`use_short_loca` is
false), and a run that succeeds adds a head table whose `indexToLocFormat` is 1 (the source
header holding the field, which ends at byte 52); the run does succeed when the serializer
has room and the two allocations succeed. -/
theorem subset_selects_long (ops : GlyphOps) (c : hb_subset_context_t) (mem : hb_alloc_t)
    (glyphs : List SubsetGlyph)
    (hT : 131070 < spec_padded_total glyphs % 2 ^ 32)
    (hhead : 52 ≤ c.plan.source.head.length) :
    glyf.use_short_loca glyphs = false
      ∧ (∀ c1 : hb_subset_context_t, glyf.subset_glyphs ops c mem glyphs = (true, c1) →
          head_indexToLocFormat (find_table c1.plan.dest HB_OT_TAG_head) = 1)
      ∧ (c.serializer.errors = false → (∀ g ∈ glyphs, region_length g < 2 ^ 32) →
          (glyphs.map (written_size false)).sum < c.serializer.room →
          mem.calloc_ok = true → mem.blob_copy_ok = true →
          (glyf.subset_glyphs ops c mem glyphs).1 = true) := by
  have hs : glyf.use_short_loca glyphs = false := (glyf.use_short_loca_false_iff glyphs).mpr hT
  refine ⟨hs, ?_, ?_⟩
  · intro c1 h
    obtain ⟨_, _, hplan⟩ := glyf.subset_glyphs_true ops c c1 mem glyphs h
    rw [hplan]
    simp only
    rw [find_table_head, head_prime_indexToLocFormat _ _ hhead, hs]
    rfl
  · intro he hlen hr hc hb
    rw [glyf.subset_glyphs_ok ops c mem glyphs he hlen (by rw [hs]; exact hr) hc hb]

/-- Witness of C4: two glyphs of 70000 bytes, sum 140000, over a 54-byte source header. -/
theorem subset_selects_long_witness :
    glyf.use_short_loca [glyph_of_size 70000, glyph_of_size 70000] = false :=
  (subset_selects_long GlyphOps.trivial
    ⟨⟨[], 200000, false⟩, plan_of_source ⟨List.replicate 54 0, [], [], 0⟩ 2⟩ ⟨true, true⟩
    [glyph_of_size 70000, glyph_of_size 70000]
    (by rw [spec_padded_total_pair]; norm_num)
    (by simp [plan_of_source])).1

/-! ## The index table written by `_write_loca` -/

theorem prefix_sum_zero (sizes : List Nat) : prefix_sum sizes 0 = 0 := by
  simp [prefix_sum]

theorem prefix_sum_cons_succ (s : Nat) (sizes : List Nat) (i : Nat) :
    prefix_sum (s :: sizes) (i + 1) = s + prefix_sum sizes i := by
  simp [prefix_sum]

theorem prefix_sum_mono (sizes : List Nat) :
    ∀ i j : Nat, i ≤ j → prefix_sum sizes i ≤ prefix_sum sizes j := by
  induction sizes with
  | nil => intro i j _; simp [prefix_sum]
  | cons s sizes ih =>
    intro i j hij
    cases i with
    | zero => rw [prefix_sum_zero]; exact Nat.zero_le _
    | succ i =>
      cases j with
      | zero => omega
      | succ j =>
        rw [prefix_sum_cons_succ, prefix_sum_cons_succ]
        have := ih i j (by omega)
        omega

theorem prefix_sum_le_sum (sizes : List Nat) (i : Nat) : prefix_sum sizes i ≤ sizes.sum := by
  have h := prefix_sum_mono sizes i sizes.length
  by_cases hi : i ≤ sizes.length
  · have h1 := h hi
    simpa [prefix_sum] using h1
  · unfold prefix_sum
    rw [List.take_of_length_le (by omega)]

theorem prefix_sum_replicate (n x i : Nat) (h : i ≤ n) :
    prefix_sum (List.replicate n x) i = i * x := by
  unfold prefix_sum
  rw [List.take_replicate, Nat.min_eq_left h, List.sum_replicate, smul_eq_mul]

namespace glyf

theorem write_loca_offsets_length (right_shift : Nat) (sizes : List Nat) :
    ∀ offset : Nat, (_write_loca_offsets right_shift offset sizes).length = sizes.length := by
  induction sizes with
  | nil => intro offset; rfl
  | cons s sizes ih => intro offset; simp [_write_loca_offsets, ih]

theorem write_loca_offsets_get (right_shift : Nat) (sizes : List Nat) :
    ∀ (offset i : Nat), i < sizes.length →
      (_write_loca_offsets right_shift offset sizes)[i]?
        = some (((offset + prefix_sum sizes (i + 1)) % 2 ^ 32) >>> right_shift) := by
  induction sizes with
  | nil => intro offset i h; simp at h
  | cons s sizes ih =>
    intro offset i h
    cases i with
    | zero =>
      simp [_write_loca_offsets, prefix_sum, u32]
    | succ i =>
      have hi : i < sizes.length := by simpa using h
      simp only [_write_loca_offsets, List.getElem?_cons_succ]
      rw [ih _ i hi, prefix_sum_cons_succ]
      simp only [u32_eq]
      congr 2
      omega

theorem write_loca_length (sizes : List Nat) (short_offsets : Bool) :
    (_write_loca sizes short_offsets).length = sizes.length + 1 := by
  simp [_write_loca, write_loca_offsets_length]

theorem write_loca_get (sizes : List Nat) (short_offsets : Bool) (i : Nat)
    (h : i ≤ sizes.length) :
    (_write_loca sizes short_offsets)[i]?
      = some ((prefix_sum sizes i % 2 ^ 32) >>> (if short_offsets then 1 else 0)) := by
  unfold _write_loca
  cases i with
  | zero => simp [prefix_sum_zero]
  | succ i =>
    simp only [List.getElem?_cons_succ]
    rw [write_loca_offsets_get _ sizes 0 i (by omega)]
    simp

end glyf

theorem byte_at_cons_succ (a : Nat) (data : List Nat) (i : Nat) :
    byte_at (a :: data) (i + 1) = byte_at data i := by
  simp [byte_at]

theorem read_u16_flatten (values : List Nat) :
    ∀ (i v : Nat), values[i]? = some v →
      read_u16 ((values.map bytes_u16).flatten) (2 * i) = v % 65536 := by
  induction values with
  | nil => intro i v h; simp at h
  | cons v0 values ih =>
    intro i v h
    cases i with
    | zero =>
      simp only [List.getElem?_cons_zero, Option.some.injEq] at h
      subst h
      simp only [List.map_cons, List.flatten_cons, bytes_u16, read_u16, byte_at]
      simp
      omega
    | succ i =>
      simp only [List.getElem?_cons_succ] at h
      have h2 : 2 * (i + 1) = 2 * i + 1 + 1 := by ring
      simp only [List.map_cons, List.flatten_cons, bytes_u16, read_u16, h2]
      simp only [List.cons_append, List.nil_append, byte_at_cons_succ]
      exact ih i v h

theorem read_u32_flatten (values : List Nat) :
    ∀ (i v : Nat), values[i]? = some v →
      read_u32 ((values.map bytes_u32).flatten) (4 * i) = v % 4294967296 := by
  induction values with
  | nil => intro i v h; simp at h
  | cons v0 values ih =>
    intro i v h
    cases i with
    | zero =>
      simp only [List.getElem?_cons_zero, Option.some.injEq] at h
      subst h
      simp only [List.map_cons, List.flatten_cons, bytes_u32, read_u32, byte_at]
      simp
      omega
    | succ i =>
      simp only [List.getElem?_cons_succ] at h
      have h2 : 4 * (i + 1) = 4 * i + 1 + 1 + 1 + 1 := by ring
      simp only [List.map_cons, List.flatten_cons, bytes_u32, read_u32, h2]
      simp only [List.cons_append, List.nil_append, byte_at_cons_succ]
      exact ih i v h

namespace glyf

theorem loca_entries_of_length (use_short_loca : Bool) (values : List Nat) :
    loca_entries use_short_loca values.length values
      = (values.map fun v => if use_short_loca then bytes_u16 v else bytes_u32 v).flatten := by
  unfold loca_entries
  simp

theorem loca_entries_length (use_short_loca : Bool) (values : List Nat) :
    (loca_entries use_short_loca values.length values).length
      = (if use_short_loca then 2 else 4) * values.length := by
  rw [loca_entries_of_length]
  induction values with
  | nil => simp
  | cons v values ih =>
    simp only [List.map_cons, List.flatten_cons, List.length_append, ih, List.length_cons]
    cases use_short_loca <;> simp [bytes_u16, bytes_u32] <;> omega

theorem loca_entry_stored (use_short_loca : Bool) (values : List Nat) (i v : Nat)
    (h : values[i]? = some v) :
    loca_entry use_short_loca (loca_entries use_short_loca values.length values) i
      = v % (if use_short_loca then 65536 else 4294967296) := by
  rw [loca_entries_of_length]
  unfold loca_entry
  cases use_short_loca with
  | true => simpa using read_u16_flatten values i v h
  | false => simpa using read_u32_flatten values i v h

end glyf

/-- C5, as stated, fails: for 32768 sizes of 131072 the last of the 32769 entries written
with unshifted offsets is 0, not the sum `2 ^ 32` of the sizes, the running offset being a
32-bit unsigned. -/
theorem write_loca_prefix_sums_counterexample :
    (glyf._write_loca (List.replicate 32768 131072) false)[32768]? = some 0
      ∧ prefix_sum (List.replicate 32768 131072) 32768 = 4294967296 := by
  have hp : prefix_sum (List.replicate 32768 131072) 32768 = 4294967296 := by
    rw [prefix_sum_replicate 32768 131072 32768 (Nat.le_refl _)]
  refine ⟨?_, hp⟩
  rw [glyf.write_loca_get _ _ 32768 (by rw [List.length_replicate]), hp]
  rfl

/-- C5, amended: for every list of n sizes `_write_loca` writes exactly n+1 entries: entry 0
is 0 and entry i (1 ≤ i ≤ n) is the running offset `(s_1 + ... + s_i) mod 2 ^ 32`, shifted
right by 1 when `short_offsets` is true and unshifted when false; when the sizes sum up to
less than `2 ^ 32` the entries are the prefix sums of the sizes starting at 0, so shifted.
The array of `_add_loca_and_head` stores each of them in 16 bits when `short_offsets` is
true and in 32 bits when false. -/
theorem write_loca_prefix_sums (sizes : List Nat) (short_offsets : Bool) :
    (glyf._write_loca sizes short_offsets).length = sizes.length + 1
      ∧ (glyf._write_loca sizes short_offsets)[0]? = some 0
      ∧ (∀ i, 1 ≤ i → i ≤ sizes.length →
          (glyf._write_loca sizes short_offsets)[i]?
            = some ((prefix_sum sizes i % 2 ^ 32) >>> (if short_offsets then 1 else 0)))
      ∧ (sizes.sum < 2 ^ 32 → ∀ i, i ≤ sizes.length →
          (glyf._write_loca sizes short_offsets)[i]?
            = some (prefix_sum sizes i >>> (if short_offsets then 1 else 0)))
      ∧ (∀ i, i ≤ sizes.length →
          loca_entry short_offsets
              (glyf.loca_entries short_offsets (glyf._write_loca sizes short_offsets).length
                (glyf._write_loca sizes short_offsets)) i
            = ((prefix_sum sizes i % 2 ^ 32) >>> (if short_offsets then 1 else 0))
                % (if short_offsets then 65536 else 4294967296)) := by
  refine ⟨glyf.write_loca_length sizes short_offsets, ?_, ?_, ?_, ?_⟩
  · simp [glyf._write_loca]
  · intro i _ hi
    exact glyf.write_loca_get sizes short_offsets i hi
  · intro hsum i hi
    rw [glyf.write_loca_get sizes short_offsets i hi]
    have hle := prefix_sum_le_sum sizes i
    rw [Nat.mod_eq_of_lt (by omega)]
  · intro i hi
    exact glyf.loca_entry_stored short_offsets _ i _
      (glyf.write_loca_get sizes short_offsets i hi)

/-- Witness of C5: sizes 4, 6, 2 with halved offsets give the entries 0, 2, 5, 6. -/
theorem write_loca_prefix_sums_witness :
    (glyf._write_loca [4, 6, 2] true)[2]? = some (prefix_sum [4, 6, 2] 2 >>> 1) :=
  (write_loca_prefix_sums [4, 6, 2] true).2.2.2.1 (by decide) 2 (by decide)

/-! ## The index table of a subset run -/

namespace glyf

theorem padded_offsets_length (glyphs : List SubsetGlyph) :
    (padded_offsets glyphs).length = glyphs.length := by
  unfold padded_offsets
  split <;> simp

theorem map_padded_size_of_lt (glyphs : List SubsetGlyph)
    (hT : spec_padded_total glyphs < 2 ^ 32) :
    glyphs.map SubsetGlyph.padded_size = glyphs.map spec_padded_size := by
  apply List.map_congr_left
  intro g hg
  rw [padded_size_eq]
  have := spec_padded_size_le_total glyphs g hg
  exact Nat.mod_eq_of_lt (by omega)

theorem map_length_of_lt (glyphs : List SubsetGlyph)
    (hT : spec_padded_total glyphs < 2 ^ 32) :
    glyphs.map SubsetGlyph.length = glyphs.map region_length := by
  apply List.map_congr_left
  intro g hg
  rw [length_eq_mod]
  have := spec_padded_size_le_total glyphs g hg
  have := region_length_le_padded g
  exact Nat.mod_eq_of_lt (by omega)

theorem sum_region_length_le (glyphs : List SubsetGlyph) :
    (glyphs.map region_length).sum ≤ spec_padded_total glyphs := by
  induction glyphs with
  | nil => simp [spec_padded_total]
  | cons g glyphs ih =>
    rw [spec_padded_total_cons]
    simp only [List.map_cons, List.sum_cons]
    have := region_length_le_padded g
    omega

theorem padded_offsets_of_lt (glyphs : List SubsetGlyph)
    (hT : spec_padded_total glyphs < 2 ^ 32) :
    padded_offsets glyphs =
      if use_short_loca glyphs then glyphs.map spec_padded_size
      else glyphs.map region_length := by
  unfold padded_offsets
  rw [map_padded_size_of_lt glyphs hT, map_length_of_lt glyphs hT]

theorem padded_offsets_sum_lt (glyphs : List SubsetGlyph)
    (hT : spec_padded_total glyphs < 2 ^ 32) :
    (padded_offsets glyphs).sum < (if use_short_loca glyphs then 131071 else 2 ^ 32) := by
  rw [padded_offsets_of_lt glyphs hT]
  cases hs : use_short_loca glyphs with
  | true =>
    have h := (use_short_loca_iff glyphs).mp hs
    rw [Nat.mod_eq_of_lt hT] at h
    simp only [if_true]
    have : (glyphs.map spec_padded_size).sum = spec_padded_total glyphs := rfl
    omega
  | false =>
    simp only [Bool.false_eq_true, if_false]
    have := sum_region_length_le glyphs
    omega

theorem loca_prime_eq (glyphs : List SubsetGlyph) (hN : glyphs.length + 1 < 2 ^ 32) :
    loca_prime glyphs =
      loca_entries (use_short_loca glyphs)
        (_write_loca (padded_offsets glyphs) (use_short_loca glyphs)).length
        (_write_loca (padded_offsets glyphs) (use_short_loca glyphs)) := by
  unfold loca_prime
  rw [write_loca_length, padded_offsets_length, u32_of_lt _ hN]

theorem loca_prime_entry (glyphs : List SubsetGlyph)
    (hT : spec_padded_total glyphs < 2 ^ 32) (hN : glyphs.length + 1 < 2 ^ 32)
    (i : Nat) (hi : i ≤ glyphs.length) :
    loca_entry (use_short_loca glyphs) (loca_prime glyphs) i =
      prefix_sum (padded_offsets glyphs) i / (if use_short_loca glyphs then 2 else 1) := by
  rw [loca_prime_eq glyphs hN]
  have hsum := padded_offsets_sum_lt glyphs hT
  have hle := prefix_sum_le_sum (padded_offsets glyphs) i
  have hget := write_loca_get (padded_offsets glyphs) (use_short_loca glyphs) i
    (by rw [padded_offsets_length]; exact hi)
  rw [loca_entry_stored _ _ i _ hget]
  cases hs : use_short_loca glyphs with
  | true =>
    rw [hs] at hsum
    simp only [if_true] at hsum ⊢
    rw [Nat.shiftRight_eq_div_pow]
    omega
  | false =>
    rw [hs] at hsum
    simp only [Bool.false_eq_true, if_false] at hsum ⊢
    rw [Nat.shiftRight_eq_div_pow]
    omega

end glyf

theorem loca_prime_length (glyphs : List SubsetGlyph) (hN : glyphs.length + 1 < 2 ^ 32) :
    (loca_prime glyphs).length
      = (if glyf.use_short_loca glyphs then 2 else 4) * (glyphs.length + 1) := by
  rw [glyf.loca_prime_eq glyphs hN, glyf.loca_entries_length, glyf.write_loca_length,
    glyf.padded_offsets_length]

/-- C6: for every list of N subset glyphs whose total size, the sum of the padded sizes, is
below `2 ^ 32` (N + 1 fitting the unsigned `num_offsets`, as any glyph count does), the
index table `glyf::subset` produces under the encoding it selects has exactly N+1 stored
entries; entry i holds the true offset of glyph i (the sum of the padded sizes of the
glyphs before it, halved, under halved-16; the sum of their lengths under direct-32), so no
stored 16-bit or 32-bit value wraps, and the entries are non-decreasing.  This is the loca
table of every successful run, and a run with room in the serializer whose two allocations
succeed is successful. -/
theorem subset_loca_nondecreasing (ops : GlyphOps) (glyphs : List SubsetGlyph)
    (hT : spec_padded_total glyphs < 2 ^ 32) (hN : glyphs.length + 1 < 2 ^ 32) :
    (loca_prime glyphs).length
        = (if glyf.use_short_loca glyphs then 2 else 4) * (glyphs.length + 1)
      ∧ (∀ i, i ≤ glyphs.length →
          loca_entry (glyf.use_short_loca glyphs) (loca_prime glyphs) i =
            if glyf.use_short_loca glyphs then prefix_sum (glyphs.map spec_padded_size) i / 2
            else prefix_sum (glyphs.map region_length) i)
      ∧ (∀ i, i < glyphs.length →
          loca_entry (glyf.use_short_loca glyphs) (loca_prime glyphs) i
            ≤ loca_entry (glyf.use_short_loca glyphs) (loca_prime glyphs) (i + 1))
      ∧ (∀ (c c1 : hb_subset_context_t) (mem : hb_alloc_t),
          glyf.subset_glyphs ops c mem glyphs = (true, c1) →
            find_table c1.plan.dest HB_OT_TAG_loca = loca_prime glyphs)
      ∧ (∀ (c : hb_subset_context_t) (mem : hb_alloc_t), c.serializer.errors = false →
          (glyphs.map (written_size (glyf.use_short_loca glyphs))).sum < c.serializer.room →
          mem.calloc_ok = true → mem.blob_copy_ok = true →
          (glyf.subset_glyphs ops c mem glyphs).1 = true) := by
  refine ⟨loca_prime_length glyphs hN, ?_, ?_, ?_, ?_⟩
  · intro i hi
    rw [glyf.loca_prime_entry glyphs hT hN i hi, glyf.padded_offsets_of_lt glyphs hT]
    cases glyf.use_short_loca glyphs <;> simp
  · intro i hi
    rw [glyf.loca_prime_entry glyphs hT hN i (by omega),
      glyf.loca_prime_entry glyphs hT hN (i + 1) (by omega)]
    exact Nat.div_le_div_right (prefix_sum_mono _ i (i + 1) (by omega))
  · intro c c1 mem h
    obtain ⟨_, _, hplan⟩ := glyf.subset_glyphs_true ops c c1 mem glyphs h
    rw [hplan]
    exact find_table_loca _ _ _
  · intro c mem he hr hc hb
    have hlen : ∀ g ∈ glyphs, region_length g < 2 ^ 32 := by
      intro g hg
      have := spec_padded_size_le_total glyphs g hg
      have := region_length_le_padded g
      omega
    rw [glyf.subset_glyphs_ok ops c mem glyphs he hlen hr hc hb]

/-- Witness of C6: glyphs of 3, 0 and 4 bytes; the halved-16 table is 0, 2, 2, 4. -/
theorem subset_loca_nondecreasing_witness :
    (loca_prime [glyph_of_size 3, glyph_of_size 0, glyph_of_size 4]).length
      = (if glyf.use_short_loca [glyph_of_size 3, glyph_of_size 0, glyph_of_size 4]
          then 2 else 4) * (2 + 1 + 1) :=
  (subset_loca_nondecreasing GlyphOps.trivial
    [glyph_of_size 3, glyph_of_size 0, glyph_of_size 4]
    (by simp [spec_padded_total, spec_padded_size_glyph_of_size]) (by simp)).1

/-! ## Padding and the empty table -/

theorem regions_glyph_of_size (n : Nat) :
    (glyph_of_size n).dest_start.length + (glyph_of_size n).dest_end.length = n := by
  simp [glyph_of_size]

theorem length_glyph_of_size (n : Nat) : (glyph_of_size n).length = n % 2 ^ 32 := by
  simp [glyph_of_size, SubsetGlyph.length, u32]

theorem padding_glyph_of_size (n : Nat) : (glyph_of_size n).padding = n % 2 ^ 32 % 2 := by
  unfold SubsetGlyph.padding
  rw [length_glyph_of_size]

theorem padded_size_glyph_of_size (n : Nat) :
    (glyph_of_size n).padded_size = (n % 2 ^ 32 + n % 2 ^ 32 % 2) % 2 ^ 32 := by
  unfold SubsetGlyph.padded_size
  rw [padding_glyph_of_size, length_glyph_of_size]
  rfl

/-- C7 (as stated, refuted): for the SubsetGlyph whose first region has `2 ^ 32 - 1` bytes
(the longest a 32-bit length allows) and whose second region is empty, `length ()` is
`2 ^ 32 - 1` and `padding ()` is 1, but `padded_size ()`, an `unsigned int`, is 0 and not
`length () + padding ()`, which is `2 ^ 32`. -/
theorem subset_glyph_padded_even_counterexample :
    (glyph_of_size 4294967295).dest_start.length
        + (glyph_of_size 4294967295).dest_end.length = 4294967295
      ∧ (glyph_of_size 4294967295).length = 4294967295
      ∧ (glyph_of_size 4294967295).padding = 1
      ∧ (glyph_of_size 4294967295).padded_size = 0
      ∧ (glyph_of_size 4294967295).padded_size
          ≠ (glyph_of_size 4294967295).length + (glyph_of_size 4294967295).padding := by
  have hl : (glyph_of_size 4294967295).length = 4294967295 := by
    rw [length_glyph_of_size]
    norm_num
  have hp : (glyph_of_size 4294967295).padding = 1 := by
    rw [padding_glyph_of_size]
    norm_num
  have hs : (glyph_of_size 4294967295).padded_size = 0 := by
    rw [padded_size_glyph_of_size]
    norm_num
  refine ⟨regions_glyph_of_size 4294967295, hl, hp, hs, ?_⟩
  rw [hs, hl, hp]
  norm_num

/-- C7 (amended): for every SubsetGlyph `length ()` is
`dest_start.length + dest_end.length` modulo `2 ^ 32`, `padding ()` is `length () mod 2`,
so 0 or 1, and `padded_size ()` is `length () + padding ()` modulo `2 ^ 32` and is even;
when the two regions together are shorter than `2 ^ 32 - 1` bytes, `length ()` is
`dest_start.length + dest_end.length` and `padded_size ()` is `length () + padding ()`, and
with `use_short_loca` true `SubsetGlyph::serialize`, given room, appends exactly
`padded_size ()` bytes to the output: the bytes copied from the two regions (as rewritten in
place) followed by `padding ()`, at most one, zero bytes; so the stored length is even. -/
theorem subset_glyph_padded_even (ops : GlyphOps) (g : SubsetGlyph)
    (c : hb_serialize_context_t) (plan : hb_subset_plan_t) :
    g.padding = g.length % 2 ∧ g.padding ≤ 1 ∧ g.padded_size % 2 = 0
      ∧ g.length = (g.dest_start.length + g.dest_end.length) % 2 ^ 32
      ∧ g.padded_size = (g.length + g.padding) % 2 ^ 32
      ∧ (g.dest_start.length + g.dest_end.length < 2 ^ 32 - 1 →
          g.length = g.dest_start.length + g.dest_end.length
            ∧ g.padded_size = g.length + g.padding
            ∧ (c.errors = false → g.padded_size ≤ c.room →
                (g.serialize ops c true plan).data
                    = c.data ++ (rewritten_bytes ops plan (g.dest_start ++ g.dest_end)
                        ++ List.replicate g.padding 0)
                  ∧ (rewritten_bytes ops plan (g.dest_start ++ g.dest_end)).length = g.length
                  ∧ (g.serialize ops c true plan).data.length = c.data.length + g.padded_size
                  ∧ (g.serialize ops c true plan).data.length % 2 = c.data.length % 2
                  ∧ (g.serialize ops c true plan).errors = false)) := by
  have hpad : g.padding ≤ 1 := by
    unfold SubsetGlyph.padding
    omega
  have heven : g.padded_size % 2 = 0 := by
    rw [padded_size_eq]
    have := spec_padded_size_even g
    omega
  refine ⟨rfl, hpad, heven, rfl, rfl, ?_⟩
  intro hlen
  have hreg : region_length g = g.dest_start.length + g.dest_end.length := rfl
  have hl : g.length = g.dest_start.length + g.dest_end.length := by
    rw [length_eq_mod, hreg]
    exact Nat.mod_eq_of_lt (by omega)
  have hps : g.padded_size = g.length + g.padding := by
    unfold SubsetGlyph.padded_size
    rw [u32_eq]
    exact Nat.mod_eq_of_lt (by rw [hl]; omega)
  refine ⟨hl, hps, ?_⟩
  intro he hr
  have hok := SubsetGlyph.serialize_ok ops g c true plan he (by rw [hreg]; omega)
    (by simp only [if_true]; rw [hreg, ← hl, ← hps]; exact hr)
  have hrw := hb_serialize_context_t.rewritten_bytes_length ops plan (g.dest_start ++ g.dest_end)
  have hrl : (rewritten_bytes ops plan (g.dest_start ++ g.dest_end)).length = g.length := by
    rw [hrw, List.length_append, hl]
  rw [hok]
  simp only [glyph_output, if_true, List.length_append, List.length_replicate, hrl, true_and]
  refine ⟨by omega, by omega, trivial⟩

/-- Witness of C7: a glyph of 3 bytes takes 4 bytes of the output under halved-16. -/
theorem subset_glyph_padded_even_witness :
    ((glyph_of_size 3).serialize GlyphOps.trivial ⟨[7, 7], 10, false⟩ true
        (plan_of_source ⟨[], [], [], 0⟩ 1)).data.length = 2 + (glyph_of_size 3).padded_size :=
  (((subset_glyph_padded_even GlyphOps.trivial (glyph_of_size 3) ⟨[7, 7], 10, false⟩
    (plan_of_source ⟨[], [], [], 0⟩ 1)).2.2.2.2.2 (by decide)).2.2 rfl (by decide)).2.2.1

/-- C8: if every output glyph has zero length (both regions empty; no glyph at all
included), `glyf::serialize`, given room for one byte, appends a single zero byte, so that
an outline blob started empty is exactly one zero byte; if at least one glyph has non-zero
length no extra byte is appended: the serializer is left as the loop over the glyphs left
it. -/
theorem serialize_empty_table (ops : GlyphOps) (c : hb_serialize_context_t)
    (glyphs : List SubsetGlyph) (use_short_loca : Bool) (plan : hb_subset_plan_t) :
    ((∀ g ∈ glyphs, g.dest_start.length + g.dest_end.length = 0) → c.errors = false →
        1 ≤ c.room →
        glyf.serialize ops c glyphs use_short_loca plan
            = { data := c.data ++ [0], room := c.room - 1, errors := false }
          ∧ (c.data = [] →
              (glyf.serialize ops c glyphs use_short_loca plan).data = [0]
                ∧ (glyf.serialize ops c glyphs use_short_loca plan).data.length = 1))
      ∧ ((∃ g ∈ glyphs, g.dest_start.length + g.dest_end.length ≠ 0) →
          glyf.serialize ops c glyphs use_short_loca plan
            = glyf.serialize_glyphs ops c glyphs use_short_loca plan) := by
  constructor
  · intro hall he hr
    have h1 : glyf.serialize ops c glyphs use_short_loca plan
        = { data := c.data ++ [0], room := c.room - 1, errors := false } := by
      unfold glyf.serialize
      simp only
      rw [glyf.serialize_glyphs_of_empty ops use_short_loca plan glyphs c he hall]
      simp only [if_true]
      exact hb_serialize_context_t.copy_byte_ok c 0 he hr
    refine ⟨h1, ?_⟩
    intro hd
    rw [h1, hd]
    exact ⟨rfl, rfl⟩
  · intro hex
    unfold glyf.serialize
    simp only
    have hle := glyf.serialize_glyphs_le ops use_short_loca plan glyphs c
    cases glyf.serialize_glyphs_progress ops use_short_loca plan glyphs c hex with
    | inl herr =>
      by_cases hlen : c.length
          = (glyf.serialize_glyphs ops c glyphs use_short_loca plan).length
      · simp only [hlen, if_true]
        rw [hb_serialize_context_t.copy_byte_fail _ 0 (Or.inl herr)]
        cases hc : glyf.serialize_glyphs ops c glyphs use_short_loca plan with
        | mk d r e =>
          rw [hc] at herr
          simp only at herr
          subst herr
          rfl
      · simp only [hlen, if_false]
    | inr hgrow =>
      have hne : ¬ (c.length
          = (glyf.serialize_glyphs ops c glyphs use_short_loca plan).length) := by
        unfold hb_serialize_context_t.length
        omega
      simp only [hne, if_false]

/-- Witness of C8: two empty glyphs written to an empty serializer give the blob `[0]`. -/
theorem serialize_empty_table_witness :
    (glyf.serialize GlyphOps.trivial ⟨[], 4, false⟩ [glyph_of_size 0, glyph_of_size 0] true
        (plan_of_source ⟨[], [], [], 0⟩ 2)).data = [0] :=
  (((serialize_empty_table GlyphOps.trivial ⟨[], 4, false⟩ [glyph_of_size 0, glyph_of_size 0]
    true (plan_of_source ⟨[], [], [], 0⟩ 2)).1 (by decide) rfl (by decide)).2 rfl).1

/-! ## Composite remap -/

theorem byte_at_eq_getElem (data : List Nat) (i : Nat) :
    byte_at data i = (data[i]?).getD 0 % 256 := by
  unfold byte_at
  rw [List.getD_eq_getElem?_getD]

theorem read_u16_congr (b1 b2 : List Nat) (off : Nat) (h0 : b1[off]? = b2[off]?)
    (h1 : b1[off + 1]? = b2[off + 1]?) : read_u16 b1 off = read_u16 b2 off := by
  unfold read_u16
  rw [byte_at_eq_getElem, byte_at_eq_getElem, byte_at_eq_getElem b2, byte_at_eq_getElem b2,
    h0, h1]

theorem check_range_congr (b1 b2 : List Nat) (off size : Nat) (h : b1.length = b2.length) :
    check_range b1 off size = check_range b2 off size := by
  unfold check_range
  rw [h]

namespace CompositeGlyphChain

theorem get_size_ge (flags : Nat) : 6 ≤ get_size flags := by
  unfold get_size min_size
  split <;> omega

theorem set_glyph_index_length (bytes : List Nat) (off new_gid : Nat) :
    (set_glyph_index bytes off new_gid).length = bytes.length := by
  unfold set_glyph_index
  rw [hb_serialize_context_t.store_length]

theorem set_glyph_index_getElem_ne (bytes : List Nat) (off new_gid i : Nat)
    (h2 : i ≠ off + 2) (h3 : i ≠ off + 3) :
    (set_glyph_index bytes off new_gid)[i]? = bytes[i]? := by
  unfold set_glyph_index bytes_u16
  rw [store_two, List.getElem?_set_ne (by omega), List.getElem?_set_ne (by omega)]

theorem get_set_glyph_index (bytes : List Nat) (off new_gid : Nat)
    (h : off + 4 ≤ bytes.length) :
    get_glyph_index (set_glyph_index bytes off new_gid) off = new_gid % 65536 := by
  unfold get_glyph_index set_glyph_index bytes_u16 read_u16
  rw [store_two]
  simp only [byte_at_set, List.length_set]
  have h2 : off + 2 < bytes.length := by omega
  have h3 : off + 2 + 1 < bytes.length := by omega
  simp [h2, h3]
  omega

end CompositeGlyphChain

theorem flags_congr (b1 b2 : List Nat) (off : Nat) (h0 : b1[off]? = b2[off]?)
    (h1 : b1[off + 1]? = b2[off + 1]?) :
    CompositeGlyphChain.flags b1 off = CompositeGlyphChain.flags b2 off :=
  read_u16_congr b1 b2 off h0 h1

theorem get_glyph_index_congr (b1 b2 : List Nat) (off : Nat) (h2 : b1[off + 2]? = b2[off + 2]?)
    (h3 : b1[off + 3]? = b2[off + 3]?) :
    CompositeGlyphChain.get_glyph_index b1 off = CompositeGlyphChain.get_glyph_index b2 off :=
  read_u16_congr b1 b2 (off + 2) h2 h3

theorem composite_offsets_from_congr (b1 b2 : List Nat) (hlen : b1.length = b2.length) :
    ∀ (fuel off : Nat), (∀ i, off ≤ i → b1[i]? = b2[i]?) →
      composite_offsets_from b1 fuel off = composite_offsets_from b2 fuel off := by
  intro fuel
  induction fuel with
  | zero => intro off _; rfl
  | succ fuel ih =>
    intro off h
    have hflags : CompositeGlyphChain.flags b1 off = CompositeGlyphChain.flags b2 off :=
      flags_congr b1 b2 off (h off (Nat.le_refl _)) (h (off + 1) (by omega))
    simp only [composite_offsets_from, CompositeGlyphChain.has_more, hflags,
      check_range_congr b1 b2 _ _ hlen]
    rw [ih _ (fun i hi => h i (by omega))]

theorem composite_offsets_from_bounds (bytes : List Nat) :
    ∀ (fuel off o : Nat), o ∈ composite_offsets_from bytes fuel off →
      off ≤ o ∧ o + 6 ≤ bytes.length := by
  intro fuel
  induction fuel with
  | zero => intro off o h; simp [composite_offsets_from] at h
  | succ fuel ih =>
    intro off o h
    unfold composite_offsets_from at h
    by_cases h1 : check_range bytes off CompositeGlyphChain.min_size = true
    · by_cases h2 : check_range bytes off
          (CompositeGlyphChain.get_size (CompositeGlyphChain.flags bytes off)) = true
      · have hsz := CompositeGlyphChain.get_size_ge (CompositeGlyphChain.flags bytes off)
        have hr : off ≤ bytes.length ∧
            CompositeGlyphChain.get_size (CompositeGlyphChain.flags bytes off)
              ≤ bytes.length - off := by
          simpa [check_range] using h2
        simp only [h1, h2, Bool.not_true, Bool.false_eq_true, if_false] at h
        by_cases h3 : CompositeGlyphChain.has_more bytes off = true
        · simp only [h3, if_true, List.mem_cons] at h
          rcases h with heq | hin
          · subst heq
            omega
          · have := ih _ o hin
            omega
        · simp only [h3, Bool.false_eq_true, if_false, List.mem_singleton] at h
          subst h
          omega
      · simp [h1, h2] at h
    · simp [h1] at h


theorem remap_step (plan : hb_subset_plan_t) (bytes : List Nat) (off : Nat)
    (h : off + 4 ≤ bytes.length) :
    (remap_component plan bytes off).length = bytes.length
      ∧ (∀ i, i ≠ off + 2 → i ≠ off + 3 → (remap_component plan bytes off)[i]? = bytes[i]?)
      ∧ CompositeGlyphChain.get_glyph_index (remap_component plan bytes off) off
          = remapped_child plan (CompositeGlyphChain.get_glyph_index bytes off) := by
  unfold remap_component remapped_child
  cases plan.new_gid_for_old_gid (CompositeGlyphChain.get_glyph_index bytes off) with
  | none => exact ⟨rfl, fun _ _ _ => rfl, rfl⟩
  | some y =>
    exact ⟨CompositeGlyphChain.set_glyph_index_length bytes off y,
      fun i h2 h3 => CompositeGlyphChain.set_glyph_index_getElem_ne bytes off y i h2 h3,
      CompositeGlyphChain.get_set_glyph_index bytes off y h⟩

theorem composite_offsets_from_step (bytes : List Nat) (fuel off : Nat)
    (h1 : check_range bytes off CompositeGlyphChain.min_size = true)
    (h2 : check_range bytes off
      (CompositeGlyphChain.get_size (CompositeGlyphChain.flags bytes off)) = true) :
    composite_offsets_from bytes (fuel + 1) off =
      if CompositeGlyphChain.has_more bytes off then
        off :: composite_offsets_from bytes fuel
          (off + CompositeGlyphChain.get_size (CompositeGlyphChain.flags bytes off))
      else [off] := by
  simp [composite_offsets_from, h1, h2]

theorem remap_components_from_step (plan : hb_subset_plan_t) (bytes : List Nat)
    (fuel off : Nat) (h1 : check_range bytes off CompositeGlyphChain.min_size = true)
    (h2 : check_range bytes off
      (CompositeGlyphChain.get_size (CompositeGlyphChain.flags bytes off)) = true) :
    remap_components_from plan (fuel + 1) off bytes =
      if CompositeGlyphChain.has_more (remap_component plan bytes off) off then
        remap_components_from plan fuel
          (off + CompositeGlyphChain.get_size (CompositeGlyphChain.flags bytes off))
          (remap_component plan bytes off)
      else remap_component plan bytes off := by
  simp [remap_components_from, h1, h2]

theorem composite_offsets_from_flags (b1 b2 : List Nat) (fuel off : Nat)
    (hlen : b1.length = b2.length)
    (hflags : CompositeGlyphChain.flags b1 off = CompositeGlyphChain.flags b2 off)
    (h1 : check_range b2 off CompositeGlyphChain.min_size = true)
    (h2 : check_range b2 off
      (CompositeGlyphChain.get_size (CompositeGlyphChain.flags b2 off)) = true) :
    composite_offsets_from b1 (fuel + 1) off =
      if CompositeGlyphChain.has_more b2 off then
        off :: composite_offsets_from b1 fuel
          (off + CompositeGlyphChain.get_size (CompositeGlyphChain.flags b2 off))
      else [off] := by
  have h1b : check_range b1 off CompositeGlyphChain.min_size = true := by
    rw [check_range_congr b1 b2 _ _ hlen]
    exact h1
  have h2b : check_range b1 off
      (CompositeGlyphChain.get_size (CompositeGlyphChain.flags b1 off)) = true := by
    rw [hflags, check_range_congr b1 b2 _ _ hlen]
    exact h2
  have hm : CompositeGlyphChain.has_more b1 off = CompositeGlyphChain.has_more b2 off := by
    unfold CompositeGlyphChain.has_more
    rw [hflags]
  rw [composite_offsets_from_step b1 fuel off h1b h2b, hflags, hm]

theorem remap_components_from_spec (plan : hb_subset_plan_t) :
    ∀ (fuel off : Nat) (bytes : List Nat),
      (remap_components_from plan fuel off bytes).length = bytes.length
        ∧ (∀ i, (∀ o ∈ composite_offsets_from bytes fuel off, i ≠ o + 2 ∧ i ≠ o + 3) →
            (remap_components_from plan fuel off bytes)[i]? = bytes[i]?)
        ∧ composite_offsets_from (remap_components_from plan fuel off bytes) fuel off
            = composite_offsets_from bytes fuel off
        ∧ (∀ o ∈ composite_offsets_from bytes fuel off,
            CompositeGlyphChain.get_glyph_index (remap_components_from plan fuel off bytes) o
              = remapped_child plan (CompositeGlyphChain.get_glyph_index bytes o)) := by
  intro fuel
  induction fuel with
  | zero =>
    intro off bytes
    simp [remap_components_from, composite_offsets_from]
  | succ fuel ih =>
    intro off bytes
    by_cases h1 : check_range bytes off CompositeGlyphChain.min_size = true
    swap
    · have hout : remap_components_from plan (fuel + 1) off bytes = bytes := by
        simp [remap_components_from, h1]
      have hoff : composite_offsets_from bytes (fuel + 1) off = [] := by
        simp [composite_offsets_from, h1]
      rw [hout, hoff]
      simp
    by_cases h2 : check_range bytes off
        (CompositeGlyphChain.get_size (CompositeGlyphChain.flags bytes off)) = true
    swap
    · have hout : remap_components_from plan (fuel + 1) off bytes = bytes := by
        simp [remap_components_from, h1, h2]
      have hoff : composite_offsets_from bytes (fuel + 1) off = [] := by
        simp [composite_offsets_from, h1, h2]
      rw [hout, hoff]
      simp
    have hsz := CompositeGlyphChain.get_size_ge (CompositeGlyphChain.flags bytes off)
    have hr : off ≤ bytes.length ∧
        CompositeGlyphChain.get_size (CompositeGlyphChain.flags bytes off)
          ≤ bytes.length - off := by
      simpa [check_range] using h2
    obtain ⟨hb1len, hb1ne, hb1get⟩ := remap_step plan bytes off (by omega)
    have hflags1 : CompositeGlyphChain.flags (remap_component plan bytes off) off
        = CompositeGlyphChain.flags bytes off :=
      flags_congr _ bytes off (hb1ne off (by omega) (by omega))
        (hb1ne (off + 1) (by omega) (by omega))
    have hmore1 : CompositeGlyphChain.has_more (remap_component plan bytes off) off
        = CompositeGlyphChain.has_more bytes off := by
      unfold CompositeGlyphChain.has_more
      rw [hflags1]
    rw [remap_components_from_step plan bytes fuel off h1 h2, hmore1,
      composite_offsets_from_step bytes fuel off h1 h2]
    by_cases h3 : CompositeGlyphChain.has_more bytes off = true
    · -- more components follow
      simp only [h3, if_true]
      have hcongr : composite_offsets_from (remap_component plan bytes off) fuel
            (off + CompositeGlyphChain.get_size (CompositeGlyphChain.flags bytes off))
          = composite_offsets_from bytes fuel
            (off + CompositeGlyphChain.get_size (CompositeGlyphChain.flags bytes off)) :=
        composite_offsets_from_congr _ bytes hb1len fuel _
          (fun i hi => hb1ne i (by omega) (by omega))
      obtain ⟨ihL, ihP, ihO, ihG⟩ := ih
        (off + CompositeGlyphChain.get_size (CompositeGlyphChain.flags bytes off))
        (remap_component plan bytes off)
      rw [hcongr] at ihP ihO ihG
      have hbound := composite_offsets_from_bounds bytes fuel
        (off + CompositeGlyphChain.get_size (CompositeGlyphChain.flags bytes off))
      have hlow : ∀ i, i < off + CompositeGlyphChain.get_size (CompositeGlyphChain.flags bytes off)
          → (remap_components_from plan fuel
              (off + CompositeGlyphChain.get_size (CompositeGlyphChain.flags bytes off))
              (remap_component plan bytes off))[i]? = (remap_component plan bytes off)[i]? := by
        intro i hi
        apply ihP
        intro o ho
        have := (hbound o ho).1
        omega
      refine ⟨by rw [ihL, hb1len], ?_, ?_, ?_⟩
      · intro i hi
        have hi0 := hi off (List.mem_cons_self _ _)
        rw [ihP i (fun o ho => hi o (List.mem_cons_of_mem _ ho))]
        exact hb1ne i hi0.1 hi0.2
      · have hflagsO : CompositeGlyphChain.flags (remap_components_from plan fuel
              (off + CompositeGlyphChain.get_size (CompositeGlyphChain.flags bytes off))
              (remap_component plan bytes off)) off = CompositeGlyphChain.flags bytes off := by
          have hl0 := hlow off (by omega)
          have hl1 := hlow (off + 1) (by omega)
          exact (flags_congr _ _ off hl0 hl1).trans hflags1
        rw [composite_offsets_from_flags _ bytes fuel off (by rw [ihL, hb1len]) hflagsO h1 h2,
          ihO]
        simp only [h3, if_true]
      · intro o ho
        rcases List.mem_cons.mp ho with heq | hin
        · subst heq
          have hl2 := hlow (o + 2) (by omega)
          have hl3 := hlow (o + 3) (by omega)
          exact (get_glyph_index_congr _ _ o hl2 hl3).trans hb1get
        · rw [ihG o hin]
          have hb := (hbound o hin).1
          have hg : CompositeGlyphChain.get_glyph_index (remap_component plan bytes off) o
              = CompositeGlyphChain.get_glyph_index bytes o :=
            get_glyph_index_congr _ _ o (hb1ne (o + 2) (by omega) (by omega))
              (hb1ne (o + 3) (by omega) (by omega))
          rw [hg]
    · -- last component
      simp only [h3, Bool.false_eq_true, if_false]
      refine ⟨hb1len, ?_, ?_, ?_⟩
      · intro i hi
        have hi0 := hi off (List.mem_singleton.mpr rfl)
        exact hb1ne i hi0.1 hi0.2
      · rw [composite_offsets_from_flags _ bytes fuel off hb1len hflags1 h1 h2]
        simp only [h3, Bool.false_eq_true, if_false]
      · intro o ho
        have heq : o = off := List.mem_singleton.mp ho
        subst heq
        exact hb1get

theorem is_composite_congr (b1 b2 : List Nat) (hlen : b1.length = b2.length)
    (h0 : b1[0]? = b2[0]?) (h1 : b1[1]? = b2[1]?) : is_composite b1 = is_composite b2 := by
  unfold is_composite numberOfContours read_i16
  rw [read_u16_congr b1 b2 0 h0 h1, hlen]

theorem remap_components_spec (plan : hb_subset_plan_t) (bytes : List Nat) :
    (remap_components plan bytes).length = bytes.length
      ∧ (∀ i, (∀ o ∈ composite_offsets bytes, i ≠ o + 2 ∧ i ≠ o + 3) →
          (remap_components plan bytes)[i]? = bytes[i]?)
      ∧ composite_offsets (remap_components plan bytes) = composite_offsets bytes
      ∧ (∀ o ∈ composite_offsets bytes,
          CompositeGlyphChain.get_glyph_index (remap_components plan bytes) o
            = remapped_child plan (CompositeGlyphChain.get_glyph_index bytes o)) := by
  by_cases hc : is_composite bytes = true
  · obtain ⟨hL, hP, hO, hG⟩ := remap_components_from_spec plan bytes.length GlyphHeader_size bytes
    have hout : remap_components plan bytes
        = remap_components_from plan bytes.length GlyphHeader_size bytes := by
      simp [remap_components, hc]
    have hoff : composite_offsets bytes
        = composite_offsets_from bytes bytes.length GlyphHeader_size := by
      simp [composite_offsets, hc]
    have hbound := composite_offsets_from_bounds bytes bytes.length GlyphHeader_size
    have hlow : ∀ i, i < GlyphHeader_size →
        (remap_components_from plan bytes.length GlyphHeader_size bytes)[i]? = bytes[i]? := by
      intro i hi
      apply hP
      intro o ho
      have := (hbound o ho).1
      omega
    have hc2 : is_composite (remap_components_from plan bytes.length GlyphHeader_size bytes)
        = true := by
      rw [is_composite_congr _ bytes hL (hlow 0 (by decide)) (hlow 1 (by decide))]
      exact hc
    rw [hout, hoff]
    refine ⟨hL, hP, ?_, hG⟩
    unfold composite_offsets
    rw [hc2, hL]
    simpa using hO
  · have hout : remap_components plan bytes = bytes := by
      simp [remap_components, hc]
    rw [hout]
    refine ⟨rfl, fun _ _ => rfl, rfl, ?_⟩
    intro o ho
    simp [composite_offsets, hc] at ho

theorem remap_components_length (plan : hb_subset_plan_t) (bytes : List Nat) :
    (remap_components plan bytes).length = bytes.length :=
  (remap_components_spec plan bytes).1

theorem rewritten_bytes_no_flags (ops : GlyphOps) (plan : hb_subset_plan_t) (bytes : List Nat)
    (hh : plan.has_flag HB_SUBSET_FLAGS_NO_HINTING = false)
    (ho : plan.has_flag HB_SUBSET_FLAGS_SET_OVERLAPS_FLAG = false) :
    rewritten_bytes ops plan bytes = remap_components plan bytes := by
  unfold rewritten_bytes
  simp only [hh, ho, Bool.false_eq_true, if_false]
  exact hb_serialize_context_t.in_place_of_length _ _ (remap_components_length plan bytes)

theorem flatten_slice (ls : List (List Nat)) :
    ∀ (n : Nat) (l rest : List Nat), ls[n]? = some l →
      ((ls.flatten ++ rest).drop (prefix_sum (ls.map List.length) n)).take l.length = l := by
  induction ls with
  | nil => intro n l rest h; simp at h
  | cons l0 ls ih =>
    intro n l rest h
    cases n with
    | zero =>
      simp only [List.getElem?_cons_zero, Option.some.injEq] at h
      subst h
      simp [prefix_sum_zero]
    | succ n =>
      simp only [List.getElem?_cons_succ] at h
      simp only [List.map_cons, prefix_sum_cons_succ, List.flatten_cons, List.append_assoc]
      rw [← List.drop_drop, List.drop_left]
      exact ih n l rest h

theorem prefix_sum_succ (sizes : List Nat) :
    ∀ (i s : Nat), sizes[i]? = some s → prefix_sum sizes (i + 1) = prefix_sum sizes i + s := by
  induction sizes with
  | nil => intro i s h; simp at h
  | cons s0 sizes ih =>
    intro i s h
    cases i with
    | zero =>
      simp only [List.getElem?_cons_zero, Option.some.injEq] at h
      subst h
      simp [prefix_sum]
    | succ i =>
      simp only [List.getElem?_cons_succ] at h
      rw [prefix_sum_cons_succ, prefix_sum_cons_succ, ih i s h]
      omega

theorem prefix_sum_even (sizes : List Nat) (h : ∀ s ∈ sizes, s % 2 = 0) :
    ∀ i : Nat, prefix_sum sizes i % 2 = 0 := by
  induction sizes with
  | nil => intro i; simp [prefix_sum]
  | cons s0 sizes ih =>
    intro i
    cases i with
    | zero => simp [prefix_sum]
    | succ i =>
      rw [prefix_sum_cons_succ]
      have h0 := h s0 (List.mem_cons_self _ _)
      have h1 := ih (fun s hs => h s (List.mem_cons_of_mem _ hs)) i
      omega

theorem remap_components_nil (plan : hb_subset_plan_t) : remap_components plan [] = [] := by
  have h := remap_components_length plan []
  exact List.length_eq_zero.mp h

namespace glyf

theorem populate_length (ops : GlyphOps) (plan : hb_subset_plan_t) :
    (_populate_subset_glyphs ops plan).length = plan.num_output_glyphs := by
  simp [_populate_subset_glyphs]

theorem populate_get (ops : GlyphOps) (plan : hb_subset_plan_t) (n o : Nat)
    (hn : n < plan.num_output_glyphs) (ho : plan.old_gid_for_new_gid n = some o)
    (hnh : plan.has_flag HB_SUBSET_FLAGS_NO_HINTING = false)
    (hnd : n ≠ 0 ∨ plan.has_flag HB_SUBSET_FLAGS_NOTDEF_OUTLINE = true) :
    (_populate_subset_glyphs ops plan)[n]? =
      some { new_gid := n, old_gid := o
             source_glyph := (glyf_accelerator_t.create plan.source).glyph_for_gid ops o true
             dest_start := ((glyf_accelerator_t.create plan.source).glyph_for_gid ops o true).bytes
             dest_end := [] } := by
  unfold _populate_subset_glyphs
  simp only [List.getElem?_map, List.getElem?_range hn, Option.map_some', ho, hnh,
    Bool.false_eq_true, if_false, Glyph.get_bytes]
  have hcond : ¬ (n = 0 ∧ (!plan.has_flag HB_SUBSET_FLAGS_NOTDEF_OUTLINE) = true) := by
    intro ⟨h0, hf⟩
    cases hnd with
    | inl h => exact h h0
    | inr h => simp [h] at hf
  simp only [hcond, if_false]

theorem written_size_of_lt (use_short_loca : Bool) (g : SubsetGlyph)
    (h : region_length g < 2 ^ 32) :
    written_size use_short_loca g
      = if use_short_loca then spec_padded_size g else region_length g := by
  unfold written_size spec_padded_size SubsetGlyph.padding
  rw [length_eq_mod, Nat.mod_eq_of_lt h]
  cases use_short_loca <;> simp

theorem padded_offsets_eq_written (glyphs : List SubsetGlyph)
    (hT : spec_padded_total glyphs < 2 ^ 32) :
    padded_offsets glyphs = glyphs.map (written_size (use_short_loca glyphs)) := by
  rw [padded_offsets_of_lt glyphs hT]
  have hmap : glyphs.map (written_size (use_short_loca glyphs))
      = glyphs.map (fun g => if use_short_loca glyphs then spec_padded_size g
          else region_length g) := by
    apply List.map_congr_left
    intro g hg
    apply written_size_of_lt
    have := spec_padded_size_le_total glyphs g hg
    have := region_length_le_padded g
    omega
  rw [hmap]
  cases use_short_loca glyphs <;> simp

theorem glyphs_output_lengths (ops : GlyphOps) (plan : hb_subset_plan_t)
    (use_short_loca : Bool) (glyphs : List SubsetGlyph) :
    (glyphs.map (glyph_output ops plan use_short_loca)).map List.length
      = glyphs.map (written_size use_short_loca) := by
  rw [List.map_map]
  apply List.map_congr_left
  intro g _
  exact glyph_output_length ops plan use_short_loca g

theorem glyphs_output_length (ops : GlyphOps) (plan : hb_subset_plan_t)
    (use_short_loca : Bool) (glyphs : List SubsetGlyph) :
    (glyphs_output ops plan use_short_loca glyphs).length
      = (glyphs.map (written_size use_short_loca)).sum := by
  unfold glyphs_output
  rw [List.length_flatten, glyphs_output_lengths]

end glyf

theorem head_prime_glyphDataFormat (head : List Nat) (use_short_loca : Bool) :
    head_glyphDataFormat (head_prime head use_short_loca) = head_glyphDataFormat head := by
  unfold head_glyphDataFormat read_i16 read_u16 head_prime head_indexToLocFormat_offset
    head_glyphDataFormat_offset
  simp only [bytes_u16, store_two, byte_at_set, List.length_set]
  simp

theorem create_disabled (face : hb_face_t) (h : head_glyphDataFormat face.head > 0) :
    glyf_accelerator_t.create face
      = { short_offset := false, num_glyphs := 0, loca_table := [], glyf_table := [] } := by
  unfold glyf_accelerator_t.create
  simp [h]

theorem glyph_for_gid_disabled (ops : GlyphOps) (face : hb_face_t)
    (h : head_glyphDataFormat face.head > 0) (gid : Nat) (npr : Bool) :
    (glyf_accelerator_t.create face).glyph_for_gid ops gid npr = Glyph.empty := by
  rw [create_disabled face h]
  exact glyph_for_gid_of_invalid ops _ gid npr (Or.inl (Nat.zero_le _))

theorem create_dest (head loca glyf : List Nat) (n : Nat) (use_short_loca : Bool)
    (hhead : 52 ≤ head.length) (hgdf : ¬ head_glyphDataFormat head > 0)
    (hloca : loca.length = (if use_short_loca then 2 else 4) * (n + 1)) :
    glyf_accelerator_t.create ⟨head_prime head use_short_loca, loca, glyf, n⟩
      = ⟨use_short_loca, n, loca, glyf⟩ := by
  unfold glyf_accelerator_t.create
  simp only [head_prime_glyphDataFormat, head_prime_indexToLocFormat head use_short_loca hhead,
    hloca]
  cases use_short_loca with
  | true =>
    have hdiv : 2 * (n + 1) / 2 = n + 1 := by omega
    simp [hgdf, hdiv]
  | false =>
    have hdiv : 4 * (n + 1) / 4 = n + 1 := by omega
    simp [hgdf, hdiv]

namespace glyf

theorem dest_start_offset (glyphs : List SubsetGlyph) (glyf_data : List Nat)
    (hT : spec_padded_total glyphs < 2 ^ 32) (hN : glyphs.length + 1 < 2 ^ 32)
    (i : Nat) (hi : i ≤ glyphs.length) :
    glyf_accelerator_t.start_offset
        ⟨use_short_loca glyphs, glyphs.length, loca_prime glyphs, glyf_data⟩ i
      = prefix_sum (padded_offsets glyphs) i := by
  rw [start_offset_eq]
  have hentry := loca_prime_entry glyphs hT hN i hi
  unfold loca_entry at hentry
  cases hs : use_short_loca glyphs with
  | true =>
    rw [hs] at hentry
    simp only [if_true] at hentry ⊢
    rw [hentry]
    have heven : prefix_sum (padded_offsets glyphs) i % 2 = 0 := by
      apply prefix_sum_even
      intro s hmem
      rw [padded_offsets_of_lt glyphs hT, hs] at hmem
      simp only [if_true] at hmem
      obtain ⟨g, _, rfl⟩ := List.mem_map.mp hmem
      exact spec_padded_size_even g
    omega
  | false =>
    rw [hs] at hentry
    simp only [Bool.false_eq_true, if_false] at hentry ⊢
    rw [hentry]
    simp

theorem dest_glyph_bytes (ops : GlyphOps) (plan : hb_subset_plan_t)
    (glyphs : List SubsetGlyph) (rest : List Nat)
    (hT : spec_padded_total glyphs < 2 ^ 32) (hN : glyphs.length + 1 < 2 ^ 32)
    (n : Nat) (g : SubsetGlyph) (hg : glyphs[n]? = some g) :
    (glyf_accelerator_t.glyph_for_gid ops
        ⟨use_short_loca glyphs, glyphs.length, loca_prime glyphs,
          glyphs_output ops plan (use_short_loca glyphs) glyphs ++ rest⟩ n false).bytes
      = glyph_output ops plan (use_short_loca glyphs) g := by
  have hn : n < glyphs.length := by
    by_contra hcon
    rw [List.getElem?_eq_none (by omega)] at hg
    cases hg
  have hsizes := padded_offsets_eq_written glyphs hT
  have hstart := dest_start_offset glyphs
    (glyphs_output ops plan (use_short_loca glyphs) glyphs ++ rest) hT hN n (by omega)
  have hend : glyf_accelerator_t.end_offset
      ⟨use_short_loca glyphs, glyphs.length, loca_prime glyphs,
        glyphs_output ops plan (use_short_loca glyphs) glyphs ++ rest⟩ n
      = prefix_sum (padded_offsets glyphs) (n + 1) :=
    dest_start_offset glyphs _ hT hN (n + 1) (by omega)
  have hsz : (padded_offsets glyphs)[n]? = some (written_size (use_short_loca glyphs) g) := by
    rw [hsizes, List.getElem?_map, hg]
    rfl
  have hsucc := prefix_sum_succ (padded_offsets glyphs) n _ hsz
  have hle := prefix_sum_le_sum (padded_offsets glyphs) (n + 1)
  have hlen := glyphs_output_length ops plan (use_short_loca glyphs) glyphs
  rw [← hsizes] at hlen
  rw [glyph_for_gid_of_valid ops _ n hn (by rw [hstart, hend]; omega)
    (by rw [hend]; simp only [List.length_append]; omega)]
  simp only
  rw [hstart, hend, hsucc, Nat.add_sub_cancel_left]
  have hl : (glyphs.map (glyph_output ops plan (use_short_loca glyphs)))[n]?
      = some (glyph_output ops plan (use_short_loca glyphs) g) := by
    rw [List.getElem?_map, hg]
    rfl
  have hslice := flatten_slice _ n _ rest hl
  rw [glyphs_output_lengths, ← hsizes, glyph_output_length] at hslice
  exact hslice

end glyf

namespace glyf

theorem subset_eq (ops : GlyphOps) (c : hb_subset_context_t) (mem : hb_alloc_t)
    (he : c.serializer.errors = false) :
    subset ops c mem = subset_glyphs ops c mem (_populate_subset_glyphs ops c.plan) := by
  unfold subset
  simp [hb_serialize_context_t.check_success, he]

theorem subset_dest_face (ops : GlyphOps) (c : hb_subset_context_t) (mem : hb_alloc_t)
    (he : c.serializer.errors = false) (hd : c.serializer.data = [])
    (hlen : ∀ g ∈ _populate_subset_glyphs ops c.plan, region_length g < 2 ^ 32)
    (hr : ((_populate_subset_glyphs ops c.plan).map
      (written_size (use_short_loca (_populate_subset_glyphs ops c.plan)))).sum
        < c.serializer.room)
    (hc : mem.calloc_ok = true) (hb : mem.blob_copy_ok = true) :
    (subset ops c mem).1 = true
      ∧ dest_face (subset ops c mem).2 =
        ⟨head_prime c.plan.source.head (use_short_loca (_populate_subset_glyphs ops c.plan)),
          loca_prime (_populate_subset_glyphs ops c.plan),
          glyphs_output ops c.plan (use_short_loca (_populate_subset_glyphs ops c.plan))
              (_populate_subset_glyphs ops c.plan)
            ++ (if glyphs_output ops c.plan
                  (use_short_loca (_populate_subset_glyphs ops c.plan))
                  (_populate_subset_glyphs ops c.plan) = [] then [0] else []),
          c.plan.num_output_glyphs⟩ := by
  have hs := serialize_table_ok ops c.serializer (_populate_subset_glyphs ops c.plan)
    (use_short_loca (_populate_subset_glyphs ops c.plan)) c.plan he hlen hr
  rw [subset_eq ops c mem he, subset_glyphs_ok ops c mem _ he hlen hr hc hb]
  refine ⟨rfl, ?_⟩
  unfold dest_face
  simp only [find_table_head, find_table_loca, hs.2, hd, List.nil_append,
    hb_subset_plan_t.num_output_glyphs]
  split <;> simp_all

end glyf

/-- C9, amended: in a subset run that succeeds (an empty serializer with room, the two
allocations succeeding, the padded sizes summing to less than `2 ^ 32`, the source header
holding `indexToLocFormat`), for every retained glyph (new id n mapped from old id o) subset
without hint-stripping, other than a notdef glyph (n = 0) whose outline the plan does not
preserve: the bytes obtained by `glyph_for_gid (n)` over the newly produced glyf blob and
loca table are the bytes obtained by `glyph_for_gid (o)` with padding removal over the
source tables, as rewritten in place by `SubsetGlyph::serialize`, followed, under halved-16,
by one zero byte when their number is odd; the rewrite is the remap of the child ids of
composite components when the overlap flag is not requested, so that a glyph that is not
composite then reads back as the source bytes themselves (and the pad byte). -/
theorem subset_round_trip (ops : GlyphOps) (c : hb_subset_context_t) (mem : hb_alloc_t)
    (n o : Nat)
    (he : c.serializer.errors = false) (hd : c.serializer.data = [])
    (hT : spec_padded_total (glyf._populate_subset_glyphs ops c.plan) < 2 ^ 32)
    (hN : c.plan.num_output_glyphs + 1 < 2 ^ 32)
    (hr : ((glyf._populate_subset_glyphs ops c.plan).map
      (written_size (glyf.use_short_loca (glyf._populate_subset_glyphs ops c.plan)))).sum
        < c.serializer.room)
    (hc : mem.calloc_ok = true) (hb : mem.blob_copy_ok = true)
    (hhead : 52 ≤ c.plan.source.head.length)
    (hn : n < c.plan.num_output_glyphs) (ho : c.plan.old_gid_for_new_gid n = some o)
    (hnh : c.plan.has_flag HB_SUBSET_FLAGS_NO_HINTING = false)
    (hnd : n ≠ 0 ∨ c.plan.has_flag HB_SUBSET_FLAGS_NOTDEF_OUTLINE = true) :
    (glyf.subset ops c mem).1 = true
      ∧ ((glyf_accelerator_t.create (dest_face (glyf.subset ops c mem).2)).glyph_for_gid
            ops n false).bytes
          = rewritten_bytes ops c.plan
              ((glyf_accelerator_t.create c.plan.source).glyph_for_gid ops o true).bytes
            ++ List.replicate
              (if glyf.use_short_loca (glyf._populate_subset_glyphs ops c.plan) then
                ((glyf_accelerator_t.create c.plan.source).glyph_for_gid ops o true).bytes.length
                  % 2
               else 0) 0
      ∧ (c.plan.has_flag HB_SUBSET_FLAGS_SET_OVERLAPS_FLAG = false →
          rewritten_bytes ops c.plan
              ((glyf_accelerator_t.create c.plan.source).glyph_for_gid ops o true).bytes
            = remap_components c.plan
              ((glyf_accelerator_t.create c.plan.source).glyph_for_gid ops o true).bytes)
      ∧ (c.plan.has_flag HB_SUBSET_FLAGS_SET_OVERLAPS_FLAG = false →
          is_composite
            ((glyf_accelerator_t.create c.plan.source).glyph_for_gid ops o true).bytes = false →
          ((glyf_accelerator_t.create (dest_face (glyf.subset ops c mem).2)).glyph_for_gid
              ops n false).bytes
            = ((glyf_accelerator_t.create c.plan.source).glyph_for_gid ops o true).bytes
              ++ List.replicate
                (if glyf.use_short_loca (glyf._populate_subset_glyphs ops c.plan) then
                  ((glyf_accelerator_t.create c.plan.source).glyph_for_gid ops o true).bytes.length
                    % 2
                 else 0) 0) := by
  have hlen : ∀ g ∈ glyf._populate_subset_glyphs ops c.plan, region_length g < 2 ^ 32 := by
    intro g hg
    have := spec_padded_size_le_total _ g hg
    have := region_length_le_padded g
    omega
  obtain ⟨hrun, hface⟩ := glyf.subset_dest_face ops c mem he hd hlen hr hc hb
  have hget := glyf.populate_get ops c.plan n o hn ho hnh hnd
  have hmain : ((glyf_accelerator_t.create (dest_face (glyf.subset ops c mem).2)).glyph_for_gid
        ops n false).bytes
      = rewritten_bytes ops c.plan
          ((glyf_accelerator_t.create c.plan.source).glyph_for_gid ops o true).bytes
        ++ List.replicate
          (if glyf.use_short_loca (glyf._populate_subset_glyphs ops c.plan) then
            ((glyf_accelerator_t.create c.plan.source).glyph_for_gid ops o true).bytes.length % 2
           else 0) 0 := by
    rw [hface]
    by_cases hgdf : head_glyphDataFormat c.plan.source.head > 0
    · have hnew : head_glyphDataFormat
          (head_prime c.plan.source.head
            (glyf.use_short_loca (glyf._populate_subset_glyphs ops c.plan))) > 0 := by
        rw [head_prime_glyphDataFormat]
        exact hgdf
      rw [glyph_for_gid_disabled ops
          ⟨head_prime c.plan.source.head
            (glyf.use_short_loca (glyf._populate_subset_glyphs ops c.plan)), _, _, _⟩ hnew,
        glyph_for_gid_disabled ops c.plan.source hgdf]
      simp [Glyph.empty, hb_serialize_context_t.rewritten_bytes_nil]
    · have hNl : (glyf._populate_subset_glyphs ops c.plan).length + 1 < 2 ^ 32 := by
        rw [glyf.populate_length]
        exact hN
      rw [create_dest _ _ _ _ _ hhead hgdf
        (by rw [loca_prime_length _ hNl, glyf.populate_length])]
      have hb := glyf.dest_glyph_bytes ops c.plan (glyf._populate_subset_glyphs ops c.plan)
        (if glyphs_output ops c.plan
            (glyf.use_short_loca (glyf._populate_subset_glyphs ops c.plan))
            (glyf._populate_subset_glyphs ops c.plan) = [] then [0] else [])
        hT hNl n _ hget
      rw [glyf.populate_length] at hb
      rw [hb]
      have hreg := hlen _ (List.getElem?_mem hget)
      unfold glyph_output
      simp only [List.append_nil, SubsetGlyph.padding]
      rw [length_eq_mod, Nat.mod_eq_of_lt hreg]
      simp [region_length]
  refine ⟨hrun, hmain, ?_, ?_⟩
  · intro hov
    exact rewritten_bytes_no_flags ops c.plan _ hnh hov
  · intro hov hnc
    rw [hmain, rewritten_bytes_no_flags ops c.plan _ hnh hov]
    have hrem : remap_components c.plan
        ((glyf_accelerator_t.create c.plan.source).glyph_for_gid ops o true).bytes
        = ((glyf_accelerator_t.create c.plan.source).glyph_for_gid ops o true).bytes := by
      simp [remap_components, hnc]
    rw [hrem]

/-- C9, as stated, fails in three ways, each by design.  The notdef glyph: with the
outline of notdef not preserved, the retained glyph 0 of a one-glyph face reads back
empty, the source glyph having four bytes.  Padding: a retained glyph of three bytes of a
direct-32 face reads back as four bytes from the halved-16 table the run produces.
Composite remap: the retained composite glyph 3, new id 2, whose component references old
glyph 2, reads back referencing the new glyph 1. -/
theorem subset_round_trip_counterexample :
    ((glyf.subset GlyphOps.trivial ⟨⟨[], 64, false⟩, plan_of_source face_of_one_glyph 1⟩
          ⟨true, true⟩).1 = true
        ∧ ((glyf_accelerator_t.create (dest_face (glyf.subset GlyphOps.trivial
              ⟨⟨[], 64, false⟩, plan_of_source face_of_one_glyph 1⟩
              ⟨true, true⟩).2)).glyph_for_gid GlyphOps.trivial 0 false).bytes = []
        ∧ ((glyf_accelerator_t.create face_of_one_glyph).glyph_for_gid
              GlyphOps.trivial 0 false).bytes = [1, 2, 3, 4])
      ∧ ((glyf.subset GlyphOps.trivial ⟨⟨[], 64, false⟩, plan_of_source face_of_odd_glyph 2⟩
            ⟨true, true⟩).1 = true
        ∧ ((glyf_accelerator_t.create (dest_face (glyf.subset GlyphOps.trivial
              ⟨⟨[], 64, false⟩, plan_of_source face_of_odd_glyph 2⟩
              ⟨true, true⟩).2)).glyph_for_gid GlyphOps.trivial 1 false).bytes = [7, 8, 9, 0]
        ∧ ((glyf_accelerator_t.create face_of_odd_glyph).glyph_for_gid
              GlyphOps.trivial 1 false).bytes = [7, 8, 9])
      ∧ ((glyf.subset GlyphOps.trivial ⟨⟨[], 64, false⟩, plan_of_composite⟩
            ⟨true, true⟩).1 = true
        ∧ ((glyf_accelerator_t.create (dest_face (glyf.subset GlyphOps.trivial
              ⟨⟨[], 64, false⟩, plan_of_composite⟩
              ⟨true, true⟩).2)).glyph_for_gid GlyphOps.trivial 2 false).bytes
            = [255, 255, 0, 0, 0, 0, 0, 0, 0, 0, 0, 0, 0, 1, 1, 1]
        ∧ ((glyf_accelerator_t.create face_of_composite).glyph_for_gid
              GlyphOps.trivial 3 false).bytes
            = [255, 255, 0, 0, 0, 0, 0, 0, 0, 0, 0, 0, 0, 2, 1, 1]) := by
  refine ⟨⟨?_, ?_, ?_⟩, ⟨?_, ?_, ?_⟩, ⟨?_, ?_, ?_⟩⟩ <;> decide

/-- Witness of C9: the simple glyph 2 of the four-glyph face, retained as new glyph 1, reads
back from the produced tables as read from the source. -/
theorem subset_round_trip_witness :
    ((glyf_accelerator_t.create (dest_face (glyf.subset GlyphOps.trivial
        ⟨⟨[], 64, false⟩, plan_of_composite⟩ ⟨true, true⟩).2)).glyph_for_gid
          GlyphOps.trivial 1 false).bytes
      = ((glyf_accelerator_t.create plan_of_composite.source).glyph_for_gid
          GlyphOps.trivial 2 true).bytes
        ++ List.replicate
          (if glyf.use_short_loca (glyf._populate_subset_glyphs GlyphOps.trivial
              plan_of_composite) then
            ((glyf_accelerator_t.create plan_of_composite.source).glyph_for_gid
              GlyphOps.trivial 2 true).bytes.length % 2
           else 0) 0 :=
  (subset_round_trip GlyphOps.trivial ⟨⟨[], 64, false⟩, plan_of_composite⟩ ⟨true, true⟩ 1 2
    rfl rfl (by decide) (by decide) (by decide) rfl rfl (by decide) (by decide) (by decide)
    (by decide) (by decide)).2.2.2 (by decide) (by decide)

/-! ## The path builder: contours and commands -/

section path
variable {F : Type}


theorem consume_point_of_not_end (ops : FloatOps F) (b : path_builder_t F)
    (p : contour_point_t F) (h : p.is_end_point = false) :
    b.consume_point ops p = b.consume_contour_point ops p := by
  simp [path_builder_t.consume_point, h]

theorem consume_point_of_end (ops : FloatOps F) (b : path_builder_t F)
    (p : contour_point_t F) (h : p.is_end_point = true) :
    b.consume_point ops p = (b.consume_contour_point ops p).end_contour ops := by
  simp [path_builder_t.consume_point, h]

theorem consume_points_append (ops : FloatOps F) (b : path_builder_t F)
    (ps qs : List (contour_point_t F)) :
    b.consume_points ops (ps ++ qs) = (b.consume_points ops ps).consume_points ops qs := by
  simp [path_builder_t.consume_points, List.foldl_append]

theorem consume_points_cons (ops : FloatOps F) (b : path_builder_t F)
    (p : contour_point_t F) (ps : List (contour_point_t F)) :
    b.consume_points ops (p :: ps) = (b.consume_point ops p).consume_points ops ps := rfl

theorem consume_points_nil (ops : FloatOps F) (b : path_builder_t F) :
    b.consume_points ops [] = b := rfl

/-- The commands a step adds do not depend on the commands already received. -/
theorem consume_contour_point_shift (ops : FloatOps F) (b : path_builder_t F)
    (p : contour_point_t F) (cs : List (draw_command_t F)) :
    path_builder_t.consume_contour_point ops
        { b with draw_session := ⟨cs ++ b.draw_session.commands⟩ } p
      = { b.consume_contour_point ops p with
          draw_session := ⟨cs ++ (b.consume_contour_point ops p).draw_session.commands⟩ } := by
  rcases b with ⟨font, ⟨cmds⟩, fon, foff, loff⟩
  cases fon <;> cases foff <;> cases loff <;>
    cases hc : (p.flag &&& FLAG_ON_CURVE != 0) <;>
    simp [path_builder_t.consume_contour_point, hc, hb_draw_session_t.move_to,
      hb_draw_session_t.line_to, hb_draw_session_t.quadratic_to]

theorem end_contour_shift (ops : FloatOps F) (b : path_builder_t F)
    (cs : List (draw_command_t F)) :
    path_builder_t.end_contour ops { b with draw_session := ⟨cs ++ b.draw_session.commands⟩ }
      = { b.end_contour ops with
          draw_session := ⟨cs ++ (b.end_contour ops).draw_session.commands⟩ } := by
  rcases b with ⟨font, ⟨cmds⟩, fon, foff, loff⟩
  cases fon <;> cases foff <;> cases loff <;>
    simp [path_builder_t.end_contour, path_builder_t.join_offcurves,
      path_builder_t.return_to_start, hb_draw_session_t.move_to,
      hb_draw_session_t.line_to, hb_draw_session_t.quadratic_to, hb_draw_session_t.close_path]

theorem consume_point_shift (ops : FloatOps F) (b : path_builder_t F)
    (p : contour_point_t F) (cs : List (draw_command_t F)) :
    path_builder_t.consume_point ops
        { b with draw_session := ⟨cs ++ b.draw_session.commands⟩ } p
      = { b.consume_point ops p with
          draw_session := ⟨cs ++ (b.consume_point ops p).draw_session.commands⟩ } := by
  unfold path_builder_t.consume_point
  simp only [consume_contour_point_shift]
  cases p.is_end_point with
  | false => simp
  | true => simp only [if_true]; exact end_contour_shift ops _ cs

theorem consume_points_shift (ops : FloatOps F) (ps : List (contour_point_t F)) :
    ∀ (b : path_builder_t F) (cs : List (draw_command_t F)),
      path_builder_t.consume_points ops
          { b with draw_session := ⟨cs ++ b.draw_session.commands⟩ } ps
        = { b.consume_points ops ps with
            draw_session := ⟨cs ++ (b.consume_points ops ps).draw_session.commands⟩ } := by
  induction ps with
  | nil => intro b cs; rfl
  | cons p ps ih =>
    intro b cs
    rw [consume_points_cons, consume_points_cons, consume_point_shift, ih]

/-- After the block of an end point the builder is as constructed, on the draw session it
has reached. -/
theorem end_contour_state (ops : FloatOps F) (b : path_builder_t F) :
    b.end_contour ops = path_builder_t.init b.font (b.end_contour ops).draw_session := by
  rcases b with ⟨font, ⟨cmds⟩, fon, foff, loff⟩
  cases foff <;> cases loff <;>
    simp [path_builder_t.end_contour, path_builder_t.join_offcurves, path_builder_t.init]

theorem consume_contour_point_font (ops : FloatOps F) (b : path_builder_t F)
    (p : contour_point_t F) : (b.consume_contour_point ops p).font = b.font := by
  rcases b with ⟨font, ⟨cmds⟩, fon, foff, loff⟩
  cases fon <;> cases foff <;> cases loff <;>
    cases hc : (p.flag &&& FLAG_ON_CURVE != 0) <;>
    simp [path_builder_t.consume_contour_point, hc]

theorem end_contour_font (ops : FloatOps F) (b : path_builder_t F) :
    (b.end_contour ops).font = b.font := by
  rcases b with ⟨font, ⟨cmds⟩, fon, foff, loff⟩
  cases foff <;> cases loff <;>
    simp [path_builder_t.end_contour, path_builder_t.join_offcurves]

theorem consume_point_font (ops : FloatOps F) (b : path_builder_t F)
    (p : contour_point_t F) : (b.consume_point ops p).font = b.font := by
  unfold path_builder_t.consume_point
  cases p.is_end_point with
  | false => simp [consume_contour_point_font]
  | true => simp [end_contour_font, consume_contour_point_font]

/-- The commands a step adds: none of them is `close_path`. -/
theorem consume_contour_point_commands (ops : FloatOps F) (b : path_builder_t F)
    (p : contour_point_t F) :
    ∃ cmds, (b.consume_contour_point ops p).draw_session.commands
        = b.draw_session.commands ++ cmds
      ∧ cmds.countP draw_command_t.is_close_path = 0 := by
  refine ⟨(b.consume_contour_point ops p).draw_session.commands.drop
    b.draw_session.commands.length, ?_, ?_⟩ <;>
  rcases b with ⟨font, ⟨cmds⟩, fon, foff, loff⟩ <;>
  cases fon <;> cases foff <;> cases loff <;>
    cases hc : (p.flag &&& FLAG_ON_CURVE != 0) <;>
    simp [path_builder_t.consume_contour_point, hc, hb_draw_session_t.move_to,
      hb_draw_session_t.line_to, hb_draw_session_t.quadratic_to,
      draw_command_t.is_close_path]

/-- The commands the block of an end point adds: `close_path` is the last and the only
one. -/
theorem end_contour_commands (ops : FloatOps F) (b : path_builder_t F) :
    ∃ cmds, (b.end_contour ops).draw_session.commands
        = b.draw_session.commands ++ cmds ++ [draw_command_t.close_path]
      ∧ cmds.countP draw_command_t.is_close_path = 0 := by
  refine ⟨((b.end_contour ops).draw_session.commands.drop
    b.draw_session.commands.length).dropLast, ?_, ?_⟩ <;>
  rcases b with ⟨font, ⟨cmds⟩, fon, foff, loff⟩ <;>
  cases fon <;> cases foff <;> cases loff <;>
    simp [path_builder_t.end_contour, path_builder_t.join_offcurves,
      path_builder_t.return_to_start, hb_draw_session_t.move_to,
      hb_draw_session_t.line_to, hb_draw_session_t.quadratic_to, hb_draw_session_t.close_path,
      draw_command_t.is_close_path]

theorem consume_end_point_commands (ops : FloatOps F) (b : path_builder_t F)
    (p : contour_point_t F) (h : p.is_end_point = true) :
    ∃ cmds, (b.consume_point ops p).draw_session.commands
        = b.draw_session.commands ++ cmds ++ [draw_command_t.close_path]
      ∧ cmds.countP draw_command_t.is_close_path = 0 := by
  rw [consume_point_of_end ops b p h]
  obtain ⟨c1, h1, n1⟩ := consume_contour_point_commands ops b p
  obtain ⟨c2, h2, n2⟩ := end_contour_commands ops (b.consume_contour_point ops p)
  refine ⟨c1 ++ c2, ?_, ?_⟩
  · rw [h2, h1]; simp
  · simp [List.countP_append, n1, n2]

theorem consume_point_close_count (ops : FloatOps F) (b : path_builder_t F)
    (p : contour_point_t F) :
    (b.consume_point ops p).draw_session.commands.countP draw_command_t.is_close_path
      = b.draw_session.commands.countP draw_command_t.is_close_path
        + (if p.is_end_point then 1 else 0) := by
  cases h : p.is_end_point with
  | false =>
    rw [consume_point_of_not_end ops b p h]
    obtain ⟨c1, h1, n1⟩ := consume_contour_point_commands ops b p
    rw [h1]
    simp [List.countP_append, n1]
  | true =>
    obtain ⟨c1, h1, n1⟩ := consume_end_point_commands ops b p h
    rw [h1]
    simp [List.countP_append, n1, draw_command_t.is_close_path]

theorem consume_points_close_count (ops : FloatOps F) (ps : List (contour_point_t F)) :
    ∀ b : path_builder_t F,
      (b.consume_points ops ps).draw_session.commands.countP draw_command_t.is_close_path
        = b.draw_session.commands.countP draw_command_t.is_close_path
          + ps.countP (fun p => p.is_end_point) := by
  induction ps with
  | nil => intro b; simp [consume_points_nil]
  | cons p ps ih =>
    intro b
    rw [consume_points_cons, ih, consume_point_close_count, List.countP_cons]
    omega

theorem consume_points_font (ops : FloatOps F) (ps : List (contour_point_t F)) :
    ∀ b : path_builder_t F, (b.consume_points ops ps).font = b.font := by
  induction ps with
  | nil => intro b; rfl
  | cons p ps ih => intro b; rw [consume_points_cons, ih, consume_point_font]

/-- After a contour, what follows is built as by a fresh builder. -/
theorem consume_points_after_end (ops : FloatOps F) (b : path_builder_t F)
    (c1 c2 : List (contour_point_t F)) (e : contour_point_t F) (he : e.is_end_point = true) :
    (b.consume_points ops (c1 ++ e :: c2)).draw_session.commands
      = (b.consume_points ops (c1 ++ [e])).draw_session.commands
        ++ ((path_builder_t.init b.font ⟨[]⟩).consume_points ops c2).draw_session.commands := by
  have hsplit : c1 ++ e :: c2 = (c1 ++ [e]) ++ c2 := by simp
  rw [hsplit, consume_points_append ops b (c1 ++ [e]) c2]
  have hstate : b.consume_points ops (c1 ++ [e])
      = path_builder_t.init b.font (b.consume_points ops (c1 ++ [e])).draw_session := by
    rw [consume_points_append, consume_points_cons, consume_points_nil,
      consume_point_of_end ops _ e he]
    have h := end_contour_state ops
      ((b.consume_points ops c1).consume_contour_point ops e)
    rw [consume_contour_point_font, consume_points_font] at h
    exact h
  generalize (b.consume_points ops (c1 ++ [e])) = s at hstate ⊢
  rw [hstate]
  have h := consume_points_shift ops c2 (path_builder_t.init b.font ⟨[]⟩)
    s.draw_session.commands
  simp only [path_builder_t.init, List.append_nil] at h ⊢
  rw [h]

/-- Inside a contour fed to a fresh builder: before the first on-curve point nothing is
drawn; after it the commands are one `move_to`, to that point, and segments. -/
theorem consume_contour_point_in_contour (ops : FloatOps F) (b : path_builder_t F)
    (p : contour_point_t F)
    (h : (b.first_oncurve = none ∧ b.draw_session.commands = [] ∧ b.last_offcurve = none)
      ∨ ∃ s draws, b.first_oncurve = some s
          ∧ b.draw_session.commands
              = draw_command_t.move_to (b.font.em_fscalef_x s.1) (b.font.em_fscalef_y s.2)
                :: draws
          ∧ ∀ d ∈ draws, draw_command_t.is_segment d = true) :
    ((b.consume_contour_point ops p).first_oncurve = none
        ∧ (b.consume_contour_point ops p).draw_session.commands = []
        ∧ (b.consume_contour_point ops p).last_offcurve = none
        ∧ (b.consume_contour_point ops p).first_offcurve ≠ none)
      ∨ ∃ s draws, (b.consume_contour_point ops p).first_oncurve = some s
          ∧ (b.consume_contour_point ops p).draw_session.commands
              = draw_command_t.move_to (b.font.em_fscalef_x s.1) (b.font.em_fscalef_y s.2)
                :: draws
          ∧ ∀ d ∈ draws, draw_command_t.is_segment d = true := by
  rcases b with ⟨font, ⟨cmds⟩, fon, foff, loff⟩
  rcases h with ⟨h1, h2, h3⟩ | ⟨s, draws, h1, h2, h3⟩
  · simp only at h1 h2 h3
    subst h1 h2 h3
    cases foff <;> cases hc : (p.flag &&& FLAG_ON_CURVE != 0) <;>
      simp [path_builder_t.consume_contour_point, hc, hb_draw_session_t.move_to]
  · simp only at h1 h2
    subst h1 h2
    right
    cases loff <;> cases hc : (p.flag &&& FLAG_ON_CURVE != 0) <;>
      simp [path_builder_t.consume_contour_point, hc, hb_draw_session_t.line_to,
        hb_draw_session_t.quadratic_to, draw_command_t.is_segment] <;>
      first
        | exact h3
        | (intro d hd; rcases hd with hd | hd
           · exact h3 d hd
           · subst hd; rfl)

theorem consume_points_in_contour (ops : FloatOps F) (font : hb_font_t F)
    (ps : List (contour_point_t F)) (hp : ∀ p ∈ ps, p.is_end_point = false) :
    (((path_builder_t.init font ⟨[]⟩).consume_points ops ps).first_oncurve = none
        ∧ ((path_builder_t.init font ⟨[]⟩).consume_points ops ps).draw_session.commands = []
        ∧ ((path_builder_t.init font ⟨[]⟩).consume_points ops ps).last_offcurve = none)
      ∨ ∃ s draws,
          ((path_builder_t.init font ⟨[]⟩).consume_points ops ps).first_oncurve = some s
          ∧ ((path_builder_t.init font ⟨[]⟩).consume_points ops ps).draw_session.commands
              = draw_command_t.move_to (font.em_fscalef_x s.1) (font.em_fscalef_y s.2) :: draws
          ∧ ∀ d ∈ draws, draw_command_t.is_segment d = true := by
  induction ps using List.reverseRecOn with
  | nil => left; exact ⟨rfl, rfl, rfl⟩
  | append_singleton ps p ih =>
    have ih1 := ih (fun q hq => hp q (List.mem_append_left _ hq))
    have hpe : p.is_end_point = false := hp p (by simp)
    have hfont := consume_points_font ops ps (path_builder_t.init font ⟨[]⟩)
    have hfont1 : (path_builder_t.init font (⟨[]⟩ : hb_draw_session_t F)).font = font := rfl
    rw [hfont1] at hfont
    rw [consume_points_append, consume_points_cons, consume_points_nil,
      consume_point_of_not_end ops _ p hpe]
    have hstep := consume_contour_point_in_contour ops
      ((path_builder_t.init font ⟨[]⟩).consume_points ops ps) p (by rw [hfont]; exact ih1)
    rw [hfont] at hstep
    rcases hstep with ⟨h1, h2, h3, _⟩ | h
    · left; exact ⟨h1, h2, h3⟩
    · right; exact h

/-- The block of an end point, in a contour that has begun: the commands become one
`move_to`, segments of which the last returns to the point of the `move_to`, and
`close_path`. -/
theorem end_contour_in_contour (ops : FloatOps F) (b : path_builder_t F)
    (h : (b.first_oncurve = none ∧ b.draw_session.commands = [] ∧ b.last_offcurve = none
          ∧ b.first_offcurve ≠ none)
      ∨ ∃ s draws, b.first_oncurve = some s
          ∧ b.draw_session.commands
              = draw_command_t.move_to (b.font.em_fscalef_x s.1) (b.font.em_fscalef_y s.2)
                :: draws
          ∧ ∀ d ∈ draws, draw_command_t.is_segment d = true) :
    ∃ x y draws,
      (b.end_contour ops).draw_session.commands
          = draw_command_t.move_to x y :: draws ++ [draw_command_t.close_path]
        ∧ draws ≠ []
        ∧ (∀ d ∈ draws, draw_command_t.is_segment d = true)
        ∧ draws.getLast?.bind draw_command_t.end_point = some (x, y) := by
  rcases b with ⟨font, ⟨cmds⟩, fon, foff, loff⟩
  rcases h with ⟨h1, h2, h3, h4⟩ | ⟨s, draws, h1, h2, h3⟩
  · simp only at h1 h2 h3 h4
    subst h1 h2 h3
    cases foff with
    | none => exact absurd rfl h4
    | some fo =>
      refine ⟨font.em_fscalef_x fo.1, font.em_fscalef_x fo.2,
        [draw_command_t.quadratic_to (font.em_fscalef_x fo.1) (font.em_fscalef_x fo.2)
          (font.em_fscalef_x fo.1) (font.em_fscalef_x fo.2)], ?_, ?_, ?_, ?_⟩ <;>
      simp [path_builder_t.end_contour, path_builder_t.join_offcurves,
        path_builder_t.return_to_start, hb_draw_session_t.move_to,
        hb_draw_session_t.quadratic_to, hb_draw_session_t.close_path,
        draw_command_t.is_segment, draw_command_t.end_point]
  · simp only at h1 h2
    subst h1 h2
    refine ⟨font.em_fscalef_x s.1, font.em_fscalef_y s.2,
      ((path_builder_t.end_contour ops
        ⟨font, ⟨draw_command_t.move_to (font.em_fscalef_x s.1) (font.em_fscalef_y s.2)
          :: draws⟩, some s, foff, loff⟩).draw_session.commands.drop 1).dropLast,
      ?_, ?_, ?_, ?_⟩ <;>
    cases foff <;> cases loff <;>
      simp [path_builder_t.end_contour, path_builder_t.join_offcurves,
        path_builder_t.return_to_start, hb_draw_session_t.line_to,
        hb_draw_session_t.quadratic_to, hb_draw_session_t.close_path,
        draw_command_t.is_segment, draw_command_t.end_point, List.getLast?_append,
        List.dropLast_append_of_ne_nil] <;>
      first
        | exact h3
        | (intro d hd; rcases hd with hd | hd | hd
           · exact h3 d hd
           · subst hd; rfl
           · subst hd; rfl)
        | (intro d hd; rcases hd with hd | hd
           · exact h3 d hd
           · subst hd; rfl)

/-- C12 (as stated, refuted): on the contour `(0,0)` on-curve, `(10,10)` off-curve, `(20,0)`
on-curve and last, with the identity font scaling, the draw session of a fresh builder does
not receive just `move_to(0,0)`, `quadratic_to(10,10,20,0)`, `close_path`. -/
theorem path_of_on_off_on_counterexample :
    (fresh_builder.consume_points FloatOps.exact on_off_on_contour).draw_session.commands
      ≠ [draw_command_t.move_to 0 0, draw_command_t.quadratic_to 10 10 20 0,
          draw_command_t.close_path] := by
  decide

/-- C12 (amended): for every arithmetic and every font with the identity scaling, a fresh
builder fed an on-curve point, an off-curve point and an on-curve point flagged as the end
of the contour sends the draw session exactly `move_to` to the first point, `quadratic_to`
with the second as control and the third as end, `line_to` back to the first point, and
`close_path`: four commands, the closing line included. -/
theorem path_of_on_off_on (ops : FloatOps F) (font : hb_font_t F)
    (hx : ∀ v, font.em_fscalef_x v = v) (hy : ∀ v, font.em_fscalef_y v = v)
    (x0 y0 x1 y1 x2 y2 : F) :
    ((path_builder_t.init font ⟨[]⟩).consume_points ops
        [⟨FLAG_ON_CURVE, x0, y0, false⟩, ⟨0, x1, y1, false⟩,
          ⟨FLAG_ON_CURVE, x2, y2, true⟩]).draw_session.commands
      = [draw_command_t.move_to x0 y0, draw_command_t.quadratic_to x1 y1 x2 y2,
          draw_command_t.line_to x0 y0, draw_command_t.close_path] := by
  simp [path_builder_t.consume_points, path_builder_t.consume_point,
    path_builder_t.consume_contour_point, path_builder_t.end_contour,
    path_builder_t.join_offcurves, path_builder_t.return_to_start, path_builder_t.init,
    hb_draw_session_t.move_to, hb_draw_session_t.line_to, hb_draw_session_t.quadratic_to,
    hb_draw_session_t.close_path, FLAG_ON_CURVE, hx, hy]

theorem path_of_on_off_on_witness :
    (fresh_builder.consume_points FloatOps.exact on_off_on_contour).draw_session.commands
      = [draw_command_t.move_to 0 0, draw_command_t.quadratic_to 10 10 20 0,
          draw_command_t.line_to 0 0, draw_command_t.close_path] :=
  path_of_on_off_on FloatOps.exact unscaled_font (fun _ => rfl) (fun _ => rfl) 0 0 10 10 20 0

/-- C13: in a contour whose first on-curve point has been seen, let two off-curve points A
then B be consumed, A not the end of the contour.  After A, A is the pending control point.
When B is consumed, `consume_point` emits `quadratic_to` with control A and end the point
between A and B, `A + .5 * (B - A)`, both through the font scaling.  If B is not the end of
the contour, B becomes the pending control point and, whatever point comes next, the next
command is a second `quadratic_to`, with control B; if B is the end of the contour the
second `quadratic_to`, with control B, is emitted in the same call.  In exact arithmetic
the point between A and B is `(A + B) / 2`; for A = (0,10), B = (10,0) it is (5,5). -/
theorem consecutive_offcurve_points (ops : FloatOps F) (b : path_builder_t F)
    (A B : contour_point_t F) (hon : b.first_oncurve ≠ none)
    (hA : A.flag &&& FLAG_ON_CURVE = 0) (hAe : A.is_end_point = false)
    (hB : B.flag &&& FLAG_ON_CURVE = 0) :
    (b.consume_point ops A).last_offcurve = some (A.x, A.y)
    ∧ (B.is_end_point = false →
        ((b.consume_point ops A).consume_point ops B).draw_session.commands
            = (b.consume_point ops A).draw_session.commands ++
              [draw_command_t.quadratic_to (b.font.em_fscalef_x A.x) (b.font.em_fscalef_y A.y)
                (b.font.em_fscalef_x
                  (optional_point_t.lerp ops (A.x, A.y) (B.x, B.y) ops.half).1)
                (b.font.em_fscalef_y
                  (optional_point_t.lerp ops (A.x, A.y) (B.x, B.y) ops.half).2)]
          ∧ ((b.consume_point ops A).consume_point ops B).last_offcurve = some (B.x, B.y)
          ∧ ((b.consume_point ops A).consume_point ops B).first_oncurve = b.first_oncurve
          ∧ ∀ P : contour_point_t F, ∃ rest,
              (((b.consume_point ops A).consume_point ops B).consume_point ops
                  P).draw_session.commands
                = ((b.consume_point ops A).consume_point ops B).draw_session.commands ++
                  draw_command_t.quadratic_to (b.font.em_fscalef_x B.x)
                    (b.font.em_fscalef_y B.y)
                    (b.font.em_fscalef_x
                      (if P.flag &&& FLAG_ON_CURVE != 0 then (P.x, P.y)
                       else optional_point_t.lerp ops (B.x, B.y) (P.x, P.y) ops.half).1)
                    (b.font.em_fscalef_y
                      (if P.flag &&& FLAG_ON_CURVE != 0 then (P.x, P.y)
                       else optional_point_t.lerp ops (B.x, B.y) (P.x, P.y) ops.half).2)
                  :: rest)
    ∧ (B.is_end_point = true → ∃ to_x to_y rest,
        ((b.consume_point ops A).consume_point ops B).draw_session.commands
          = (b.consume_point ops A).draw_session.commands ++
            draw_command_t.quadratic_to (b.font.em_fscalef_x A.x) (b.font.em_fscalef_y A.y)
              (b.font.em_fscalef_x
                (optional_point_t.lerp ops (A.x, A.y) (B.x, B.y) ops.half).1)
              (b.font.em_fscalef_y
                (optional_point_t.lerp ops (A.x, A.y) (B.x, B.y) ops.half).2)
            :: draw_command_t.quadratic_to (b.font.em_fscalef_x B.x) (b.font.em_fscalef_y B.y)
                to_x to_y
            :: rest)
    ∧ (∀ a c : ℚ × ℚ,
        optional_point_t.lerp FloatOps.exact a c FloatOps.exact.half
          = ((a.1 + c.1) / 2, (a.2 + c.2) / 2))
    ∧ optional_point_t.lerp FloatOps.exact (0, 10) (10, 0) FloatOps.exact.half = (5, 5) := by
  rcases b with ⟨font, ⟨cmds⟩, fon, foff, loff⟩
  cases fon with
  | none => exact absurd rfl hon
  | some s =>
    have hA1 : (A.flag &&& FLAG_ON_CURVE != 0) = false := by rw [hA]; rfl
    have hB1 : (B.flag &&& FLAG_ON_CURVE != 0) = false := by rw [hB]; rfl
    refine ⟨?_, ?_, ?_, ?_, ?_⟩
    · cases loff <;>
        simp [path_builder_t.consume_point, path_builder_t.consume_contour_point, hA1, hAe]
    · intro hBe
      refine ⟨?_, ?_, ?_, ?_⟩
      · cases loff <;>
          simp [path_builder_t.consume_point, path_builder_t.consume_contour_point, hA1, hAe,
            hB1, hBe, hb_draw_session_t.quadratic_to]
      · cases loff <;>
          simp [path_builder_t.consume_point, path_builder_t.consume_contour_point, hA1, hAe,
            hB1, hBe]
      · cases loff <;>
          simp [path_builder_t.consume_point, path_builder_t.consume_contour_point, hA1, hAe,
            hB1, hBe]
      · intro P
        refine ⟨((((path_builder_t.mk font ⟨cmds⟩ (some s) foff loff).consume_point ops
          A).consume_point ops B).consume_point ops P).draw_session.commands.drop
            ((((path_builder_t.mk font ⟨cmds⟩ (some s) foff loff).consume_point ops
              A).consume_point ops B).draw_session.commands.length + 1), ?_⟩
        cases loff <;> cases foff <;> cases hP : (P.flag &&& FLAG_ON_CURVE != 0) <;>
          cases hPe : P.is_end_point <;>
          simp [path_builder_t.consume_point, path_builder_t.consume_contour_point, hA1, hAe,
            hB1, hBe, hP, hPe, hb_draw_session_t.quadratic_to, path_builder_t.end_contour,
            path_builder_t.join_offcurves, path_builder_t.return_to_start,
            hb_draw_session_t.close_path, hb_draw_session_t.line_to, Nat.add_assoc,
            List.drop_append]
    · intro hBe
      cases foff with
      | none =>
        refine ⟨font.em_fscalef_x s.1, font.em_fscalef_y s.2, [draw_command_t.close_path], ?_⟩
        cases loff <;>
          simp [path_builder_t.consume_point, path_builder_t.consume_contour_point, hA1, hAe,
            hB1, hBe, hb_draw_session_t.quadratic_to, path_builder_t.end_contour,
            path_builder_t.join_offcurves, path_builder_t.return_to_start,
            hb_draw_session_t.close_path]
      | some fo =>
        refine ⟨font.em_fscalef_x (optional_point_t.lerp ops (B.x, B.y) fo ops.half).1,
          font.em_fscalef_y (optional_point_t.lerp ops (B.x, B.y) fo ops.half).2,
          [draw_command_t.quadratic_to (font.em_fscalef_x fo.1) (font.em_fscalef_y fo.2)
            (font.em_fscalef_x s.1) (font.em_fscalef_y s.2), draw_command_t.close_path], ?_⟩
        cases loff <;>
          simp [path_builder_t.consume_point, path_builder_t.consume_contour_point, hA1, hAe,
            hB1, hBe, hb_draw_session_t.quadratic_to, path_builder_t.end_contour,
            path_builder_t.join_offcurves, path_builder_t.return_to_start,
            hb_draw_session_t.close_path]
    · intro a c
      simp only [optional_point_t.lerp, FloatOps.exact]
      ext <;> simp <;> ring
    · simp only [optional_point_t.lerp, FloatOps.exact]
      ext <;> norm_num

theorem consecutive_offcurve_points_witness :
    (((fresh_builder.consume_point FloatOps.exact ⟨FLAG_ON_CURVE, 0, 0, false⟩).consume_point
        FloatOps.exact ⟨0, 0, 10, false⟩).consume_point
          FloatOps.exact ⟨0, 10, 0, false⟩).last_offcurve = some (10, 0) :=
  ((consecutive_offcurve_points FloatOps.exact
    (fresh_builder.consume_point FloatOps.exact ⟨FLAG_ON_CURVE, 0, 0, false⟩)
    ⟨0, 0, 10, false⟩ ⟨0, 10, 0, false⟩ (by decide) rfl rfl rfl).2.1 rfl).2.1

/-- C19: for every contour fed to a fresh builder (any points none of which is flagged as
the end, then one point flagged as the end), the commands the draw session receives are
one `move_to`, then at least one segment (`line_to` or `quadratic_to`) and nothing but
segments, then `close_path`; and the last segment ends at the point of the `move_to`. -/
theorem contour_returns_to_start (ops : FloatOps F) (font : hb_font_t F)
    (points : List (contour_point_t F)) (e : contour_point_t F)
    (hp : ∀ p ∈ points, p.is_end_point = false) (he : e.is_end_point = true) :
    ∃ x y draws,
      ((path_builder_t.init font ⟨[]⟩).consume_points ops
          (points ++ [e])).draw_session.commands
          = draw_command_t.move_to x y :: draws ++ [draw_command_t.close_path]
        ∧ draws ≠ []
        ∧ (∀ d ∈ draws, draw_command_t.is_segment d = true)
        ∧ draws.getLast?.bind draw_command_t.end_point = some (x, y) := by
  have hfont := consume_points_font ops points (path_builder_t.init font ⟨[]⟩)
  have hfont1 : (path_builder_t.init font (⟨[]⟩ : hb_draw_session_t F)).font = font := rfl
  rw [hfont1] at hfont
  rw [consume_points_append, consume_points_cons, consume_points_nil,
    consume_point_of_end ops _ e he]
  have hin := consume_points_in_contour ops font points hp
  have hstep := consume_contour_point_in_contour ops
    ((path_builder_t.init font ⟨[]⟩).consume_points ops points) e (by rw [hfont]; exact hin)
  apply end_contour_in_contour
  rw [consume_contour_point_font]
  exact hstep

theorem contour_returns_to_start_witness :
    ∃ x y draws,
      (fresh_builder.consume_points FloatOps.exact on_off_on_contour).draw_session.commands
          = draw_command_t.move_to x y :: draws ++ [draw_command_t.close_path]
        ∧ draws ≠ []
        ∧ (∀ d ∈ draws, draw_command_t.is_segment d = true)
        ∧ draws.getLast?.bind draw_command_t.end_point = some (x, y) :=
  contour_returns_to_start FloatOps.exact unscaled_font
    [⟨FLAG_ON_CURVE, 0, 0, false⟩, ⟨0, 10, 10, false⟩] ⟨FLAG_ON_CURVE, 20, 0, true⟩
    (by decide) rfl

/-- C20: for every builder state and every point flagged as the end of a contour,
`consume_point` adds commands of which `close_path` is the last and the only one, and
leaves the builder as constructed (the three tracked points absent) on the same font.
Hence for every stream the number of `close_path` commands received grows by the number
of end points of the stream, and the commands of the points after an end point are those
a fresh builder emits for them: a contour is processed independently of the ones before. -/
theorem consume_end_point_closes (ops : FloatOps F) :
    (∀ (b : path_builder_t F) (p : contour_point_t F), p.is_end_point = true →
      (∃ cmds, (b.consume_point ops p).draw_session.commands
          = b.draw_session.commands ++ cmds ++ [draw_command_t.close_path]
        ∧ cmds.countP draw_command_t.is_close_path = 0)
      ∧ (b.consume_point ops p).first_oncurve = none
      ∧ (b.consume_point ops p).first_offcurve = none
      ∧ (b.consume_point ops p).last_offcurve = none
      ∧ b.consume_point ops p
          = path_builder_t.init b.font (b.consume_point ops p).draw_session)
    ∧ (∀ (b : path_builder_t F) (points : List (contour_point_t F)),
        (b.consume_points ops points).draw_session.commands.countP
            draw_command_t.is_close_path
          = b.draw_session.commands.countP draw_command_t.is_close_path
            + points.countP (fun p => p.is_end_point))
    ∧ (∀ (b : path_builder_t F) (c1 c2 : List (contour_point_t F)) (e : contour_point_t F),
        e.is_end_point = true →
        (b.consume_points ops (c1 ++ e :: c2)).draw_session.commands
          = (b.consume_points ops (c1 ++ [e])).draw_session.commands
            ++ ((path_builder_t.init b.font ⟨[]⟩).consume_points ops
                c2).draw_session.commands) := by
  refine ⟨?_, ?_, ?_⟩
  · intro b p hp
    have hstate : b.consume_point ops p
        = path_builder_t.init b.font (b.consume_point ops p).draw_session := by
      have h := end_contour_state ops (b.consume_contour_point ops p)
      rw [consume_contour_point_font, ← consume_point_of_end ops b p hp] at h
      exact h
    refine ⟨consume_end_point_commands ops b p hp, ?_, ?_, ?_, hstate⟩
    · rw [hstate]; rfl
    · rw [hstate]; rfl
    · rw [hstate]; rfl
  · intro b points
    exact consume_points_close_count ops points b
  · intro b c1 c2 e he
    exact consume_points_after_end ops b c1 c2 e he

theorem consume_end_point_closes_witness :
    (fresh_builder.consume_point FloatOps.exact ⟨FLAG_ON_CURVE, 20, 0, true⟩).first_oncurve
      = none :=
  ((consume_end_point_closes FloatOps.exact).1 fresh_builder ⟨FLAG_ON_CURVE, 20, 0, true⟩
    rfl).2.1

end path

/-! ## The point stream: consumers and the advance -/

section points
variable {F σ : Type}

theorem foldl_range_getD (f : σ → contour_point_t F → σ) (d : contour_point_t F)
    (l : List (contour_point_t F)) :
    ∀ (n : Nat), n ≤ l.length → ∀ c : σ,
      (List.range n).foldl (fun c i => f c (l.getD i d)) c = (l.take n).foldl f c := by
  intro n
  induction n with
  | zero => intro _ c; simp
  | succ n ih =>
    intro hn c
    have hlt : n < l.length := by omega
    rw [List.range_succ, List.foldl_append, ih (by omega) c, List.take_succ,
      List.foldl_append]
    simp [List.getD_eq_getElem?_getD, List.getElem?_eq_getElem hlt]

theorem consume_contour_points_eq (pops : GlyphPoints F) (T : points_consumer_t F σ)
    (consumer : σ) (all_points : List (contour_point_t F)) :
    consume_contour_points pops T consumer all_points
      = (all_points.take (all_points.length - 4)).foldl T.consume_point consumer :=
  foldl_range_getD T.consume_point pops.null all_points
    (all_points.length - 4) (by omega) consumer

theorem copy_phantoms_eq (pops : GlyphPoints F) (all_points : List (contour_point_t F))
    (hL : 4 ≤ all_points.length) (h32 : all_points.length < 2 ^ 32) :
    copy_phantoms pops all_points = all_points.drop (all_points.length - 4) := by
  have hsplit : all_points
      = all_points.take (all_points.length - 4) ++ all_points.drop (all_points.length - 4) :=
    (List.take_append_drop _ _).symm
  have hlen : (all_points.drop (all_points.length - 4)).length = 4 := by
    rw [List.length_drop]; omega
  have hpre : (all_points.take (all_points.length - 4)).length = all_points.length - 4 := by
    rw [List.length_take]; omega
  generalize all_points.take (all_points.length - 4) = pre at hsplit hpre
  generalize all_points.drop (all_points.length - 4) = post at hsplit hlen
  match post, hlen with
  | [p0, p1, p2, p3], _ =>
    subst hsplit
    have h32a : pre.length + 4 < 2 ^ 32 := by simpa using h32
    have hidx : ∀ i, i < 4 →
        u32 ((pre ++ [p0, p1, p2, p3]).length + 2 ^ 32 - 4 + i) = pre.length + i := by
      intro i hi
      simp only [List.length_append, List.length_cons, List.length_nil, u32]
      omega
    have hget : ∀ i, (pre ++ [p0, p1, p2, p3]).getD (pre.length + i) pops.null
        = [p0, p1, p2, p3].getD i pops.null := by
      intro i
      rw [List.getD_eq_getElem?_getD, List.getD_eq_getElem?_getD,
        List.getElem?_append_right (Nat.le_add_right _ _), Nat.add_sub_cancel_left]
    have hr : List.range 4 = [0, 1, 2, 3] := rfl
    simp only [copy_phantoms, PHANTOM_COUNT, hr, List.map_cons, List.map_nil]
    rw [hidx 0 (by omega), hidx 1 (by omega), hidx 2 (by omega), hidx 3 (by omega),
      hget 0, hget 1, hget 2, hget 3]
    rfl

/-- C16: for every assembled point stream of length L with 4 ≤ L (and L below `2 ^ 32`,
as the length of a vector is), `get_points` returns true; a consumer that consumes contour
points receives `consume_point` for exactly the first L - 4 points, in order, then one
`points_end`, and one that does not receives no call; a non-null phantom sink is written
exactly the last 4 points, in order, which are not among the points passed to
`consume_point`: the stream is the points consumed followed by the points written. -/
theorem get_points_feeds_consumer (gops : GlyphOps) (pops : GlyphPoints F)
    (a : glyf_accelerator_t) (font : hb_font_t F) (gid : Nat) (T : points_consumer_t F σ)
    (consumer : σ) (all_points : List (contour_point_t F)) (hgid : gid < a.num_glyphs)
    (hpts : pops.get_points font a (a.glyph_for_gid gops gid false)
      (!T.is_consuming_contour_points consumer) = some all_points)
    (hL : 4 ≤ all_points.length) (h32 : all_points.length < 2 ^ 32) :
    a.get_points gops pops font gid T consumer
        = (true,
            (if T.is_consuming_contour_points consumer then
              T.points_end
                ((all_points.take (all_points.length - 4)).foldl T.consume_point consumer)
             else consumer),
            (if T.get_phantoms_sink
                (if T.is_consuming_contour_points consumer then
                  T.points_end
                    ((all_points.take (all_points.length - 4)).foldl T.consume_point consumer)
                 else consumer) then
              some (all_points.drop (all_points.length - 4))
             else none))
      ∧ (all_points.take (all_points.length - 4)).length = all_points.length - 4
      ∧ (all_points.drop (all_points.length - 4)).length = 4
      ∧ all_points.take (all_points.length - 4) ++ all_points.drop (all_points.length - 4)
          = all_points := by
  refine ⟨?_, ?_, ?_, List.take_append_drop _ _⟩
  · unfold glyf_accelerator_t.get_points
    rw [if_neg (by omega)]
    simp only [hpts, consume_contour_points_eq, copy_phantoms_eq pops all_points hL h32]
  · rw [List.length_take]; omega
  · rw [List.length_drop]; omega

theorem get_points_feeds_consumer_witness :
    accelerator_of_one_glyph.get_points GlyphOps.trivial GlyphPoints.six
        unscaled_font 0 (recording_consumer ℚ true true) []
      = (true,
          [consumer_call_t.consume_point ⟨FLAG_ON_CURVE, 1, 1, false⟩,
            consumer_call_t.consume_point ⟨FLAG_ON_CURVE, 2, 2, true⟩,
            consumer_call_t.points_end],
          some [⟨0, 0, 0, false⟩, ⟨0, 600, 0, false⟩, ⟨0, 0, 800, false⟩,
            ⟨0, 0, -200, false⟩]) :=
  (get_points_feeds_consumer GlyphOps.trivial GlyphPoints.six
    accelerator_of_one_glyph unscaled_font 0 (recording_consumer ℚ true true) [] six_points
    (by decide) rfl (by decide) (by decide)).1

/-- C14 (as stated, refuted): for a glyph id that is not below `num_glyphs`, with a
coordinate count (2) that differs from the axis count (1), `get_advance_var` returns 0 and
not the advance 500 of the static table. -/
theorem get_advance_var_fallback_counterexample :
    font_of_two_coords.num_coords ≠ static_tables.gvar.get_axis_count
      ∧ accelerator_of_one_glyph.get_advance_var GlyphOps.trivial FloatOps.exact
          GlyphPoints.six static_tables font_of_two_coords 3 false = 0
      ∧ static_tables.hmtx.get_advance 3 = 500 := by
  decide

/-- C14 (amended): when the font's coordinate count differs from the axis count of the
variation store, `get_advance_var (font, gid, is_vertical)` returns, for every glyph id
below `num_glyphs`, exactly the advance of the static table (`vmtx->get_advance (gid)` when
`is_vertical`, else `hmtx->get_advance (gid)`), whatever `Glyph::get_points` would yield;
for a glyph id that is not below `num_glyphs` it returns 0. -/
theorem get_advance_var_fallback (gops : GlyphOps) (ops : FloatOps F) (pops : GlyphPoints F)
    (a : glyf_accelerator_t) (t : accelerator_tables_t) (font : hb_font_t F) (gid : Nat)
    (is_vertical : Bool) (hne : font.num_coords ≠ t.gvar.get_axis_count) :
    (gid < a.num_glyphs →
      a.get_advance_var gops ops pops t font gid is_vertical
        = if is_vertical then t.vmtx.get_advance gid else t.hmtx.get_advance gid)
    ∧ (a.num_glyphs ≤ gid → a.get_advance_var gops ops pops t font gid is_vertical = 0)
    ∧ (∀ pops1 : GlyphPoints F,
        a.get_advance_var gops ops pops1 t font gid is_vertical
          = a.get_advance_var gops ops pops t font gid is_vertical) := by
  refine ⟨?_, ?_, ?_⟩
  · intro hgid
    unfold glyf_accelerator_t.get_advance_var
    rw [if_neg (by omega)]
    simp [hne]
  · intro hgid
    unfold glyf_accelerator_t.get_advance_var
    rw [if_pos hgid]
  · intro pops1
    unfold glyf_accelerator_t.get_advance_var
    simp [hne]

theorem get_advance_var_fallback_witness :
    accelerator_of_one_glyph.get_advance_var GlyphOps.trivial FloatOps.exact GlyphPoints.six
        static_tables font_of_two_coords 0 false = 500 :=
  (get_advance_var_fallback GlyphOps.trivial FloatOps.exact GlyphPoints.six
    accelerator_of_one_glyph static_tables font_of_two_coords 0 false (by decide)).1
    (by decide)

end points

/-! ## The head table of a subset run -/

theorem head_prime_getElem (head : List Nat) (use_short_loca : Bool) (i : Nat)
    (h50 : i ≠ 50) (h51 : i ≠ 51) : (head_prime head use_short_loca)[i]? = head[i]? := by
  unfold head_prime bytes_u16 head_indexToLocFormat_offset
  rw [store_two, List.getElem?_set_ne (by omega), List.getElem?_set_ne (by omega)]

theorem head_prime_field (head : List Nat) (use_short_loca : Bool) (h : 52 ≤ head.length) :
    (head_prime head use_short_loca)[50]? = some 0
      ∧ (head_prime head use_short_loca)[51]? = some (if use_short_loca then 0 else 1) := by
  unfold head_prime bytes_u16 head_indexToLocFormat_offset
  rw [store_two]
  constructor
  · rw [List.getElem?_set_ne (by omega), List.getElem?_set_self (by omega)]
    cases use_short_loca <;> rfl
  · rw [List.getElem?_set_self (by rw [List.length_set]; omega)]
    cases use_short_loca <;> rfl

/-- C11: when the copy of the head blob succeeds, `_add_head_and_set_loca_version` returns
true and adds to the plan, under the tag `head`, a table of the length of the source head
(of at least 52 bytes, so that it holds the field) in which every byte outside the two bytes
of `indexToLocFormat` (offsets 50 and 51) is the byte of the source head, and in which
`indexToLocFormat` reads 0 when `use_short_loca` is true and 1 when it is false.  In every
successful run of `glyf::subset` on glyphs, the value of `use_short_loca` behind the head
table added is the one with which `_write_loca` wrote the loca table added in that run. -/
theorem add_head_sets_loca_version (plan : hb_subset_plan_t) (use_short_loca : Bool)
    (mem : hb_alloc_t) (hb : mem.blob_copy_ok = true) (hlen : 52 ≤ plan.source.head.length) :
    glyf._add_head_and_set_loca_version plan use_short_loca mem
        = (true, { plan with dest := plan.dest ++
            [(HB_OT_TAG_head, head_prime plan.source.head use_short_loca)] })
      ∧ (head_prime plan.source.head use_short_loca).length = plan.source.head.length
      ∧ (∀ i, i ≠ 50 → i ≠ 51 →
          (head_prime plan.source.head use_short_loca)[i]? = plan.source.head[i]?)
      ∧ head_indexToLocFormat (head_prime plan.source.head use_short_loca)
          = (if use_short_loca then 0 else 1)
      ∧ (head_prime plan.source.head use_short_loca)[50]? = some 0
      ∧ (head_prime plan.source.head use_short_loca)[51]?
          = some (if use_short_loca then 0 else 1)
      ∧ (∀ (ops : GlyphOps) (c c1 : hb_subset_context_t) (mem1 : hb_alloc_t)
          (glyphs : List SubsetGlyph), c.plan = plan →
          glyf.subset_glyphs ops c mem1 glyphs = (true, c1) →
          c1.plan.dest = plan.dest ++
            [(HB_OT_TAG_loca,
                glyf.loca_entries (glyf.use_short_loca glyphs)
                  (u32 ((glyf.padded_offsets glyphs).length + 1))
                  (glyf._write_loca (glyf.padded_offsets glyphs) (glyf.use_short_loca glyphs))),
              (HB_OT_TAG_head, head_prime plan.source.head (glyf.use_short_loca glyphs))]) := by
  refine ⟨?_, head_prime_length _ _, fun i h50 h51 => head_prime_getElem _ _ i h50 h51,
    head_prime_indexToLocFormat _ _ hlen, (head_prime_field _ _ hlen).1,
    (head_prime_field _ _ hlen).2, ?_⟩
  · unfold glyf._add_head_and_set_loca_version
    simp [hb, hb_subset_plan_t.add_table]
  · intro ops c c1 mem1 glyphs hc h
    have h3 := (glyf.subset_glyphs_true ops c c1 mem1 glyphs h).2.2
    rw [h3, hc]
    rfl

theorem add_head_sets_loca_version_witness :
    head_indexToLocFormat (head_prime (plan_of_source face_of_one_glyph 1).source.head false)
      = (if false then 0 else 1) :=
  (add_head_sets_loca_version (plan_of_source face_of_one_glyph 1) false ⟨true, true⟩ rfl
    (by decide)).2.2.2.1

/-! ## The glyphs of a subset run -/

/-- C15: in the list `_populate_subset_glyphs` builds, the entry of output id 0, when the
flag `HB_SUBSET_FLAGS_NOTDEF_OUTLINE` is not set, has the empty glyph as source whatever
the source font holds, and its regions are empty and its `length ()` is 0 (under hint
stripping, as long as `drop_hints_bytes` selects empty regions of the empty glyph).  When
the flag is set, or for any other output id, the source of an entry whose output id the
plan maps to `old_gid` is `glyph_for_gid (old_gid, true)` of the accelerator of the source
font, the glyph with its padding removed, and without hint stripping the first region is
all the bytes of that glyph. -/
theorem populate_notdef_source (ops : GlyphOps) (plan : hb_subset_plan_t) (new_gid : Nat)
    (g : SubsetGlyph) (hg : (glyf._populate_subset_glyphs ops plan)[new_gid]? = some g) :
    g.new_gid = new_gid
    ∧ (new_gid = 0 → plan.has_flag HB_SUBSET_FLAGS_NOTDEF_OUTLINE = false →
        g.source_glyph = Glyph.empty
        ∧ ((plan.has_flag HB_SUBSET_FLAGS_NO_HINTING = false
              ∨ ops.drop_hints_bytes Glyph.empty = ([], [])) →
            g.dest_start = [] ∧ g.dest_end = [] ∧ g.length = 0))
    ∧ (∀ old_gid, plan.old_gid_for_new_gid new_gid = some old_gid →
        (new_gid ≠ 0 ∨ plan.has_flag HB_SUBSET_FLAGS_NOTDEF_OUTLINE = true) →
        g.old_gid = old_gid
        ∧ g.source_glyph
            = (glyf_accelerator_t.create plan.source).glyph_for_gid ops old_gid true
        ∧ (plan.has_flag HB_SUBSET_FLAGS_NO_HINTING = false →
            g.dest_start = g.source_glyph.get_bytes ∧ g.dest_end = [])) := by
  have hn : new_gid < plan.num_output_glyphs := by
    have h := List.getElem?_eq_some_iff.mp hg
    obtain ⟨hlt, _⟩ := h
    rw [glyf.populate_length] at hlt
    exact hlt
  unfold glyf._populate_subset_glyphs at hg
  simp only [List.getElem?_map, List.getElem?_range hn, Option.map_some',
    Option.some.injEq] at hg
  subst hg
  refine ⟨?_, ?_, ?_⟩
  · cases plan.old_gid_for_new_gid new_gid with
    | none => rfl
    | some o => simp only; split <;> rfl
  · intro h0 hflag
    cases plan.old_gid_for_new_gid new_gid with
    | none =>
      refine ⟨rfl, fun _ => ⟨rfl, rfl, rfl⟩⟩
    | some o =>
      have hcond : (new_gid = 0 ∧ (!plan.has_flag HB_SUBSET_FLAGS_NOTDEF_OUTLINE) = true) := by
        simp [h0, hflag]
      cases hh : plan.has_flag HB_SUBSET_FLAGS_NO_HINTING with
      | false => simp [hcond, hflag, h0, SubsetGlyph.length, u32, Glyph.get_bytes, Glyph.empty]
      | true =>
        simp only [hcond, and_self, if_true, true_and]
        intro hd
        rcases hd with hd | hd
        · cases hd
        · simp [hd, SubsetGlyph.length, u32]
  · intro old_gid ho hnd
    have hcond : ¬ (new_gid = 0 ∧ (!plan.has_flag HB_SUBSET_FLAGS_NOTDEF_OUTLINE) = true) := by
      intro ⟨h0, hf⟩
      cases hnd with
      | inl h => exact h h0
      | inr h => simp [h] at hf
    simp only [ho, hcond, if_false]
    cases hh : plan.has_flag HB_SUBSET_FLAGS_NO_HINTING <;> simp

theorem populate_notdef_source_witness :
    (glyf._populate_subset_glyphs GlyphOps.trivial (plan_of_source face_of_one_glyph 1))[0]?
        = some ⟨0, 0, Glyph.empty, [], []⟩
      ∧ (⟨0, 0, Glyph.empty, [], []⟩ : SubsetGlyph).length = 0
      ∧ (glyf_accelerator_t.create face_of_one_glyph).glyph_for_gid GlyphOps.trivial 0 true
          = ⟨[1, 2, 3, 4], 0⟩ :=
  ⟨by decide,
    (((populate_notdef_source GlyphOps.trivial (plan_of_source face_of_one_glyph 1) 0
      ⟨0, 0, Glyph.empty, [], []⟩ (by decide)).2.1 rfl (by decide)).2
        (Or.inl (by decide))).2.2,
    by decide⟩

/-! ## The index table and the blob of a subset run -/

theorem fold_u32_sum (sizes : List Nat) :
    ∀ acc : Nat, acc < 2 ^ 32 →
      sizes.foldl (fun acc size => u32 (acc + size)) acc = (acc + sizes.sum) % 2 ^ 32 := by
  induction sizes with
  | nil =>
    intro acc h
    simp only [List.foldl_nil, List.sum_nil, Nat.add_zero]
    exact (Nat.mod_eq_of_lt h).symm
  | cons s sizes ih =>
    intro acc _
    have hlt : u32 (acc + s) < 2 ^ 32 := Nat.mod_lt _ (by norm_num)
    rw [List.foldl_cons, ih _ hlt, List.sum_cons]
    simp only [u32]
    omega

theorem padded_size_even (g : SubsetGlyph) : g.padded_size % 2 = 0 := by
  have h1 := padded_size_eq g
  have h2 := spec_padded_size_even g
  omega

theorem mem_le_sum (sizes : List Nat) (s : Nat) (h : s ∈ sizes) : s ≤ sizes.sum := by
  induction sizes with
  | nil => cases h
  | cons a sizes ih =>
    rw [List.sum_cons]
    rcases List.mem_cons.mp h with heq | hin
    · omega
    · have := ih hin
      omega

namespace glyf

theorem loca_prime_entry_of_sum (glyphs : List SubsetGlyph)
    (hsum : (padded_offsets glyphs).sum < (if use_short_loca glyphs then 131071 else 2 ^ 32))
    (hN : glyphs.length + 1 < 2 ^ 32) (i : Nat) (hi : i ≤ glyphs.length) :
    loca_entry (use_short_loca glyphs) (loca_prime glyphs) i =
      prefix_sum (padded_offsets glyphs) i / (if use_short_loca glyphs then 2 else 1) := by
  rw [loca_prime_eq glyphs hN]
  have hle := prefix_sum_le_sum (padded_offsets glyphs) i
  have hget := write_loca_get (padded_offsets glyphs) (use_short_loca glyphs) i
    (by rw [padded_offsets_length]; exact hi)
  rw [loca_entry_stored _ _ i _ hget]
  cases hs : use_short_loca glyphs with
  | true =>
    rw [hs] at hsum
    simp only [if_true] at hsum ⊢
    rw [Nat.shiftRight_eq_div_pow]
    omega
  | false =>
    rw [hs] at hsum
    simp only [Bool.false_eq_true, if_false] at hsum ⊢
    rw [Nat.shiftRight_eq_div_pow]
    omega

theorem use_short_loca_of_sum (glyphs : List SubsetGlyph)
    (h : (glyphs.map SubsetGlyph.padded_size).sum < 0x1FFFF) :
    use_short_loca glyphs = true := by
  unfold use_short_loca max_offset
  rw [fold_u32_sum _ 0 (by norm_num)]
  simp only [Nat.zero_add, decide_eq_true_eq]
  omega

end glyf

/-- C18: when the padded sizes of the glyphs add up to less than 0x1FFFF, `glyf::subset`
selects the halved-16 encoding, and every running byte offset of `_write_loca` (the sum of
the padded sizes of the glyphs before an entry) is even and at most 0x1FFFE; the value
`offset >> 1` sent for it is below 65536, so the unsigned 16-bit entry of the loca table
stores it without truncation, and twice the stored entry is the byte offset. -/
theorem short_loca_offsets_fit (glyphs : List SubsetGlyph)
    (h : (glyphs.map SubsetGlyph.padded_size).sum < 0x1FFFF)
    (hN : glyphs.length + 1 < 2 ^ 32) :
    glyf.use_short_loca glyphs = true
    ∧ glyf.padded_offsets glyphs = glyphs.map SubsetGlyph.padded_size
    ∧ ∀ i, i ≤ glyphs.length →
        prefix_sum (glyf.padded_offsets glyphs) i % 2 = 0
        ∧ prefix_sum (glyf.padded_offsets glyphs) i ≤ 0x1FFFE
        ∧ (glyf._write_loca (glyf.padded_offsets glyphs) (glyf.use_short_loca glyphs))[i]?
            = some (prefix_sum (glyf.padded_offsets glyphs) i >>> 1)
        ∧ prefix_sum (glyf.padded_offsets glyphs) i >>> 1 < 65536
        ∧ loca_entry true (loca_prime glyphs) i
            = prefix_sum (glyf.padded_offsets glyphs) i >>> 1
        ∧ 2 * loca_entry true (loca_prime glyphs) i
            = prefix_sum (glyf.padded_offsets glyphs) i := by
  have hs := glyf.use_short_loca_of_sum glyphs h
  have hpo : glyf.padded_offsets glyphs = glyphs.map SubsetGlyph.padded_size := by
    unfold glyf.padded_offsets
    rw [hs]
    rfl
  refine ⟨hs, hpo, ?_⟩
  intro i hi
  have hle := prefix_sum_le_sum (glyf.padded_offsets glyphs) i
  have heven : prefix_sum (glyf.padded_offsets glyphs) i % 2 = 0 := by
    apply prefix_sum_even
    intro s hsmem
    rw [hpo] at hsmem
    obtain ⟨g, _, hg⟩ := List.mem_map.mp hsmem
    rw [← hg]
    exact padded_size_even g
  have hsum : (glyf.padded_offsets glyphs).sum
      < (if glyf.use_short_loca glyphs then 131071 else 2 ^ 32) := by
    rw [hs, hpo]
    simpa using h
  have hentry := glyf.loca_prime_entry_of_sum glyphs hsum hN i hi
  rw [hs] at hentry
  simp only [if_true] at hentry
  have hget := glyf.write_loca_get (glyf.padded_offsets glyphs) (glyf.use_short_loca glyphs) i
    (by rw [glyf.padded_offsets_length]; exact hi)
  have hsum1 : (glyf.padded_offsets glyphs).sum < 131071 := by
    rw [hpo]
    exact h
  have hlt : prefix_sum (glyf.padded_offsets glyphs) i < 131071 := by omega
  refine ⟨heven, by omega, ?_, ?_, ?_, ?_⟩
  · rw [hget, hs]
    simp only [if_true]
    rw [Nat.mod_eq_of_lt (by omega)]
  · rw [Nat.shiftRight_eq_div_pow]; omega
  · rw [hentry, Nat.shiftRight_eq_div_pow]
  · rw [hentry]; omega

theorem short_loca_offsets_fit_witness :
    2 * loca_entry true (loca_prime [glyph_of_size 3, glyph_of_size 4]) 1
      = prefix_sum (glyf.padded_offsets [glyph_of_size 3, glyph_of_size 4]) 1 :=
  ((short_loca_offsets_fit [glyph_of_size 3, glyph_of_size 4] (by decide) (by decide)).2.2 1
    (by decide)).2.2.2.2.2

namespace glyf

theorem region_length_lt_of_written (use_short_loca : Bool) (glyphs : List SubsetGlyph)
    (hw : (glyphs.map (written_size use_short_loca)).sum < 2 ^ 32) :
    ∀ g ∈ glyphs, region_length g < 2 ^ 32 := by
  intro g hg
  have h1 : written_size use_short_loca g ≤ (glyphs.map (written_size use_short_loca)).sum :=
    mem_le_sum _ _ (List.mem_map.mpr ⟨g, hg, rfl⟩)
  have h2 : region_length g ≤ written_size use_short_loca g := by
    unfold written_size
    omega
  omega

/-- The sizes handed to `_write_loca` are the numbers of bytes written, as long as the bytes
written are fewer than `2 ^ 32`. -/
theorem padded_offsets_eq_written_of_lt (glyphs : List SubsetGlyph)
    (hw : (glyphs.map (written_size (use_short_loca glyphs))).sum < 2 ^ 32) :
    padded_offsets glyphs = glyphs.map (written_size (use_short_loca glyphs)) := by
  have hlen := region_length_lt_of_written _ glyphs hw
  unfold padded_offsets
  cases hs : use_short_loca glyphs with
  | true =>
    simp only [if_true]
    apply List.map_congr_left
    intro g hg
    have h1 : written_size true g ≤ (glyphs.map (written_size true)).sum :=
      mem_le_sum _ _ (List.mem_map.mpr ⟨g, hg, rfl⟩)
    rw [hs] at hw
    have h2 := hlen g hg
    rw [written_size_of_lt true g h2] at h1 ⊢
    simp only [if_true] at h1 ⊢
    rw [padded_size_eq]
    exact Nat.mod_eq_of_lt (by omega)
  | false =>
    simp only [Bool.false_eq_true, if_false]
    apply List.map_congr_left
    intro g hg
    have h2 := hlen g hg
    rw [written_size_of_lt false g h2, length_eq_mod]
    simp only [Bool.false_eq_true, if_false]
    exact Nat.mod_eq_of_lt h2

theorem padded_offsets_sum_lt_of_written (glyphs : List SubsetGlyph)
    (hw : (glyphs.map (written_size (use_short_loca glyphs))).sum < 2 ^ 32) :
    (padded_offsets glyphs).sum < (if use_short_loca glyphs then 131071 else 2 ^ 32) := by
  have hpo := padded_offsets_eq_written_of_lt glyphs hw
  cases hs : use_short_loca glyphs with
  | true =>
    simp only [if_true]
    have hpo1 : padded_offsets glyphs = glyphs.map SubsetGlyph.padded_size := by
      unfold padded_offsets
      rw [hs]
      rfl
    have hmax : max_offset glyphs < 0x1FFFF := by
      have := hs
      unfold use_short_loca at this
      simpa using this
    unfold max_offset at hmax
    rw [fold_u32_sum _ 0 (by norm_num), Nat.zero_add, ← hpo1, hpo,
      Nat.mod_eq_of_lt hw] at hmax
    rw [hpo]
    exact hmax
  | false =>
    simp only [Bool.false_eq_true, if_false]
    rw [hpo]
    exact hw

theorem loca_decoded_offset (glyphs : List SubsetGlyph)
    (hw : (glyphs.map (written_size (use_short_loca glyphs))).sum < 2 ^ 32)
    (hN : glyphs.length + 1 < 2 ^ 32) (i : Nat) (hi : i ≤ glyphs.length) :
    loca_entry (use_short_loca glyphs) (loca_prime glyphs) i
        * (if use_short_loca glyphs then 2 else 1)
      = prefix_sum (glyphs.map (written_size (use_short_loca glyphs))) i := by
  have hentry := loca_prime_entry_of_sum glyphs (padded_offsets_sum_lt_of_written glyphs hw)
    hN i hi
  have hpo := padded_offsets_eq_written_of_lt glyphs hw
  rw [hentry, ← hpo]
  cases hs : use_short_loca glyphs with
  | true =>
    simp only [if_true]
    have heven : prefix_sum (padded_offsets glyphs) i % 2 = 0 := by
      apply prefix_sum_even
      intro s hsmem
      have hpo1 : padded_offsets glyphs = glyphs.map SubsetGlyph.padded_size := by
        unfold padded_offsets
        rw [hs]
        rfl
      rw [hpo1] at hsmem
      obtain ⟨g, _, hg⟩ := List.mem_map.mp hsmem
      rw [← hg]
      exact padded_size_even g
    omega
  | false => simp

end glyf

theorem padded_offsets_get (glyphs : List SubsetGlyph) (i : Nat) (g : SubsetGlyph)
    (hg : glyphs[i]? = some g) :
    (glyf.padded_offsets glyphs)[i]?
      = some (if glyf.use_short_loca glyphs then g.padded_size else g.length) := by
  unfold glyf.padded_offsets
  cases glyf.use_short_loca glyphs <;> simp [List.getElem?_map, hg]

theorem glyphs_output_nil_of_empty (ops : GlyphOps) (plan : hb_subset_plan_t)
    (use_short_loca : Bool) (glyphs : List SubsetGlyph)
    (h : ∀ g ∈ glyphs, region_length g = 0) :
    (glyphs.map (written_size use_short_loca)).sum = 0
      ∧ glyphs_output ops plan use_short_loca glyphs = [] := by
  have hsum : (glyphs.map (written_size use_short_loca)).sum = 0 := by
    apply List.sum_eq_zero
    intro s hs
    obtain ⟨g, hg, hgs⟩ := List.mem_map.mp hs
    rw [← hgs]
    have h0 := h g hg
    have hreg : region_length g = g.dest_start.length + g.dest_end.length := rfl
    unfold written_size SubsetGlyph.padding SubsetGlyph.length
    rw [← hreg, h0]
    cases use_short_loca <;> simp [u32]
  refine ⟨hsum, ?_⟩
  apply List.length_eq_zero.mp
  rw [glyf.glyphs_output_length, hsum]

/-- C17: for every list of subset glyphs, in a run of `glyf::subset` on them that has room
in the serializer, starts from an empty blob, whose two allocations succeed and that writes
fewer than `2 ^ 32` bytes (a blob's length is an `unsigned`; N + 1 fits `num_offsets`), the
run succeeds and the loca table it adds agrees with the blob it writes, under the encoding
it selects.  For every glyph i: the i-th size handed to `_write_loca` is `padded_size ()`
under halved-16 and `length ()` under direct-32; `SubsetGlyph::serialize` appends exactly
that many bytes to a serializer with room; the decoded offset of entry i (the stored value
times 2 under halved-16) is the position in the blob at which the bytes of glyph i begin,
and the next entry is that position plus the size.  Unless all glyphs are empty, the last
entry, decoded, is the length of the blob; when all are empty the blob is the single zero
byte and the last entry is 0. -/
theorem loca_agrees_with_blob (ops : GlyphOps) (c : hb_subset_context_t) (mem : hb_alloc_t)
    (glyphs : List SubsetGlyph) (he : c.serializer.errors = false)
    (hd : c.serializer.data = [])
    (hr : (glyphs.map (written_size (glyf.use_short_loca glyphs))).sum < c.serializer.room)
    (hw : (glyphs.map (written_size (glyf.use_short_loca glyphs))).sum < 2 ^ 32)
    (hN : glyphs.length + 1 < 2 ^ 32)
    (hc : mem.calloc_ok = true) (hb : mem.blob_copy_ok = true) :
    (glyf.subset_glyphs ops c mem glyphs).1 = true
    ∧ (glyf.subset_glyphs ops c mem glyphs).2.plan.dest = c.plan.dest ++
        [(HB_OT_TAG_loca, loca_prime glyphs),
          (HB_OT_TAG_head, head_prime c.plan.source.head (glyf.use_short_loca glyphs))]
    ∧ (∀ i g, glyphs[i]? = some g →
        (glyf.padded_offsets glyphs)[i]?
            = some (if glyf.use_short_loca glyphs then g.padded_size else g.length)
        ∧ (∀ c1 : hb_serialize_context_t, c1.errors = false →
            written_size (glyf.use_short_loca glyphs) g ≤ c1.room →
            (g.serialize ops c1 (glyf.use_short_loca glyphs) c.plan).data.length
              = c1.data.length
                + (if glyf.use_short_loca glyphs then g.padded_size else g.length))
        ∧ (((glyf.subset_glyphs ops c mem glyphs).2.serializer.data.drop
              (loca_entry (glyf.use_short_loca glyphs) (loca_prime glyphs) i
                * (if glyf.use_short_loca glyphs then 2 else 1))).take
              (if glyf.use_short_loca glyphs then g.padded_size else g.length)
            = glyph_output ops c.plan (glyf.use_short_loca glyphs) g)
        ∧ loca_entry (glyf.use_short_loca glyphs) (loca_prime glyphs) (i + 1)
              * (if glyf.use_short_loca glyphs then 2 else 1)
            = loca_entry (glyf.use_short_loca glyphs) (loca_prime glyphs) i
                * (if glyf.use_short_loca glyphs then 2 else 1)
              + (if glyf.use_short_loca glyphs then g.padded_size else g.length))
    ∧ ((∃ g ∈ glyphs, region_length g ≠ 0) →
        loca_entry (glyf.use_short_loca glyphs) (loca_prime glyphs) glyphs.length
            * (if glyf.use_short_loca glyphs then 2 else 1)
          = (glyf.subset_glyphs ops c mem glyphs).2.serializer.data.length)
    ∧ ((∀ g ∈ glyphs, region_length g = 0) →
        (glyf.subset_glyphs ops c mem glyphs).2.serializer.data = [0]
        ∧ loca_entry (glyf.use_short_loca glyphs) (loca_prime glyphs) glyphs.length
            * (if glyf.use_short_loca glyphs then 2 else 1) = 0) := by
  have hlen := glyf.region_length_lt_of_written _ glyphs hw
  have hrun := glyf.subset_glyphs_ok ops c mem glyphs he hlen hr hc hb
  have hser := (glyf.serialize_table_ok ops c.serializer glyphs (glyf.use_short_loca glyphs)
    c.plan he hlen hr).2
  rw [hd, List.nil_append] at hser
  have hpo := glyf.padded_offsets_eq_written_of_lt glyphs hw
  have hdec := glyf.loca_decoded_offset glyphs hw hN
  have hdata : (glyf.subset_glyphs ops c mem glyphs).2.serializer.data
      = glyphs_output ops c.plan (glyf.use_short_loca glyphs) glyphs
        ++ (if glyphs_output ops c.plan (glyf.use_short_loca glyphs) glyphs = [] then [0]
            else []) := by
    rw [hrun]
    simp only
    rw [hser]
    split <;> simp [*]
  have htotal : prefix_sum (glyphs.map (written_size (glyf.use_short_loca glyphs)))
      glyphs.length = (glyphs.map (written_size (glyf.use_short_loca glyphs))).sum := by
    unfold prefix_sum
    rw [List.take_of_length_le (by simp)]
  refine ⟨by rw [hrun], by rw [hrun], ?_, ?_, ?_⟩
  · intro i g hg
    have hget := padded_offsets_get glyphs i g hg
    have hsize : (if glyf.use_short_loca glyphs then g.padded_size else g.length)
        = written_size (glyf.use_short_loca glyphs) g := by
      have h1 := hget
      rw [hpo, List.getElem?_map, hg] at h1
      simpa using h1.symm
    have hi : i < glyphs.length := (List.getElem?_eq_some_iff.mp hg).1
    have hgmem : g ∈ glyphs := List.getElem?_mem hg
    refine ⟨hget, ?_, ?_, ?_⟩
    · intro c1 he1 hr1
      have hr2 : region_length g + (if glyf.use_short_loca glyphs then g.padding else 0)
          ≤ c1.room := hr1
      rw [SubsetGlyph.serialize_ok ops g c1 _ c.plan he1 (hlen g hgmem) hr2, hsize]
      simp only [List.length_append, glyph_output_length]
    · rw [hdec i (by omega), hdata, hsize, ← glyph_output_length ops c.plan _ g,
        ← glyf.glyphs_output_lengths ops c.plan (glyf.use_short_loca glyphs) glyphs]
      apply flatten_slice
      rw [List.getElem?_map, hg]
      rfl
    · rw [hdec i (by omega), hdec (i + 1) (by omega), hsize]
      apply prefix_sum_succ
      rw [List.getElem?_map, hg]
      rfl
  · intro hex
    obtain ⟨g, hg, hne⟩ := hex
    have hpos : 0 < (glyphs.map (written_size (glyf.use_short_loca glyphs))).sum := by
      have h1 : written_size (glyf.use_short_loca glyphs) g
          ≤ (glyphs.map (written_size (glyf.use_short_loca glyphs))).sum :=
        mem_le_sum _ _ (List.mem_map.mpr ⟨g, hg, rfl⟩)
      have h2 : region_length g ≤ written_size (glyf.use_short_loca glyphs) g := by
        unfold written_size
        omega
      omega
    have hnil : glyphs_output ops c.plan (glyf.use_short_loca glyphs) glyphs ≠ [] := by
      intro h
      have hl := glyf.glyphs_output_length ops c.plan (glyf.use_short_loca glyphs) glyphs
      rw [h] at hl
      simp at hl
      omega
    rw [hdec glyphs.length (Nat.le_refl _), htotal, hdata, if_neg hnil, List.append_nil,
      glyf.glyphs_output_length]
  · intro hall
    obtain ⟨hsum, hnil⟩ := glyphs_output_nil_of_empty ops c.plan (glyf.use_short_loca glyphs)
      glyphs hall
    refine ⟨?_, ?_⟩
    · rw [hdata, hnil]
      rfl
    · rw [hdec glyphs.length (Nat.le_refl _), htotal, hsum]

theorem loca_agrees_with_blob_witness :
    loca_entry (glyf.use_short_loca [glyph_of_size 3, glyph_of_size 4])
        (loca_prime [glyph_of_size 3, glyph_of_size 4]) 2
        * (if glyf.use_short_loca [glyph_of_size 3, glyph_of_size 4] then 2 else 1)
      = (glyf.subset_glyphs GlyphOps.trivial
          ⟨⟨[], 100, false⟩, plan_of_source face_of_one_glyph 2⟩ ⟨true, true⟩
          [glyph_of_size 3, glyph_of_size 4]).2.serializer.data.length :=
  (loca_agrees_with_blob GlyphOps.trivial
    ⟨⟨[], 100, false⟩, plan_of_source face_of_one_glyph 2⟩ ⟨true, true⟩
    [glyph_of_size 3, glyph_of_size 4] rfl rfl (by decide) (by decide) (by decide) rfl
    rfl).2.2.2.1 ⟨glyph_of_size 3, by decide, by decide⟩

/-! ## The lone off-curve point -/

/-- The commands of a contour that is a single off-curve point: both coordinates of the
point go through `em_fscalef_x`. -/
theorem lone_offcurve_commands {F : Type} (ops : FloatOps F) (font : hb_font_t F) (x y : F) :
    ((path_builder_t.init font ⟨[]⟩).consume_points ops
        [⟨0, x, y, true⟩]).draw_session.commands
      = [draw_command_t.move_to (font.em_fscalef_x x) (font.em_fscalef_x y),
          draw_command_t.quadratic_to (font.em_fscalef_x x) (font.em_fscalef_x y)
            (font.em_fscalef_x x) (font.em_fscalef_x y),
          draw_command_t.close_path] := by
  simp [path_builder_t.consume_points, path_builder_t.consume_point,
    path_builder_t.consume_contour_point, path_builder_t.end_contour,
    path_builder_t.join_offcurves, path_builder_t.return_to_start, path_builder_t.init,
    hb_draw_session_t.move_to, hb_draw_session_t.quadratic_to,
    hb_draw_session_t.close_path, FLAG_ON_CURVE]

/-- The commands of a lone off-curve point are the ones scaled with `em_fscalef_y` on the y
coordinate exactly when the two scalings agree on that coordinate. -/
theorem lone_offcurve_commands_iff {F : Type} (ops : FloatOps F) (font : hb_font_t F)
    (x y : F) :
    ((path_builder_t.init font ⟨[]⟩).consume_points ops
        [⟨0, x, y, true⟩]).draw_session.commands
      = [draw_command_t.move_to (font.em_fscalef_x x) (font.em_fscalef_y y),
          draw_command_t.quadratic_to (font.em_fscalef_x x) (font.em_fscalef_y y)
            (font.em_fscalef_x x) (font.em_fscalef_y y),
          draw_command_t.close_path]
      ↔ font.em_fscalef_x y = font.em_fscalef_y y := by
  rw [lone_offcurve_commands]
  constructor
  · intro h
    simp only [List.cons.injEq, draw_command_t.move_to.injEq, true_and] at h
    exact h.1
  · intro h
    rw [h]

/-- C21 (the code at the failing input): on the font whose x-scale is the identity and
whose y-scale doubles, the contour of the single off-curve point (3, 5), flagged as the end
of the contour, makes a fresh builder emit `move_to(3, 5)`, `quadratic_to(3, 5, 3, 5)`,
`close_path`, where X = `em_fscalef_x (3)` = 3 and Y = `em_fscalef_y (5)` = 10: the y
coordinate has gone through the x-scale, unlike that of an on-curve point, whose `move_to`
is at (3, 10). -/
theorem lone_offcurve_point_scaling :
    ((path_builder_t.init font_of_two_scales ⟨[]⟩).consume_points FloatOps.exact
        [⟨0, 3, 5, true⟩]).draw_session.commands
      = [draw_command_t.move_to 3 5, draw_command_t.quadratic_to 3 5 3 5,
          draw_command_t.close_path]
    ∧ font_of_two_scales.em_fscalef_x 3 = 3
    ∧ font_of_two_scales.em_fscalef_y 5 = 10
    ∧ ((path_builder_t.init font_of_two_scales ⟨[]⟩).consume_point FloatOps.exact
        ⟨FLAG_ON_CURVE, 3, 5, false⟩).draw_session.commands
      = [draw_command_t.move_to 3 10] := by
  refine ⟨lone_offcurve_commands FloatOps.exact font_of_two_scales 3 5, rfl, ?_, ?_⟩
  · simp only [font_of_two_scales]
    norm_num
  · simp only [path_builder_t.consume_point, path_builder_t.consume_contour_point,
      path_builder_t.init, hb_draw_session_t.move_to, font_of_two_scales, FLAG_ON_CURVE]
    norm_num

/-! ## Side bearings, and the accelerator of an unknown format -/

/-- When `Glyph::get_points` yields a stream, `get_side_bearing_var` reads neither the
static tables nor the axis count: the result is the same for all of them. -/
theorem get_side_bearing_var_of_points {F : Type} (gops : GlyphOps) (ops : FloatOps F)
    (rops : FloatRounding F) (pops : GlyphPoints F) (a : glyf_accelerator_t)
    (t t1 : accelerator_tables_t) (font : hb_font_t F) (gid : Nat) (is_vertical : Bool)
    (all_points : List (contour_point_t F)) (hgid : gid < a.num_glyphs)
    (hpts : pops.get_points font a (a.glyph_for_gid gops gid false) false = some all_points) :
    a.get_side_bearing_var gops ops rops pops t font gid is_vertical
      = a.get_side_bearing_var gops ops rops pops t1 font gid is_vertical := by
  have hng : ¬ (gid ≥ a.num_glyphs) := by omega
  unfold glyf_accelerator_t.get_side_bearing_var glyf_accelerator_t.get_points
  simp [hng, hpts, points_aggregator_t.consumer, points_aggregator_t.init]

/-- C22 (the code at the failing input): for glyph 0 of an accelerator of one glyph whose
assembled point stream has its left phantom point at x = 0, with static side bearing 50,
`get_side_bearing_var` returns 0, the floor of the phantom coordinate, both on a font with
two coordinates over a store of one axis and on a font with no coordinates; it does not
return the static side bearing 50, while `get_advance_var` on the same mismatched font
returns the static advance 500. -/
theorem get_side_bearing_var_no_fallback :
    font_of_two_coords.num_coords ≠ tables_with_bearings.gvar.get_axis_count
    ∧ accelerator_of_one_glyph.get_side_bearing_var GlyphOps.trivial FloatOps.exact
        FloatRounding.exact GlyphPoints.six tables_with_bearings font_of_two_coords 0 false = 0
    ∧ unscaled_font.num_coords = 0
    ∧ accelerator_of_one_glyph.get_side_bearing_var GlyphOps.trivial FloatOps.exact
        FloatRounding.exact GlyphPoints.six tables_with_bearings unscaled_font 0 false = 0
    ∧ tables_with_bearings.hmtx.get_side_bearing 0 = 50
    ∧ accelerator_of_one_glyph.get_advance_var GlyphOps.trivial FloatOps.exact
        GlyphPoints.six tables_with_bearings font_of_two_coords 0 false = 500 := by
  decide

theorem create_disabled_of_format (face : hb_face_t)
    (h : head_indexToLocFormat face.head > 1 ∨ head_glyphDataFormat face.head > 0) :
    glyf_accelerator_t.create face
      = { short_offset := false, num_glyphs := 0, loca_table := [], glyf_table := [] } := by
  unfold glyf_accelerator_t.create
  rw [if_pos h]

/-- C25: if the head table has `indexToLocFormat > 1` or `glyphDataFormat > 0`, the
accelerator constructed has `num_glyphs` 0 and `has_data ()` false, and for every glyph id,
whatever the font and the metrics tables: `glyph_for_gid` returns the empty glyph,
`get_extents` returns false and leaves the extents, `get_path` returns false and sends the
draw session nothing, and `get_advance_var` and `get_side_bearing_var` return 0. -/
theorem disabled_accelerator (face : hb_face_t)
    (h : head_indexToLocFormat face.head > 1 ∨ head_glyphDataFormat face.head > 0) :
    (glyf_accelerator_t.create face).num_glyphs = 0
    ∧ (glyf_accelerator_t.create face).has_data = false
    ∧ (∀ (gops : GlyphOps) (gid : Nat) (needs_padding_removal : Bool),
        (glyf_accelerator_t.create face).glyph_for_gid gops gid needs_padding_removal
          = Glyph.empty)
    ∧ (∀ (F : Type) (gops : GlyphOps) (ops : FloatOps F) (rops : FloatRounding F)
        (pops : GlyphPoints F) (eops : GlyphExtents F) (t : accelerator_tables_t)
        (font : hb_font_t F) (gid : Nat) (is_vertical : Bool)
        (extents : hb_glyph_extents_t) (draw_session : hb_draw_session_t F),
        (glyf_accelerator_t.create face).get_extents gops ops pops eops t font gid extents
            = (false, extents)
        ∧ (glyf_accelerator_t.create face).get_path gops ops pops font gid draw_session
            = (false, draw_session)
        ∧ (glyf_accelerator_t.create face).get_advance_var gops ops pops t font gid
            is_vertical = 0
        ∧ (glyf_accelerator_t.create face).get_side_bearing_var gops ops rops pops t font gid
            is_vertical = 0) := by
  rw [create_disabled_of_format face h]
  refine ⟨rfl, rfl, ?_, ?_⟩
  · intro gops gid npr
    exact glyph_for_gid_of_invalid gops _ gid npr (Or.inl (Nat.zero_le _))
  · intro F gops ops rops pops eops t font gid is_vertical extents draw_session
    refine ⟨?_, ?_, ?_, ?_⟩
    · simp [glyf_accelerator_t.get_extents]
    · simp [glyf_accelerator_t.get_path, glyf_accelerator_t.get_points,
        path_builder_t.init]
    · simp [glyf_accelerator_t.get_advance_var]
    · simp [glyf_accelerator_t.get_side_bearing_var]

theorem disabled_accelerator_witness :
    (glyf_accelerator_t.create face_of_unknown_format).has_data = false
      ∧ (glyf_accelerator_t.create face_of_unknown_format).get_advance_var GlyphOps.trivial
          FloatOps.exact GlyphPoints.six static_tables unscaled_font 0 false = 0 :=
  ⟨(disabled_accelerator face_of_unknown_format (by decide)).2.1,
    ((disabled_accelerator face_of_unknown_format (by decide)).2.2.2 ℚ GlyphOps.trivial
      FloatOps.exact FloatRounding.exact GlyphPoints.six GlyphExtents.none static_tables
      unscaled_font 0 false ⟨0, 0, 0, 0⟩ ⟨[]⟩).2.2.1⟩

/-! ## The glyph count of the accelerator -/

/-- C24: with `num_glyphs` as the constructor computes it, the smaller of
`max (1, loca_length / entry_size) - 1` and the glyph count of the face (entry sizes 2 for
short offsets and 4 for long ones), every glyph id below `num_glyphs` has both index entries
that `glyph_for_gid` reads, the entries `gid` and `gid + 1`, inside the loca blob:
`(gid + 2) * entry_size <= loca_length`, so each of their `2 * entry_size` bytes lies below
the length; and a loca blob shorter than two entries gives `num_glyphs = 0`. -/
theorem create_num_glyphs_bound (face : hb_face_t) :
    (¬ (head_indexToLocFormat face.head > 1 ∨ head_glyphDataFormat face.head > 0) →
      (glyf_accelerator_t.create face).loca_table = face.loca
      ∧ (glyf_accelerator_t.create face).num_glyphs
          = min (max 1 (face.loca.length
              / (if (glyf_accelerator_t.create face).short_offset then 2 else 4)) - 1)
            face.num_glyphs)
    ∧ (∀ gid, gid < (glyf_accelerator_t.create face).num_glyphs →
        (gid + 2) * (if (glyf_accelerator_t.create face).short_offset then 2 else 4)
            ≤ (glyf_accelerator_t.create face).loca_table.length
        ∧ ∀ k, k < 2 * (if (glyf_accelerator_t.create face).short_offset then 2 else 4) →
            (if (glyf_accelerator_t.create face).short_offset then 2 else 4) * gid + k
              < (glyf_accelerator_t.create face).loca_table.length)
    ∧ (face.loca.length
          < 2 * (if (glyf_accelerator_t.create face).short_offset then 2 else 4) →
        (glyf_accelerator_t.create face).num_glyphs = 0) := by
  by_cases h : head_indexToLocFormat face.head > 1 ∨ head_glyphDataFormat face.head > 0
  · rw [create_disabled_of_format face h]
    refine ⟨fun hn => absurd h hn, ?_, fun _ => rfl⟩
    intro gid hgid
    exact absurd hgid (Nat.not_lt_zero _)
  · unfold glyf_accelerator_t.create
    rw [if_neg h]
    simp only
    cases hs : decide (0 = head_indexToLocFormat face.head) with
    | true =>
      simp only [if_true]
      have hdiv := Nat.div_mul_le_self face.loca.length 2
      have hlt := Nat.lt_div_mul_add (a := face.loca.length) (b := 2) (by norm_num)
      refine ⟨fun _ => by simp, ?_, ?_⟩
      · intro gid hgid
        have h1 : gid < max 1 (face.loca.length / 2) - 1 :=
          Nat.lt_of_lt_of_le hgid (Nat.min_le_left _ _)
        have h2 : gid + 2 ≤ face.loca.length / 2 := by omega
        have h3 : (gid + 2) * 2 ≤ face.loca.length / 2 * 2 := Nat.mul_le_mul_right 2 h2
        refine ⟨by omega, ?_⟩
        intro k hk
        omega
      · intro hshort
        have h0 : face.loca.length / 2 ≤ 1 := by omega
        have h1 : max 1 (face.loca.length / 2) - 1 = 0 := by omega
        rw [h1]
        exact Nat.zero_min _
    | false =>
      simp only [Bool.false_eq_true, if_false]
      have hdiv := Nat.div_mul_le_self face.loca.length 4
      have hlt := Nat.lt_div_mul_add (a := face.loca.length) (b := 4) (by norm_num)
      refine ⟨fun _ => by simp, ?_, ?_⟩
      · intro gid hgid
        have h1 : gid < max 1 (face.loca.length / 4) - 1 :=
          Nat.lt_of_lt_of_le hgid (Nat.min_le_left _ _)
        have h2 : gid + 2 ≤ face.loca.length / 4 := by omega
        have h3 : (gid + 2) * 4 ≤ face.loca.length / 4 * 4 := Nat.mul_le_mul_right 4 h2
        refine ⟨by omega, ?_⟩
        intro k hk
        omega
      · intro hshort
        have h0 : face.loca.length / 4 ≤ 1 := by omega
        have h1 : max 1 (face.loca.length / 4) - 1 = 0 := by omega
        rw [h1]
        exact Nat.zero_min _

theorem create_num_glyphs_bound_witness :
    (0 + 2) * (if (glyf_accelerator_t.create face_of_one_glyph).short_offset then 2 else 4)
      ≤ (glyf_accelerator_t.create face_of_one_glyph).loca_table.length :=
  ((create_num_glyphs_bound face_of_one_glyph).2.1 0 (by decide)).1

/-! ## One entry per output glyph -/

theorem populate_get_unmapped (ops : GlyphOps) (plan : hb_subset_plan_t) (i : Nat)
    (hi : i < plan.num_output_glyphs) (ho : plan.old_gid_for_new_gid i = none) :
    (glyf._populate_subset_glyphs ops plan)[i]? = some ⟨i, 0, Glyph.empty, [], []⟩ := by
  unfold glyf._populate_subset_glyphs
  simp only [List.getElem?_map, List.getElem?_range hi, Option.map_some', ho]

theorem populate_new_gid (ops : GlyphOps) (plan : hb_subset_plan_t) (i : Nat)
    (g : SubsetGlyph) (hg : (glyf._populate_subset_glyphs ops plan)[i]? = some g) :
    g.new_gid = i := by
  have hi : i < plan.num_output_glyphs := by
    have h := (List.getElem?_eq_some_iff.mp hg).1
    rw [glyf.populate_length] at h
    exact h
  unfold glyf._populate_subset_glyphs at hg
  simp only [List.getElem?_map, List.getElem?_range hi, Option.map_some',
    Option.some.injEq] at hg
  subst hg
  cases plan.old_gid_for_new_gid i with
  | none => rfl
  | some o => simp only; split <;> rfl

/-- C23: `_populate_subset_glyphs` produces exactly `plan->num_output_glyphs ()` entries,
the i-th with `new_gid = i`; for an output id for which `plan->old_gid_for_new_gid` fails
the entry is there, with the empty glyph as source, empty `dest_start` and `dest_end`, and
`length ()` and `padded_size ()` 0; and the loca table of a successful run of
`glyf::subset` has one entry per output id and one more. -/
theorem populate_one_entry_per_output_id (ops : GlyphOps) (plan : hb_subset_plan_t) :
    (glyf._populate_subset_glyphs ops plan).length = plan.num_output_glyphs
    ∧ (∀ i, i < plan.num_output_glyphs →
        ∃ g, (glyf._populate_subset_glyphs ops plan)[i]? = some g ∧ g.new_gid = i)
    ∧ (∀ i, i < plan.num_output_glyphs → plan.old_gid_for_new_gid i = none →
        ∃ g, (glyf._populate_subset_glyphs ops plan)[i]? = some g
          ∧ g.new_gid = i ∧ g.source_glyph = Glyph.empty
          ∧ g.dest_start = [] ∧ g.dest_end = [] ∧ g.length = 0 ∧ g.padded_size = 0)
    ∧ (∀ (c c1 : hb_subset_context_t) (mem : hb_alloc_t), c.plan = plan →
        c.serializer.errors = false → plan.num_output_glyphs + 1 < 2 ^ 32 →
        glyf.subset ops c mem = (true, c1) →
        (find_table c1.plan.dest HB_OT_TAG_loca).length
          = (if glyf.use_short_loca (glyf._populate_subset_glyphs ops plan) then 2 else 4)
            * (plan.num_output_glyphs + 1)) := by
  refine ⟨glyf.populate_length ops plan, ?_, ?_, ?_⟩
  · intro i hi
    have hlt : i < (glyf._populate_subset_glyphs ops plan).length := by
      rw [glyf.populate_length]; exact hi
    refine ⟨(glyf._populate_subset_glyphs ops plan)[i], List.getElem?_eq_getElem hlt, ?_⟩
    exact populate_new_gid ops plan i _ (List.getElem?_eq_getElem hlt)
  · intro i hi ho
    exact ⟨⟨i, 0, Glyph.empty, [], []⟩, populate_get_unmapped ops plan i hi ho, rfl, rfl, rfl,
      rfl, rfl, rfl⟩
  · intro c c1 mem hc he hN hrun
    subst hc
    rw [glyf.subset_eq ops c mem he] at hrun
    have h3 := (glyf.subset_glyphs_true ops c c1 mem _ hrun).2.2
    rw [h3]
    simp only
    rw [find_table_loca, loca_prime_length _ (by rw [glyf.populate_length]; exact hN),
      glyf.populate_length]

theorem populate_one_entry_per_output_id_witness :
    ∃ g, (glyf._populate_subset_glyphs GlyphOps.trivial plan_of_two_gids)[0]? = some g
      ∧ g.new_gid = 0 ∧ g.source_glyph = Glyph.empty
      ∧ g.dest_start = [] ∧ g.dest_end = [] ∧ g.length = 0 ∧ g.padded_size = 0 :=
  (populate_one_entry_per_output_id GlyphOps.trivial plan_of_two_gids).2.2.1 0
    (by decide) (by
      simp [hb_subset_plan_t.old_gid_for_new_gid, plan_of_two_gids])

end OT
